import Mathlib

/-!
Verification of the EmailSearcher PATRICIA-trie index: a shallow embedding of
the tokenizer (`utility/tokenutils.py`), the path utilities
(`utility/osutils.py`), the trie builder and postings placement
(`core/indexer.py`), the directory-tree and tar-archive searchers
(`core/searches.py`) and the archiver (`core/archiver.py`), together with
theorems settling the specification's claims against the embedded code.

Modelling conventions:
* Strings are lists of code points (`List Nat`).  Character classification
  (`str.isspace`, `str.isprintable`, `string.punctuation`, `str.casefold`)
  is modelled on the ASCII range, where it agrees exactly with CPython.
* Paths are lists of components relative to the directory-trie root.
  `pathlib` operations (`stem`, `suffix`, `suffixes`, `is_reserved`) follow
  CPython 3.8, the version the source targets (it uses `:=` and f-strings).
* Python `set`s are modelled as deduplicated lists where the construction
  order matters to the code, and as `Finset`s for search results, whose
  set semantics is all the code relies on.
* A `.ind` postings file is stored as its list of lines; the source writes
  one source path per line and reads them back with `splitlines`.
* Concurrency (pools, queues, locks) only affects scheduling; every claim
  is about the net result of a successful run, which is what is embedded.
-/

namespace EmailSearcher

abbrev Str := List Nat
abbrev Comp := Str
abbrev Pth := List Comp

/-! ### Tokenizer (`tokenutils.as_tokens`) -/

/-- `str.isspace` on the ASCII range: `\t\n\v\f\r`, `\x1c`-`\x1f` and space. -/
def pyIsSpace (c : Nat) : Bool := (9 ≤ c && c ≤ 13) || (28 ≤ c && c ≤ 32)

/-- `str.isprintable` on the ASCII range: codes 32-126. -/
def pyIsPrintable (c : Nat) : Bool := 32 ≤ c && c ≤ 126

/-- Membership in `string.punctuation` (the 32 ASCII punctuation chars). -/
def pyIsPunct (c : Nat) : Bool :=
  (33 ≤ c && c ≤ 47) || (58 ≤ c && c ≤ 64) || (91 ≤ c && c ≤ 96) || (123 ≤ c && c ≤ 126)

/-- `str.casefold` on the ASCII range: lower-case the letters. -/
def pyCaseFold (c : Nat) : Nat := if 65 ≤ c && c ≤ 90 then c + 32 else c

/-- The translation table built in `as_tokens`: every punctuation character
becomes a space. -/
def translatePunct (c : Nat) : Nat := if pyIsPunct c then 32 else c

def splitWsAux : Str → Str → List Str
  | [], acc => if acc.isEmpty then [] else [acc.reverse]
  | c :: rest, acc =>
      if pyIsSpace c then
        if acc.isEmpty then splitWsAux rest [] else acc.reverse :: splitWsAux rest []
      else splitWsAux rest (c :: acc)

/-- Python `str.split()` with no separator: split on whitespace runs,
discarding empty pieces. -/
def pySplit (s : Str) : List Str := splitWsAux s []

/-- The normalization pipeline of `as_tokens` before splitting: keep
characters that are whitespace or printable, turn punctuation into spaces,
case-fold. -/
def normalizeText (text : Str) : Str :=
  ((text.filter fun c => pyIsSpace c || pyIsPrintable c).map translatePunct).map pyCaseFold

/-- `tokenutils.as_tokens(text, unique)`.  `unique=True` wraps the token list
in a `set`; Python then yields it in unspecified order, so the model keeps
first occurrences (`dedup`), which represents the same set. -/
def as_tokens (text : Str) (unique : Bool) : List Str :=
  if unique then (pySplit (normalizeText text)).dedup else pySplit (normalizeText text)

/-- `tokenutils.tokenize`: the unique tokens of one file's text. -/
def unique_tokens (text : Str) : List Str := as_tokens text true

/-! ### Filenames (`pathlib.PurePath.stem` / `str.strip('_')`) -/

/-- The postings filename built by the writer's `flush`: `token + '_.ind'`. -/
def encodeInd (t : Str) : Str := t ++ [95, 46, 105, 110, 100]

/-- Index of the last `'.'` in a name, if any. -/
def lastDotPos (name : Str) : Option Nat :=
  (name.reverse.findIdx? fun c => c = 46).map fun j => name.length - 1 - j

/-- `pathlib` `stem`: the name without its suffix; a suffix starts at the
last dot provided that dot is neither first nor last. -/
def pyStem (name : Str) : Str :=
  match lastDotPos name with
  | some i => if 0 < i ∧ i + 1 < name.length then name.take i else name
  | none => name

/-- `pathlib` `suffix`: the extension from the last dot, under the same
conditions as `pyStem`. -/
def pySuffix (name : Str) : Str :=
  match lastDotPos name with
  | some i => if 0 < i ∧ i + 1 < name.length then name.drop i else []
  | none => []

/-- Python `str.strip('_')`: remove underscores from both ends. -/
def stripUnderscores (s : Str) : Str :=
  ((s.dropWhile fun c => c = 95).reverse.dropWhile fun c => c = 95).reverse

/-- Recover a token from its postings filename, as done by
`osutils.transfer` (`Path(src).stem.strip('_')`) and by the archive
searcher's exact match (`Path(name).stem.strip('_')`). -/
def decodeInd (name : Str) : Str := stripUnderscores (pyStem name)

/-- The `.ind` extension. -/
def indExt : Str := [46, 105, 110, 100]

/-! ### Reserved names and `osutils.safeguard_path` -/

/-- The Windows reserved names checked by `PureWindowsPath.is_reserved`:
`CON PRN AUX NUL COM1..COM9 LPT1..LPT9`. -/
def reservedNames : List Str :=
  [[67, 79, 78], [80, 82, 78], [65, 85, 88], [78, 85, 76]]
    ++ ((List.range 9).map fun i => [67, 79, 77, 49 + i])
    ++ ((List.range 9).map fun i => [76, 80, 84, 49 + i])

/-- ASCII upper-casing, as `str.upper` behaves on the names involved. -/
def upperCh (c : Nat) : Nat := if 97 ≤ c && c ≤ 122 then c - 32 else c

/-- CPython 3.8 `PureWindowsPath.is_reserved` applied to one component:
the part before the first dot, upper-cased, is a reserved name. -/
def isReservedName (name : Str) : Bool :=
  ((name.takeWhile fun c => c ≠ 46).map upperCh) ∈ reservedNames

/-- `Path.is_reserved()` looks only at the final component of the path. -/
def pathIsReserved (p : Pth) : Bool :=
  match p.getLast? with
  | none => false
  | some name => isReservedName name

/-- The loop of `safeguard_path`, fueled.  Each pass replaces a reserved
final component by `stem[0] / stem[1:]` (note: the `stem`, so a file suffix
is dropped); an empty `stem` raises `IndexError`, which the source catches
and turns into `None` (`some none` here).  `none` is fuel exhaustion, which
`sgIter_fuel_sufficient` below shows cannot happen at the fuel
`safeguard_path` supplies. -/
def sgIter : Nat → Pth → Option (Option Pth)
  | 0, _ => none
  | fuel + 1, p =>
    if pathIsReserved p then
      match pyStem (p.getLastD []) with
      | [] => some none
      | c :: rest => sgIter fuel (p.dropLast ++ [c] :: if rest.isEmpty then [] else [rest])
    else some (some p)

/-- `osutils.safeguard_path`. -/
def safeguard_path (p : Pth) : Option Pth :=
  (sgIter ((p.getLastD []).length + 1) p).join

/-- The chain of components that `safeguard_path` produces from one
dot-free component: `CON ↦ C/ON`, a non-reserved component is untouched. -/
def sgChain : Comp → List Comp
  | [] => [[]]
  | c :: rest =>
      if isReservedName (c :: rest) then
        [c] :: if rest.isEmpty then [] else sgChain rest
      else [c :: rest]

/-! ### The directory tree -/

/-- A directory tree: regular files (name, lines) and named subdirectories.
Models the on-disk PATRICIA trie (`.ind` files hold one source per line). -/
inductive DirTree where
  | node (files : List (Str × List Str)) (children : List (Str × DirTree))

mutual

/-- All files with name-suffix `ext` in the whole subtree, modelling
`closest.glob(f'**/*{id_ext}')`, which matches at every depth including the
top directory itself. -/
def subtreeFiles (ext : Str) : DirTree → List (Str × List Str)
  | .node files children =>
      files.filter (fun f => ext.isSuffixOf f.1) ++ subtreeFilesList ext children

def subtreeFilesList (ext : Str) : List (Str × DirTree) → List (Str × List Str)
  | [] => []
  | c :: rest => subtreeFiles ext c.2 ++ subtreeFilesList ext rest

end

/-- The files directly in a directory with name-suffix `ext`, modelling
`closest.glob(f'*{id_ext}')`. -/
def directFiles (ext : Str) : DirTree → List (Str × List Str)
  | .node files _ => files.filter fun f => ext.isSuffixOf f.1

/-- Look up the node at a component path. -/
def nodeAt : DirTree → Pth → Option DirTree
  | t, [] => some t
  | .node _ cs, comp :: rest =>
    match cs.find? fun c => c.1 = comp with
    | some c => nodeAt c.2 rest
    | none => none

/-- Add a regular file inside the directory at path `p` (used to model
`osutils.transfer` moving a postings file onto its leaf).  The path is
proven to exist in every verified use; a missing directory would make the
source's `Path.replace` raise. -/
def addFile : DirTree → Pth → Str × List Str → DirTree
  | .node fs cs, [], f => .node (fs ++ [f]) cs
  | .node fs cs, comp :: rest, f =>
      .node fs (cs.map fun c => if c.1 = comp then (c.1, addFile c.2 rest f) else c)

/-- The regular files of the directory at path `q` (`none` when the
directory does not exist). -/
def filesAt (tr : DirTree) (q : Pth) : Option (List (Str × List Str)) :=
  (nodeAt tr q).map fun d => match d with | .node fs _ => fs

/-- The child directory names at path `q`. -/
def childNamesAt (tr : DirTree) (q : Pth) : Option (List Str) :=
  (nodeAt tr q).map fun d => match d with | .node _ cs => cs.map Prod.fst

/-! ### `osutils.patricia_path` -/

/-- `os.path.commonprefix` of two strings: the longest common prefix. -/
def commonpfx : Str → Str → Str
  | a :: as_, b :: bs => if a = b then a :: commonpfx as_ bs else []
  | _, _ => []

/-- The walking loop of `patricia_path` over `os.walk`, fueled; the state
`st` is the `(target, closest, correction)` triple carried across
iterations.  At each directory the children whose first character matches
the remaining token's are kept (`dirs[:] = ...`; under the trie invariant
there is at most one, so the source's dependence on listing order is
immaterial); `find?` returns it.  An outer `none` is a crash of the source
(fuel exhaustion cannot happen at the supplied fuel, and `cp` is never
empty there, so `safeguard_path [cp] = none` would be a `TypeError` on
`Path / None`). -/
def pwalkAux : Nat → DirTree → Str → Pth →
    Option Pth × Option Pth × Option Pth → Option (Option Pth × Option Pth × Option Pth)
  | 0, _, _, _, _ => none
  | fuel + 1, .node _ children, token, curr, st =>
    match token with
    | [] => some st
    | c :: _ =>
      match children.find? fun ch => ch.1.head? = some c with
      | none => some (safeguard_path (curr ++ [token]), some curr, st.2.2)
      | some (name, sub) =>
        let cp := commonpfx token name
        let tokenRem := if cp = token then [] else token.drop cp.length
        match safeguard_path [cp] with
        | none => none
        | some cpPath =>
          let target := safeguard_path (curr ++ cpPath ++ if tokenRem.isEmpty then [] else [tokenRem])
          let closest := curr ++ [name]
          if cp ≠ name then
            some (target, some closest, safeguard_path (curr ++ cpPath ++ [name.drop cp.length]))
          else
            pwalkAux fuel sub tokenRem (curr ++ [name]) (target, some closest, st.2.2)

/-- `osutils.patricia_path(token, root)`: the hypothetical location of
`token` in the trie, the closest existing entry, and the correction path. -/
def patricia_path (token : Str) (root : DirTree) :
    Option (Option Pth × Option Pth × Option Pth) :=
  pwalkAux (token.length + 1) root token [] (none, none, none)

/-! ### Trie builder (`indexer.index_tokenset`, `index_directory`) -/

/-- Insert a token into the group with its first character, as the
partition loop of `index_directory` does (`by_first_letter`) and as the
splitting loop of `index_tokenset` does per recursion level.  The source
pops set elements in unspecified order; the groups are the equivalence
classes by first character either way. -/
def insGroup (gs : List (List Str)) (t : Str) : List (List Str) :=
  match gs with
  | [] => [[t]]
  | g :: rest => if g.headI.head? = t.head? then (g ++ [t]) :: rest else g :: insGroup rest t

def groupsByFirst (ts : List Str) : List (List Str) := ts.foldl insGroup []

/-- `os.path.commonprefix` of a list of strings. -/
def lcpList : List Str → Str
  | [] => []
  | t :: ts => ts.foldl commonpfx t

/-- Wrap subtrees under the chain of directories `safeguard_path` makes of
a common prefix (`os.makedirs(safeguard_path(root / cp))`). -/
def mkChainEntry : List Comp → List (Str × DirTree) → Str × DirTree
  | [], sub => ([], .node [] sub)
  | [n], sub => (n, .node [] sub)
  | n :: m :: rest, sub => (n, .node [] [mkChainEntry (m :: rest) sub])

/-- The recursion of `indexer.index_tokenset`, fueled: the children created
under the current root for a token set.  The source first takes the common
prefix of the whole set when it is non-empty and otherwise splits by first
character and recurses; a subset sharing a first character has a non-empty
common prefix, so the two phases amount to: group by first character, and
per group create the (safeguarded) chain for the group's common prefix and
recurse past it.  An empty token would raise `IndexError` in the source's
`token[0]`; it is filtered here and excluded by every theorem's
hypotheses. -/
def index_tokensetF : Nat → List Str → List (Str × DirTree)
  | 0, _ => []
  | fuel + 1, ts =>
    (groupsByFirst (ts.filter fun t => !t.isEmpty)).map fun g =>
      let cp := lcpList g
      let rest := ((g.filter fun t => t ≠ cp).map fun t => t.drop cp.length).dedup
      mkChainEntry (sgChain cp) (index_tokensetF fuel rest)

/-- Fuel measure for `index_tokensetF`: total length plus count. -/
def tokM (ts : List Str) : Nat := (ts.map List.length).sum + ts.length

/-- `indexer.index_tokenset(tokenset, root)` as the children it creates. -/
def index_tokenset (ts : List Str) : List (Str × DirTree) :=
  index_tokensetF (tokM ts + 1) ts

/-! ### Corpus, postings, `index_directory` -/

/-- A corpus: source paths (relative to the corpus root, as
`broadcast_tokens` publishes them) with the text of each file. -/
abbrev Corpus := List (Str × Str)

/-- The token universe `index_directory` collects: the union of each
file's unique tokens. -/
def corpusUniverse (corpus : Corpus) : List Str :=
  (corpus.flatMap fun f => unique_tokens f.2).dedup

/-- The net content of the postings file for `t` after the writer workers
drain the queue: the set of sources whose unique tokens contain `t`
(uniqueness per token per source is what the writer's per-token `srcs` set
maintains). -/
def postingsList (corpus : Corpus) (t : Str) : List Str :=
  (corpus.filter fun f => decide (t ∈ unique_tokens f.2)).map Prod.fst

/-- `osutils.transfer` for the postings file of token `t`: place it at the
`patricia_path` target.  The correction branch (splitting an existing
directory) is modelled as a failure `none`; `transfer_correction_none`
below proves it is never taken on a freshly built trie, which is the only
way `index_directory` calls it. -/
def transfer (corpus : Corpus) (tr : DirTree) (t : Str) : Option DirTree :=
  match patricia_path t tr with
  | none => none
  | some (targetO, _, corrO) =>
    match targetO, corrO with
    | some target, none => some (addFile tr target (encodeInd t, postingsList corpus t))
    | _, _ => none

/-- `indexer.index_directory`: build the trie skeleton from the token
universe, then move every staging postings file onto its leaf. -/
def index_directory (corpus : Corpus) : Option DirTree :=
  (corpusUniverse corpus).foldlM (transfer corpus)
    (DirTree.node [] (index_tokenset (corpusUniverse corpus)))

/-! ### Directory-tree searcher (`searches.FileTreeSearcher`) -/

/-- `FileTreeSearcher.get_entries`: the set of lines of a postings file. -/
def get_entries (content : List Str) : Finset Str := content.toFinset

/-- `FileTreeSearcher.findtoken`: the `.ind` files directly at the token's
node, provided `patricia_path` put the target exactly at the closest
existing node. -/
def findtoken (root : DirTree) (token : Str) : List (Str × List Str) :=
  match patricia_path token root with
  | some (targetO, closestO, _) =>
    if targetO = closestO then
      match closestO with
      | some q =>
        match nodeAt root q with
        | some d => directFiles indExt d
        | none => []
      | none => []
    else []
  | none => []

/-- `FileTreeSearcher.fuzzyfindtoken`: every `.ind` file in the subtree of
the closest node, provided the target path is no deeper than the closest
node. -/
def fuzzyfindtoken (root : DirTree) (token : Str) : List (Str × List Str) :=
  match patricia_path token root with
  | some (targetO, some q, _) =>
    match targetO with
    | some tg =>
      if tg.length ≤ q.length then
        match nodeAt root q with
        | some d => subtreeFiles indExt d
        | none => []
      else []
    | none => []
  | _ => []

/-- Union of the entries of a list of postings files (the inner set
comprehension of `FileTreeSearcher._search`). -/
def srcsOfFiles (fs : List (Str × List Str)) : Finset Str :=
  fs.foldr (fun f acc => get_entries f.2 ∪ acc) ∅

/-- The combination loop of `_search`: union of the per-token source sets
when `inclusive`, intersection otherwise (empty query gives the empty
set).  The source pops the sets in unspecified order; union and
intersection do not care. -/
def combineSets (inclusive : Bool) : List (Finset Str) → Finset Str
  | [] => ∅
  | s :: rest => if inclusive then rest.foldl (· ∪ ·) s else rest.foldl (· ∩ ·) s

/-- `FileTreeSearcher.match_words`. -/
def treeMatchWords (root : DirTree) (query : Str) (inclusive : Bool) : Finset Str :=
  combineSets inclusive ((as_tokens query true).map fun t => srcsOfFiles (findtoken root t))

/-- `FileTreeSearcher.fuzzy_search`. -/
def treeFuzzySearch (root : DirTree) (query : Str) (inclusive : Bool) : Finset Str :=
  combineSets inclusive ((as_tokens query true).map fun t => srcsOfFiles (fuzzyfindtoken root t))

/-! ### Phrase matching (`PatriciaTrieSearcher._examiner`, `match_phrase`) -/

/-- Text of the corpus file at `p` (the `_examiner` re-reads the file from
`searchdir`; candidates always name existing corpus files). -/
def textOf (corpus : Corpus) (p : Str) : Str :=
  ((corpus.find? fun f => decide (f.1 = p)).map Prod.snd).getD []

/-- `PatriciaTrieSearcher._examiner`: re-tokenize the file in order and
look for the phrase.  `lim` is `max(len(tokens) - phrase_len - bool(fuzzy), 0)`
(truncated `Nat` subtraction); a position `x` matches when the first
`phrase_len` tokens coincide and the token at `x + phrase_len - (not fuzzy)`
starts with `endtok`. -/
def examiner (corpus : Corpus) (phraseTokens : List Str) (phraseLen : Nat)
    (fuzzy : Bool) (endtok : Str) (filepath : Str) : Option Str :=
  let tokens := as_tokens (textOf corpus filepath) false
  let lim := tokens.length - phraseLen - (if fuzzy then 1 else 0)
  let found := (List.range lim).any fun x =>
    decide (phraseTokens = (tokens.drop x).take phraseLen)
      && endtok.isPrefixOf (tokens.getD (x + phraseLen - (if fuzzy then 0 else 1)) [])
  if found then some filepath else none

/-- `" ".join(tokens)`. -/
def joinSpaces (ts : List Str) : Str := (ts.intersperse [32]).flatten

/-- `PatriciaTrieSearcher.match_phrase`, parameterized by the concrete
searcher's `fuzzy_search` and `match_words` (the only parts`FileTreeSearcher`
and `TarFileSearcher` override).  `phrase_tokens.pop()` removes the end
token only in the fuzzy branch, so the non-fuzzy search keeps it in the
compared list.  After the early return on an empty fuzzy end-set,
`endmatches` is non-empty exactly when `fuzzy`, so the source's
`if endmatches:` intersection fires exactly when `fuzzy`. -/
def match_phrase (fuzzySearch matchWords : Str → Finset Str) (corpus : Corpus)
    (query : Str) (fuzzy : Bool) : Finset Str :=
  if query.isEmpty then ∅
  else
    let phraseTokens := as_tokens query false
    if 1 < phraseTokens.length then
      let endtok := phraseTokens.getLastD []
      let searchToks := if fuzzy then phraseTokens.dropLast else phraseTokens
      let endmatches := if fuzzy then fuzzySearch endtok else ∅
      if fuzzy ∧ endmatches = ∅ then ∅
      else
        let phraseLen := searchToks.length
        let candidates0 := matchWords (joinSpaces searchToks)
        let candidates := if fuzzy then candidates0 ∩ endmatches else candidates0
        candidates.filter fun src =>
          (examiner corpus searchToks phraseLen fuzzy endtok src).isSome
    else if fuzzy then fuzzySearch query
    else matchWords query

/-- `FileTreeSearcher.match_phrase` (single-process result; the process
pool only parallelizes `_examiner` calls). -/
def treeMatchPhrase (root : DirTree) (corpus : Corpus) (query : Str) (fuzzy : Bool) :
    Finset Str :=
  match_phrase (fun q => treeFuzzySearch root q false) (fun q => treeMatchWords root q false)
    corpus query fuzzy

/-! ### Archiver (`archiver.PatriciaArchiver._archive`) -/

/-- A nested tar archive: `.ind` members carry their lines, `.tar` members
carry their own member list. -/
inductive Arch where
  | file (lines : List Str)
  | dir (members : List (Str × Arch))

/-- Python `str.strip('.')`. -/
def stripDots (s : Str) : Str :=
  ((s.dropWhile fun c => c = 46).reverse.dropWhile fun c => c = 46).reverse

/-- `suffix = '.tar' + f'.{compression}' if compression else ''` — note the
conditional binds the whole concatenation, so no compression means NO
`.tar` suffix at all. -/
def archiveSuffix (compression : Str) : Str :=
  if !compression.isEmpty then [46, 116, 97, 114] ++ [46] ++ compression else []

/-- `mode = 'w' + f':{compression}' if compression else ''` — same
precedence: the empty compression yields the empty mode. -/
def tarWriteMode (compression : Str) : Str :=
  if !compression.isEmpty then [119, 58] ++ compression else []

/-- The write modes `tarfile.open` accepts. -/
def validTarWriteModes : List Str :=
  [[119], [119, 58, 103, 122], [119, 58, 98, 122, 50], [119, 58, 120, 122]]

/-- Lexicographic comparison of strings by code point, as Python `sorted`
compares the staged `Path` entries (all sharing one parent directory, so
the order is the basename order). -/
def strLe : Str → Str → Bool
  | [], _ => true
  | _ :: _, [] => false
  | a :: as_, b :: bs => if a < b then true else if b < a then false else strLe as_ bs

def insertSorted (x : Str × Arch) : List (Str × Arch) → List (Str × Arch)
  | [] => [x]
  | y :: rest => if strLe x.1 y.1 then x :: y :: rest else y :: insertSorted x rest

/-- Sort archive members by name. -/
def sortByName (l : List (Str × Arch)) : List (Str × Arch) := l.foldr insertSorted []

mutual

/-- `PatriciaArchiver._archive` on one directory, as the archive content it
produces: the bottom-up walk turns each subdirectory into a `<child><suffix>`
member of its parent's archive; the staged entries (the directory's regular
files plus the child archives) are added in sorted order under their
basenames (`shorten_name`) and each source is removed as it is added, the
directory being consumed bottom-up. -/
def archiveOf (suffix : Str) : DirTree → Arch
  | .node fs cs =>
      .dir (sortByName ((fs.map fun f => (f.1, Arch.file f.2)) ++ archiveChildren suffix cs))

def archiveChildren (suffix : Str) : List (Str × DirTree) → List (Str × Arch)
  | [] => []
  | c :: rest => (c.1 ++ suffix, archiveOf suffix c.2) :: archiveChildren suffix rest

end

/-- The full `_archive(root, compression)`: `None`-like failure when
`tarfile.open` rejects the computed mode (which happens exactly for the
empty compression, whose mode is `''`); otherwise the root archive, named
`root + suffix`. -/
def patriciaArchive (rootName : Str) (tree : DirTree) (compression : Str) :
    Option (Str × Arch) :=
  let comp := stripDots compression
  if tarWriteMode comp ∈ validTarWriteModes then
    some (rootName ++ archiveSuffix comp, archiveOf (archiveSuffix comp) tree)
  else none

/-! ### Archive searcher (`searches.TarFileSearcher`) -/

mutual

def archDepth : Arch → Nat
  | .file _ => 0
  | .dir ms => archDepthList ms + 1

def archDepthList : List (Str × Arch) → Nat
  | [] => 0
  | m :: rest => max (archDepth m.2) (archDepthList rest)

end

/-- `name[:name.find('.')]` — with no dot, `find` returns `-1` and the
slice drops the last character. -/
def nameStemToFirstDot (name : Str) : Str :=
  if name.contains 46 then name.takeWhile (fun c => c ≠ 46) else name.dropLast

/-- CPython 3.8 `PurePath.suffixes`. -/
def pySuffixes (name : Str) : List Str :=
  if name.getLast? = some 46 then []
  else (((name.dropWhile fun c => c = 46).splitOn 46).drop 1).map fun s => 46 :: s

/-- The `get_records` recursion of `TarFileSearcher._retrievesrcs`,
fueled (the fuel exceeds the archive depth in every use).  At a level:
keep members whose name starts with the remaining token's first character
(all of them once the remaining token is empty), sorted by name; in exact
mode return the lines of the first `.ind` member whose stem strips to the
full token; otherwise collect every member whose name starts with the full
token and ends with the extension, and recurse into every `.tar` member,
advancing the remaining token past the member's stem — `_token[len(stem):]`
yields `''` whenever the stem is at least as long as the remaining token,
matching the source's slice. -/
def getRecordsF (idExt : Str) (token : Str) (fuzzy : Bool) :
    Nat → Arch → Str → Finset Str
  | 0, _, _ => ∅
  | _ + 1, .file _, _ => ∅
  | fuel + 1, .dir members, tokRem =>
    let kept := sortByName (members.filter fun m =>
      tokRem.isEmpty || decide (m.1.head? = tokRem.head?))
    let exactHit := if fuzzy then none
      else kept.find? fun m =>
        decide (pySuffix m.1 = idExt) && decide (stripUnderscores (pyStem m.1) = token)
    match exactHit with
    | some (_, .file lines) => lines.toFinset
    | some (_, .dir _) => ∅
    | none =>
      kept.foldr (fun m acc =>
        if token.isPrefixOf m.1 && idExt.isSuffixOf m.1 then
          (match m.2 with
           | .file lines => lines.toFinset
           | .dir _ => ∅) ∪ acc
        else
          match pySuffixes m.1 with
          | sfx :: _ =>
            if sfx = [46, 116, 97, 114] then
              getRecordsF idExt token fuzzy fuel m.2
                  (if nameStemToFirstDot m.1 = tokRem then []
                   else tokRem.drop (nameStemToFirstDot m.1).length)
                ∪ acc
            else acc
          | [] => acc) ∅

/-- `TarFileSearcher._retrievesrcs`. -/
def retrievesrcs (arch : Arch) (token : Str) (fuzzy : Bool) : Finset Str :=
  getRecordsF indExt token fuzzy (archDepth arch + 1) arch token

/-- The contribution of one archive member to the collection loop of
`get_records`: the member's lines when its name starts with the token and
carries the extension, the recursive result when it is a nested tar,
nothing otherwise. -/
def tarContrib (idExt token : Str) (fuzzy : Bool) (fuel : Nat) (tokRem : Str)
    (m : Str × Arch) : Finset Str :=
  if token.isPrefixOf m.1 && idExt.isSuffixOf m.1 then
    match m.2 with
    | .file lines => lines.toFinset
    | .dir _ => ∅
  else
    match pySuffixes m.1 with
    | sfx :: _ =>
      if sfx = [46, 116, 97, 114] then
        getRecordsF idExt token fuzzy fuel m.2
          (if nameStemToFirstDot m.1 = tokRem then []
           else tokRem.drop (nameStemToFirstDot m.1).length)
      else ∅
    | [] => ∅

/-- `TarFileSearcher.match_words`. -/
def tarMatchWords (arch : Arch) (query : Str) (inclusive : Bool) : Finset Str :=
  combineSets inclusive ((as_tokens query true).map fun t => retrievesrcs arch t false)

/-- `TarFileSearcher.fuzzy_search`. -/
def tarFuzzySearch (arch : Arch) (query : Str) (inclusive : Bool) : Finset Str :=
  combineSets inclusive ((as_tokens query true).map fun t => retrievesrcs arch t true)

/-- `TarFileSearcher.match_phrase`. -/
def tarMatchPhrase (arch : Arch) (corpus : Corpus) (query : Str) (fuzzy : Bool) :
    Finset Str :=
  match_phrase (fun q => tarFuzzySearch arch q false) (fun q => tarMatchWords arch q false)
    corpus query fuzzy

/-! ### Predicates used in the statements -/

/-- A fully normalized character: not whitespace, printable, not ASCII
punctuation, fixed by case folding. -/
def NormalCh (c : Nat) : Prop :=
  pyIsSpace c = false ∧ pyIsPrintable c = true ∧ pyIsPunct c = false ∧ pyCaseFold c = c

/-- A well-formed token: non-empty and made of normalized characters. -/
def GoodToken (t : Str) : Prop := t ≠ [] ∧ ∀ c ∈ t, NormalCh c

instance decNormalCh (c : Nat) : Decidable (NormalCh c) := by
  unfold NormalCh
  infer_instance

instance decGoodToken (t : Str) : Decidable (GoodToken t) := by
  unfold GoodToken
  infer_instance

/-- The trie invariants of the spec's data model, as the walk needs them:
every child name is a non-empty fragment of normalized token characters and
is not an OS-reserved name (reserved fragments are split at build time),
and no two children of one node share a first character (so no two share a
non-empty common prefix). -/
inductive TrieInv : DirTree → Prop where
  | node : ∀ (files : List (Str × List Str)) (children : List (Str × DirTree)),
      (∀ c ∈ children, c.1 ≠ [] ∧ (∀ ch ∈ c.1, NormalCh ch) ∧ isReservedName c.1 = false) →
      List.Pairwise (fun a b => a.1.head? ≠ b.1.head?) children →
      (∀ c ∈ children, TrieInv c.2) →
      TrieInv (.node files children)

/-- The walk exactly as the claim describes it, with `safeguard_path`
applied at the recording points (the amendment): at each level take the
child whose first character matches the remaining token's; with no such
child stop with `target = safeguard(curr / remaining)`; with child `d` and
`cp` the common prefix, advance past `cp`; if `cp = d` continue into `d`
(stopping with `target = closest = curr / d` when the token is exhausted);
otherwise stop, recording
`correction = safeguard(curr / cp / d[|cp|:])`. -/
def specWalkF : Nat → DirTree → Str → Pth → Option Pth × Option Pth × Option Pth
  | 0, _, _, _ => (none, none, none)
  | fuel + 1, .node _ children, token, curr =>
    match token with
    | [] => (none, none, none)
    | c :: _ =>
      match children.find? fun ch => ch.1.head? = some c with
      | none => (safeguard_path (curr ++ [token]), some curr, none)
      | some (name, sub) =>
        let cp := commonpfx token name
        if cp = name then
          if cp = token then (some (curr ++ [name]), some (curr ++ [name]), none)
          else specWalkF fuel sub (token.drop cp.length) (curr ++ [name])
        else
          (safeguard_path
              (curr ++ sgChain cp ++ if cp = token then [] else [token.drop cp.length]),
            some (curr ++ [name]),
            safeguard_path (curr ++ sgChain cp ++ [name.drop cp.length]))

/-- The spec's walk for a whole query token. -/
def specWalk (token : Str) (root : DirTree) : Option Pth × Option Pth × Option Pth :=
  specWalkF (token.length + 1) root token []

/-- The component path at which a token of the universe ends up in the
trie built by `index_tokenset`: follow the token's first-character group,
descend its (safeguarded) common-prefix chain, recurse. -/
def tokNodePathF : Nat → List Str → Str → Pth
  | 0, _, _ => []
  | fuel + 1, ts, t =>
    match (groupsByFirst (ts.filter fun x => !x.isEmpty)).find?
        (fun g => g.headI.head? = t.head?) with
    | none => []
    | some g =>
      let cp := lcpList g
      sgChain cp ++
        if t = cp then []
        else tokNodePathF fuel (((g.filter fun x => x ≠ cp).map fun x => x.drop cp.length).dedup)
          (t.drop cp.length)

def tokNodePath (ts : List Str) (t : Str) : Pth := tokNodePathF (tokM ts + 1) ts t

/-! ## Theorems -/

/-! ### Tokenizer lemmas -/

theorem splitWsAux_mem {s acc tok : Str} (h : tok ∈ splitWsAux s acc)
    (hacc : ∀ c ∈ acc, pyIsSpace c = false) :
    tok ≠ [] ∧ ∀ c ∈ tok, pyIsSpace c = false ∧ (c ∈ s ∨ c ∈ acc) := by
  induction s generalizing acc with
  | nil =>
    simp only [splitWsAux] at h
    split at h
    · simp at h
    · next hne =>
      simp only [List.mem_singleton] at h
      subst h
      refine ⟨by simpa using fun h0 => hne (by simp [List.isEmpty_iff, ← List.reverse_eq_nil_iff, h0]), ?_⟩
      intro c hc
      rw [List.mem_reverse] at hc
      exact ⟨hacc c hc, Or.inr hc⟩
  | cons a rest ih =>
    simp only [splitWsAux] at h
    split at h
    · next hsp =>
      split at h
      · next hemp =>
        obtain ⟨h1, h2⟩ := ih h (by simp)
        exact ⟨h1, fun c hc => ⟨(h2 c hc).1,
          Or.inl (List.mem_cons_of_mem _ (((h2 c hc).2).resolve_right (by simp)))⟩⟩
      · next hemp =>
        rcases List.mem_cons.mp h with h | h
        · subst h
          refine ⟨by simpa using fun h0 => hemp (by simp [List.isEmpty_iff, ← List.reverse_eq_nil_iff, h0]), ?_⟩
          intro c hc
          rw [List.mem_reverse] at hc
          exact ⟨hacc c hc, Or.inr hc⟩
        · obtain ⟨h1, h2⟩ := ih h (by simp)
          exact ⟨h1, fun c hc => ⟨(h2 c hc).1,
          Or.inl (List.mem_cons_of_mem _ (((h2 c hc).2).resolve_right (by simp)))⟩⟩
    · next hsp =>
      have hacc2 : ∀ c ∈ a :: acc, pyIsSpace c = false := by
        intro c hc
        rcases List.mem_cons.mp hc with h | h
        · subst h; simpa using hsp
        · exact hacc c h
      obtain ⟨h1, h2⟩ := ih h hacc2
      refine ⟨h1, fun c hc => ⟨(h2 c hc).1, ?_⟩⟩
      rcases (h2 c hc).2 with h | h
      · exact Or.inl (List.mem_cons_of_mem _ h)
      · rcases List.mem_cons.mp h with h | h
        · exact Or.inl (by simp [h])
        · exact Or.inr h


theorem normalCh_of_kept {c0 : Nat} (h : pyIsSpace c0 = true ∨ pyIsPrintable c0 = true)
    (hs : pyIsSpace (pyCaseFold (translatePunct c0)) = false) :
    NormalCh (pyCaseFold (translatePunct c0)) := by
  unfold NormalCh translatePunct pyCaseFold pyIsSpace pyIsPrintable pyIsPunct at *
  simp only [Bool.or_eq_true, Bool.and_eq_true, decide_eq_true_eq, Bool.or_eq_false_iff,
    Bool.and_eq_false_iff, decide_eq_false_iff_not] at *
  split_ifs at * <;> omega

/-- Every token of `pySplit (normalizeText text)` is a good token. -/
theorem goodToken_of_mem_pySplit {text tok : Str}
    (h : tok ∈ pySplit (normalizeText text)) : GoodToken tok := by
  obtain ⟨h1, h2⟩ := @splitWsAux_mem (normalizeText text) [] _ h (by simp)
  refine ⟨h1, fun c hc => ?_⟩
  obtain ⟨hns, hmem⟩ := h2 c hc
  rcases hmem with hmem | hmem
  · unfold normalizeText at hmem
    simp only [List.mem_map, List.mem_filter, Bool.or_eq_true] at hmem
    obtain ⟨c1, ⟨c0, ⟨_, hkeep⟩, rfl⟩, rfl⟩ := hmem
    exact normalCh_of_kept hkeep hns
  · simp at hmem

/-- Tokens of `as_tokens` (either mode) are good tokens. -/
theorem goodToken_of_mem_as_tokens {text tok : Str} {u : Bool}
    (h : tok ∈ as_tokens text u) : GoodToken tok := by
  unfold as_tokens at h
  rcases u with _ | _
  · simpa using @goodToken_of_mem_pySplit text _ (by simpa using h)
  · rw [if_pos rfl, List.mem_dedup] at h
    exact goodToken_of_mem_pySplit h

/-- The claim's tokenizer property: every token is non-empty, free of
whitespace, non-printable and punctuation characters, and case-folded;
`unique=False` yields the split sequence in order with duplicates, and
`unique=True` yields exactly its set of tokens, without duplicates. -/
theorem as_tokens_yields_normalized_tokens (text : Str) (u : Bool) :
    (∀ tok ∈ as_tokens text u, GoodToken tok)
      ∧ as_tokens text false = pySplit (normalizeText text)
      ∧ (as_tokens text true).Nodup
      ∧ ∀ tok, tok ∈ as_tokens text true ↔ tok ∈ as_tokens text false := by
  refine ⟨fun tok h => goodToken_of_mem_as_tokens h, by simp [as_tokens], ?_, ?_⟩
  · simp only [as_tokens, if_pos rfl]
    exact List.nodup_dedup _
  · intro tok
    simp [as_tokens]

theorem as_tokens_yields_normalized_tokens_witness :
    ([103, 111] ∈ as_tokens [71, 111, 44, 32, 103, 111, 33] true)
      ∧ GoodToken [103, 111] :=
  ⟨by decide,
    (as_tokens_yields_normalized_tokens [71, 111, 44, 32, 103, 111, 33] true).1
      [103, 111] (by decide)⟩

/-! ### Postings filename codec -/

theorem dropWhile_eq_self_of_none {p : Nat → Bool} {l : Str} (h : ∀ c ∈ l, ¬ p c) :
    l.dropWhile p = l := by
  cases l with
  | nil => rfl
  | cons a l0 => rw [List.dropWhile_cons, if_neg (by simpa using h a (by simp))]

theorem pyStem_encodeInd (t : Str) : pyStem (encodeInd t) = t ++ [95] := by
  have h2 : lastDotPos (encodeInd t) = some (t.length + 1) := by
    unfold lastDotPos encodeInd
    rw [List.reverse_append]
    have h1 : ([95, 46, 105, 110, 100] : Str).reverse = [100, 110, 105, 46, 95] := rfl
    rw [h1]
    have h3 : List.findIdx? (fun c => c = 46) (([100, 110, 105, 46, 95] : Str) ++ t.reverse) 0
        = some 3 := by
      simp [List.findIdx?_cons]
    rw [h3]
    simp
  have hcond : 0 < t.length + 1 ∧ t.length + 1 + 1 < (encodeInd t).length := by
    unfold encodeInd
    simp
  have hstep : pyStem (encodeInd t) = (encodeInd t).take (t.length + 1) := by
    unfold pyStem
    rw [h2]
    exact if_pos hcond
  rw [hstep]
  show (encodeInd t).take (t.length + 1) = t ++ [95]
  unfold encodeInd
  have h4 := @List.take_append _ t [95, 46, 105, 110, 100] 1
  simpa using h4

theorem stripUnderscores_append_underscore {t : Str} (ht : ∀ c ∈ t, c ≠ 95) :
    stripUnderscores (t ++ [95]) = t := by
  unfold stripUnderscores
  cases t with
  | nil => rfl
  | cons a t0 =>
    rw [List.cons_append, List.dropWhile_cons,
      if_neg (by simpa using ht a (by simp))]
    rw [show (a :: (t0 ++ [95])) = (a :: t0) ++ [95] by simp, List.reverse_append]
    show (([95] ++ (a :: t0).reverse).dropWhile fun c => c = 95).reverse = a :: t0
    rw [List.cons_append, List.nil_append, List.dropWhile_cons, if_pos (by simp)]
    rw [dropWhile_eq_self_of_none (by intro c hc; simpa using ht c (List.mem_reverse.mp hc))]
    exact List.reverse_reverse _

theorem decodeInd_encodeInd {t : Str} (ht : ∀ c ∈ t, c ≠ 95) :
    decodeInd (encodeInd t) = t := by
  unfold decodeInd
  rw [pyStem_encodeInd, stripUnderscores_append_underscore ht]

theorem normalCh_not_special {c : Nat} (h : NormalCh c) :
    c ≠ 95 ∧ c ≠ 46 ∧ c ≠ 10 ∧ c ≠ 32 ∧ c ≠ 47 ∧ c ≠ 92 ∧ c ≠ 58 := by
  obtain ⟨hs, hp, hq, -⟩ := h
  unfold pyIsSpace pyIsPrintable pyIsPunct at *
  simp only [Bool.or_eq_false_iff, Bool.and_eq_false_iff, decide_eq_false_iff_not,
    Bool.and_eq_true, decide_eq_true_eq] at *
  omega

/-- The claim: since the tokenizer maps every ASCII punctuation character
(underscore included) to a space, no token contains an underscore, so
`token + '_.ind'` is injective and is exactly inverted by stripping
underscores from the filename's stem — the decoding performed both by
`osutils.transfer` and by the archive searcher's exact match
(`decodeInd`). -/
theorem ind_filename_encoding_inverts :
    (∀ text : Str, ∀ u : Bool, ∀ t ∈ as_tokens text u,
        (∀ c ∈ t, c ≠ 95) ∧ decodeInd (encodeInd t) = t)
      ∧ ∀ t1 t2 : Str, encodeInd t1 = encodeInd t2 → t1 = t2 := by
  constructor
  · intro text u t ht
    obtain ⟨-, hch⟩ := goodToken_of_mem_as_tokens ht
    have h95 : ∀ c ∈ t, c ≠ 95 := fun c hc => (normalCh_not_special (hch c hc)).1
    exact ⟨h95, decodeInd_encodeInd h95⟩
  · intro t1 t2 h
    exact List.append_cancel_right h

theorem ind_filename_encoding_inverts_witness :
    ([103, 111] ∈ as_tokens [71, 111, 95, 103, 111] true)
      ∧ decodeInd (encodeInd [103, 111]) = [103, 111] :=
  ⟨by decide,
    (ind_filename_encoding_inverts.1 [71, 111, 95, 103, 111] true [103, 111] (by decide)).2⟩

/-! ### `safeguard_path` -/

theorem reserved_length {name : Comp} (h : isReservedName name = true) :
    3 ≤ name.length := by
  unfold isReservedName at h
  have hm := of_decide_eq_true h
  have hlen : ∀ l ∈ reservedNames, 3 ≤ List.length l := by decide
  have h1 := hlen _ hm
  rw [List.length_map] at h1
  have h2 : ((name.takeWhile fun c => c ≠ 46)).length ≤ name.length :=
    (List.takeWhile_sublist _).length_le
  omega

theorem isReservedName_short {name : Comp} (h : name.length < 3) :
    isReservedName name = false := by
  by_contra hc
  have := @reserved_length name (by simpa using hc)
  omega

theorem pyStem_no_dot {name : Comp} (h : ∀ c ∈ name, c ≠ 46) :
    pyStem name = name := by
  unfold pyStem lastDotPos
  have : List.findIdx? (fun c => c = 46) name.reverse = none := by
    rw [List.findIdx?_eq_none_iff]
    intro x hx
    simpa using h x (List.mem_reverse.mp hx)
  rw [this]
  rfl

/-- `sgChain` always concatenates back to the component it split. -/
theorem sgChain_flatten (name : Comp) : (sgChain name).flatten = name := by
  induction name with
  | nil => rfl
  | cons c rest ih =>
    unfold sgChain
    split
    · rcases rest with _ | ⟨d, rest0⟩
      · rfl
      · simpa using ih
    · simp

theorem sgChain_ne_nil (name : Comp) : sgChain name ≠ [] := by
  unfold sgChain
  cases name <;> simp only []
  · simp
  · split
    · simp
    · simp

/-- The final component of a `sgChain` is never reserved (for dot-free
input components). -/
theorem sgChain_last_not_reserved {name : Comp} (h : ∀ c ∈ name, c ≠ 46) :
    isReservedName ((sgChain name).getLastD []) = false := by
  induction name with
  | nil => simpa using @isReservedName_short [] (by simp)
  | cons c rest ih =>
    unfold sgChain
    split
    · rcases rest with _ | ⟨d, rest0⟩
      · simpa using @isReservedName_short [c] (by simp)
      · have hres := ih (fun x hx => h x (List.mem_cons_of_mem c hx))
        have hne := sgChain_ne_nil (d :: rest0)
        simp only [List.isEmpty_cons, Bool.false_eq_true, if_false]
        rw [List.getLastD_eq_getLast?] at hres ⊢
        rw [show ([c] :: sgChain (d :: rest0)).getLast? = (sgChain (d :: rest0)).getLast? by
          rcases hchain : sgChain (d :: rest0) with _ | ⟨z, zs⟩
          · exact absurd hchain hne
          · exact List.getLast?_cons_cons]
        exact hres
    · next hres => simpa using hres

theorem pathIsReserved_concat (p : Pth) (name : Comp) :
    pathIsReserved (p ++ [name]) = isReservedName name := by
  unfold pathIsReserved
  rw [List.getLast?_concat]

theorem getLastD_concat (p : Pth) (name : Comp) : (p ++ [name]).getLastD [] = name := by
  rw [List.getLastD_eq_getLast?, List.getLast?_concat]
  rfl

theorem sgIter_append_chain :
    ∀ (fuel : Nat) (name : Comp) (p : Pth), name.length < fuel → (∀ c ∈ name, c ≠ 46) →
      sgIter fuel (p ++ [name]) = some (some (p ++ sgChain name)) := by
  intro fuel
  induction fuel with
  | zero => intro name p h _; omega
  | succ f ih =>
    intro name p hlen hdf
    unfold sgIter
    rw [pathIsReserved_concat]
    by_cases hres : isReservedName name = true
    · have h3 := reserved_length hres
      rcases name with _ | ⟨c, rest⟩
      · simp at h3
      rcases rest with _ | ⟨d, rest0⟩
      · simp at h3
      rw [if_pos hres, getLastD_concat, pyStem_no_dot hdf]
      rw [List.dropLast_concat]
      have hstep := ih (d :: rest0) (p ++ [[c]])
        (by simp at hlen ⊢; omega)
        (fun x hx => hdf x (List.mem_cons_of_mem c hx))
      simp only [List.isEmpty_cons, Bool.false_eq_true, if_false]
      rw [show p ++ [c] :: [d :: rest0] = (p ++ [[c]]) ++ [d :: rest0] by simp]
      rw [hstep]
      have hch : sgChain (c :: d :: rest0) = [c] :: sgChain (d :: rest0) := by
        simp only [sgChain, if_pos hres, List.isEmpty_cons, Bool.false_eq_true, if_false]
      rw [hch]
      simp
    · rw [if_neg (by simpa using hres)]
      rcases name with _ | ⟨c, rest⟩
      · rfl
      · rw [show sgChain (c :: rest) = [c :: rest] by
          simp only [sgChain, if_neg hres]]

theorem safeguard_path_append {p : Pth} {name : Comp} (hdf : ∀ c ∈ name, c ≠ 46) :
    safeguard_path (p ++ [name]) = some (p ++ sgChain name) := by
  unfold safeguard_path
  rw [getLastD_concat]
  rw [sgIter_append_chain _ name p (by omega) hdf]
  rfl

theorem safeguard_path_not_reserved {q : Pth} (h : pathIsReserved q = false) :
    safeguard_path q = some q := by
  unfold safeguard_path
  unfold sgIter
  rw [if_neg (by simp [h])]
  rfl

/-- The claim as frozen is false on the code: `safeguard_path` (a) drops a
reserved final component's file suffix, so the concatenation of components
is not preserved, and (b) never rewrites a reserved component that is not
the final one (`Path.is_reserved` only examines the last component). -/
theorem safeguard_path_claim_counterexample :
    safeguard_path [[67, 79, 78, 46, 120]] = some [[67], [79, 78]]
      ∧ ([67] ++ [79, 78] : Str) ≠ [67, 79, 78, 46, 120]
      ∧ safeguard_path [[67, 79, 78], [120]] = some [[67, 79, 78], [120]]
      ∧ isReservedName [67, 79, 78] = true := by decide

/-- Amended claim: `safeguard_path` repeatedly rewrites only the *final*
component `X` while it is reserved, as `stem(X)[0] / stem(X)[1:]` (any file
suffix of `X` is dropped by `stem`); a path whose final component is not
reserved is returned unchanged.  For dot-free final components — the only
ones the indexer ever passes, since tokens contain no `'.'` — no suffix
exists, the rewriting is exactly `X[0]/X[1:]` repeated (`sgChain`), the
concatenation of the produced components equals the original component,
the result's final component is not reserved, and the sentinel absence is
never returned (the `stem` can shrink to empty only when a suffix is
dropped). -/
theorem safeguard_path_amended :
    (∀ q : Pth, pathIsReserved q = false → safeguard_path q = some q)
      ∧ ∀ (p : Pth) (name : Comp), (∀ c ∈ name, c ≠ 46) →
          safeguard_path (p ++ [name]) = some (p ++ sgChain name)
            ∧ (sgChain name).flatten = name
            ∧ pathIsReserved (p ++ sgChain name) = false := by
  refine ⟨fun q h => safeguard_path_not_reserved h, fun p name hdf => 
    ⟨safeguard_path_append hdf, sgChain_flatten name, ?_⟩⟩
  unfold pathIsReserved
  rw [List.getLast?_append_of_ne_nil _ (sgChain_ne_nil name)]
  have h1 := sgChain_last_not_reserved hdf
  rw [List.getLastD_eq_getLast?] at h1
  cases hlast : (sgChain name).getLast? with
  | none => exact absurd (List.getLast?_eq_none_iff.mp hlast) (sgChain_ne_nil name)
  | some x =>
    rw [hlast] at h1
    simpa using h1

theorem safeguard_path_amended_witness :
    safeguard_path ([[120]] ++ [[67, 79, 78]]) = some ([[120]] ++ sgChain [67, 79, 78]) :=
  (safeguard_path_amended.2 [[120]] [67, 79, 78] (by decide)).1

/-! ### Common prefixes and good tokens -/

theorem commonpfx_prefix_left (a : Str) : ∀ b, commonpfx a b <+: a := by
  induction a with
  | nil => intro b; cases b <;> simp [commonpfx]
  | cons x xs ih =>
    intro b
    cases b with
    | nil => simp [commonpfx]
    | cons y ys =>
      show (if x = y then x :: commonpfx xs ys else []) <+: x :: xs
      split
      · rw [List.cons_prefix_cons]
        exact ⟨rfl, ih ys⟩
      · simp

theorem commonpfx_prefix_right (a : Str) : ∀ b, commonpfx a b <+: b := by
  induction a with
  | nil => intro b; cases b <;> simp [commonpfx]
  | cons x xs ih =>
    intro b
    cases b with
    | nil => simp [commonpfx]
    | cons y ys =>
      show (if x = y then x :: commonpfx xs ys else []) <+: y :: ys
      split
      · next h =>
        subst h
        rw [List.cons_prefix_cons]
        exact ⟨rfl, ih ys⟩
      · simp

theorem commonpfx_head {a b : Str} {c : Nat} (ha : a.head? = some c)
    (hb : b.head? = some c) : commonpfx a b ≠ [] := by
  cases a with
  | nil => simp at ha
  | cons x xs =>
    cases b with
    | nil => simp at hb
    | cons y ys =>
      simp only [List.head?_cons, Option.some_inj] at ha hb
      show (if x = y then x :: commonpfx xs ys else []) ≠ []
      rw [if_pos (ha.trans hb.symm)]
      simp

theorem commonpfx_of_prefix {n : Str} : ∀ {t : Str}, n <+: t → commonpfx t n = n := by
  induction n with
  | nil => intro t _; cases t <;> rfl
  | cons y ys ih =>
    intro t h
    cases t with
    | nil => simp at h
    | cons x xs =>
      rw [List.cons_prefix_cons] at h
      obtain ⟨rfl, h2⟩ := h
      show (if y = y then y :: commonpfx xs ys else []) = y :: ys
      rw [if_pos rfl, ih h2]

theorem goodToken_chars_dotfree {t : Str} (h : ∀ c ∈ t, NormalCh c) :
    ∀ c ∈ t, c ≠ 46 := fun c hc => (normalCh_not_special (h c hc)).2.1

theorem goodToken_drop {t : Str} (h : GoodToken t) {k : Nat} (hk : t.drop k ≠ []) :
    GoodToken (t.drop k) :=
  ⟨hk, fun c hc => h.2 c (List.mem_of_mem_drop hc)⟩

theorem prefix_proper_drop_ne_nil {a t : Str} (h : a <+: t) (hne : a ≠ t) :
    t.drop a.length ≠ [] := by
  obtain ⟨r, rfl⟩ := h
  rw [List.drop_left]
  intro hr
  exact hne (by simp [hr])

theorem sgChain_not_reserved {name : Comp} (hname : name ≠ [])
    (h : isReservedName name = false) : sgChain name = [name] := by
  cases name with
  | nil => exact absurd rfl hname
  | cons c rest =>
    show (if isReservedName (c :: rest) = true then _ else [c :: rest]) = [c :: rest]
    rw [if_neg (by simp [h])]

/-! ### `patricia_path` against the spec's walk -/

theorem pwalkAux_eq_specWalkF :
    ∀ (fuel : Nat) (tree : DirTree) (token : Str) (curr : Pth) (a b : Option Pth),
      TrieInv tree → GoodToken token → token.length < fuel →
      pwalkAux fuel tree token curr (a, b, none) = some (specWalkF fuel tree token curr) := by
  intro fuel
  induction fuel with
  | zero => intro _ _ _ _ _ _ _ hl; omega
  | succ f ih =>
    intro tree token curr a b hinv hg hlen
    obtain ⟨files, children⟩ := tree
    cases hinv with
    | node _ _ hnames hpw hsub =>
    obtain ⟨htne, htch⟩ := hg
    rcases token with _ | ⟨c, ts⟩
    · exact absurd rfl htne
    unfold pwalkAux specWalkF
    dsimp only
    cases hf : children.find? fun ch => ch.1.head? = some c with
    | none => rfl
    | some pair =>
      obtain ⟨name, sub⟩ := pair
      dsimp only
      have hmem := List.mem_of_find?_eq_some hf
      have hhead : name.head? = some c := by
        have := List.find?_some hf
        simpa using this
      obtain ⟨hname_ne, hname_ch, hname_res⟩ := hnames _ hmem
      have hcp_t : commonpfx (c :: ts) name <+: c :: ts := commonpfx_prefix_left _ _
      have hcp_n : commonpfx (c :: ts) name <+: name := commonpfx_prefix_right _ _
      have hcp_ne : commonpfx (c :: ts) name ≠ [] := commonpfx_head rfl hhead
      have hcp_df : ∀ x ∈ commonpfx (c :: ts) name, x ≠ 46 :=
        fun x hx => goodToken_chars_dotfree htch x (hcp_t.subset hx)
      have hsg : safeguard_path [commonpfx (c :: ts) name]
          = some (sgChain (commonpfx (c :: ts) name)) :=
        safeguard_path_append (p := []) hcp_df
      rw [hsg]
      dsimp only
      by_cases hcpname : commonpfx (c :: ts) name = name
      · rw [if_neg (by simp [hcpname]), if_pos hcpname]
        by_cases hcptok : commonpfx (c :: ts) name = c :: ts
        · rw [if_pos hcptok, if_pos hcptok]
          obtain ⟨f1, rfl⟩ : ∃ f1, f = f1 + 1 := by
            have h2 : (c :: ts).length < f + 1 := hlen
            exact ⟨f - 1, by simp at h2; omega⟩
          rw [if_pos (show ([] : Str).isEmpty = true by simp)]
          have hsgname : safeguard_path (curr ++ sgChain (commonpfx (c :: ts) name) ++ [])
              = some (curr ++ [name]) := by
            rw [List.append_nil, hcpname, sgChain_not_reserved hname_ne hname_res]
            rw [safeguard_path_append (goodToken_chars_dotfree hname_ch)]
            rw [sgChain_not_reserved hname_ne hname_res]
          obtain ⟨fs2, cs2⟩ := sub
          unfold pwalkAux
          dsimp only
          rw [hsgname]
        · rw [if_neg hcptok, if_neg hcptok]
          have hdrop_ne : (c :: ts).drop (commonpfx (c :: ts) name).length ≠ [] :=
            prefix_proper_drop_ne_nil hcp_t hcptok
          have hgood2 : GoodToken ((c :: ts).drop (commonpfx (c :: ts) name).length) :=
            goodToken_drop ⟨htne, htch⟩ hdrop_ne
          have hlen2 : ((c :: ts).drop (commonpfx (c :: ts) name).length).length < f := by
            have h1 : 1 ≤ (commonpfx (c :: ts) name).length :=
              List.length_pos.mpr hcp_ne
            have h2 : (c :: ts).length < f + 1 := hlen
            simp only [List.length_drop]
            simp at h2
            omega
          rw [if_neg (show ¬((c :: ts).drop (commonpfx (c :: ts) name).length).isEmpty = true
            by simpa using hdrop_ne)]
          exact ih sub _ (curr ++ [name]) _ _ (hsub _ hmem) hgood2 hlen2
      · rw [if_pos (by simp [hcpname]), if_neg hcpname]
        by_cases hcptok : commonpfx (c :: ts) name = c :: ts
        · rw [if_pos hcptok, if_pos (show ([] : Str).isEmpty = true by simp), if_pos hcptok]
        · rw [if_neg hcptok]
          have hdrop_ne : (c :: ts).drop (commonpfx (c :: ts) name).length ≠ [] :=
            prefix_proper_drop_ne_nil hcp_t hcptok
          rw [if_neg (show ¬((c :: ts).drop (commonpfx (c :: ts) name).length).isEmpty = true
            by simpa using hdrop_ne), if_neg hcptok]

/-- The claim as frozen is false on the code: the recorded paths pass
through `safeguard_path`, which splits OS-reserved fragments.  For the
token `con` over the empty trie (which satisfies every trie invariant),
the claim says the walk stops with `target = curr/remaining = root/con`,
but the code records `target = root/c/on`. -/
theorem patricia_path_literal_claim_false :
    patricia_path [99, 111, 110] (.node [] [])
        = some (some [[99], [111, 110]], some [], none)
      ∧ [[99], [111, 110]] ≠ ([[99, 111, 110]] : Pth) := by decide

/-- Amended claim: over a trie satisfying the invariants and for a
normalized token, `patricia_path` walks exactly as the claim describes —
matching children by first character, taking common prefixes, advancing,
descending on full-edge matches, recording the correction and stopping on
partial-edge matches — except that every recorded path passes through
`safeguard_path`, so reserved fragments appear split (`specWalkF`). -/
theorem patricia_path_follows_spec_walk {root : DirTree} {token : Str}
    (hinv : TrieInv root) (hg : GoodToken token) :
    patricia_path token root = some (specWalk token root) :=
  pwalkAux_eq_specWalkF _ root token [] none none hinv hg (by omega)

theorem patricia_path_follows_spec_walk_witness :
    patricia_path [99, 97, 116] (.node [] [([99, 97], .node [] [])])
      = some (specWalk [99, 97, 116] (.node [] [([99, 97], .node [] [])])) := by
  refine patricia_path_follows_spec_walk ?_ (by decide)
  refine TrieInv.node _ _ ?_ ?_ ?_
  · intro c hc
    simp only [List.mem_singleton] at hc
    subst hc
    exact ⟨by decide, by decide, by decide⟩
  · simp
  · intro c hc
    simp only [List.mem_singleton] at hc
    subst hc
    exact TrieInv.node _ _ (by simp) (by simp) (by simp)

/-! ### Grouping by first character -/

theorem insGroup_cons_pos {g0 : List Str} {rest : List (List Str)} {t : Str}
    (h : g0.headI.head? = t.head?) :
    insGroup (g0 :: rest) t = (g0 ++ [t]) :: rest := by
  unfold insGroup
  rw [if_pos h]

theorem insGroup_cons_neg {g0 : List Str} {rest : List (List Str)} {t : Str}
    (h : ¬ g0.headI.head? = t.head?) :
    insGroup (g0 :: rest) t = g0 :: insGroup rest t := by
  conv_lhs => unfold insGroup
  rw [if_neg h]

theorem insGroup_heads {gs : List (List Str)} (hne : ∀ g ∈ gs, g ≠ []) (t : Str) :
    ∀ g ∈ insGroup gs t,
      g.headI.head? = t.head? ∨ ∃ g0 ∈ gs, g.headI.head? = g0.headI.head? := by
  induction gs with
  | nil =>
    intro g hg
    simp only [insGroup, List.mem_singleton] at hg
    subst hg
    left
    simp
  | cons r0 rs ih =>
    intro g hg
    by_cases hm : r0.headI.head? = t.head?
    · rw [insGroup_cons_pos hm] at hg
      rcases List.mem_cons.mp hg with rfl | hg
      · right
        refine ⟨r0, by simp, ?_⟩
        have : r0 ≠ [] := hne r0 (by simp)
        cases r0 with
        | nil => exact absurd rfl this
        | cons a l => simp
      · exact Or.inr ⟨g, List.mem_cons_of_mem _ hg, rfl⟩
    · rw [insGroup_cons_neg hm] at hg
      rcases List.mem_cons.mp hg with rfl | hg
      · exact Or.inr ⟨g, by simp, rfl⟩
      · rcases ih (fun x hx => hne x (List.mem_cons_of_mem _ hx)) g hg with h | ⟨g0, hg0, he⟩
        · exact Or.inl h
        · exact Or.inr ⟨g0, List.mem_cons_of_mem _ hg0, he⟩

theorem insGroup_inv {gs : List (List Str)}
    (h1 : ∀ g ∈ gs, g ≠ [])
    (h2 : ∀ g ∈ gs, ∀ x ∈ g, x.head? = g.headI.head?)
    (h3 : gs.Pairwise fun g1 g2 => g1.headI.head? ≠ g2.headI.head?) (t : Str) :
    (∀ g ∈ insGroup gs t, g ≠ [])
      ∧ (∀ g ∈ insGroup gs t, ∀ x ∈ g, x.head? = g.headI.head?)
      ∧ ((insGroup gs t).Pairwise fun g1 g2 => g1.headI.head? ≠ g2.headI.head?)
      ∧ (insGroup gs t).flatten.Perm (t :: gs.flatten) := by
  induction gs with
  | nil =>
    refine ⟨by simp [insGroup], ?_, by simp [insGroup], by simp [insGroup]⟩
    intro g hg
    simp only [insGroup, List.mem_singleton] at hg
    subst hg
    intro x hx
    rw [List.mem_singleton] at hx
    subst hx
    simp
  | cons g0 rest ih =>
    rw [List.pairwise_cons] at h3
    obtain ⟨h3a, h3b⟩ := h3
    by_cases hm : g0.headI.head? = t.head?
    · rw [insGroup_cons_pos hm]
      have hg0ne := h1 g0 (by simp)
      have hhead : (g0 ++ [t]).headI = g0.headI := by
        cases g0 with
        | nil => exact absurd rfl hg0ne
        | cons a l => simp
      refine ⟨?_, ?_, ?_, ?_⟩
      · intro g hg
        rcases List.mem_cons.mp hg with rfl | hg
        · simp
        · exact h1 g (List.mem_cons_of_mem _ hg)
      · intro g hg
        rcases List.mem_cons.mp hg with rfl | hg
        · intro x hx
          rw [hhead]
          rcases List.mem_append.mp hx with hx | hx
          · exact h2 g0 (by simp) x hx
          · rw [List.mem_singleton] at hx
            subst hx
            exact hm.symm
        · exact h2 g (List.mem_cons_of_mem _ hg)
      · rw [List.pairwise_cons]
        refine ⟨?_, h3b⟩
        intro g hg
        rw [hhead]
        exact h3a g hg
      · simp only [List.flatten_cons, List.append_assoc]
        refine List.Perm.trans ?_
          (by simp : ([t] ++ (g0 ++ rest.flatten)).Perm (t :: (g0 :: rest).flatten))
        rw [← List.append_assoc, ← List.append_assoc]
        exact (@List.perm_append_comm _ g0 [t]).append_right _
    · rw [insGroup_cons_neg hm]
      obtain ⟨i1, i2, i3, i4⟩ := ih (fun g hg => h1 g (List.mem_cons_of_mem _ hg))
        (fun g hg => h2 g (List.mem_cons_of_mem _ hg)) h3b
      refine ⟨?_, ?_, ?_, ?_⟩
      · intro g hg
        rcases List.mem_cons.mp hg with rfl | hg
        · exact h1 g (by simp)
        · exact i1 g hg
      · intro g hg
        rcases List.mem_cons.mp hg with rfl | hg
        · exact h2 g (by simp)
        · exact i2 g hg
      · rw [List.pairwise_cons]
        refine ⟨?_, i3⟩
        intro g hg
        rcases insGroup_heads (fun x hx => h1 x (List.mem_cons_of_mem _ hx)) t g hg
          with h | ⟨gx, hgx, he⟩
        · rw [h]; exact hm
        · rw [he]; exact h3a gx hgx
      · simp only [List.flatten_cons]
        refine List.Perm.trans (i4.append_left g0) ?_
        refine List.Perm.trans List.perm_middle ?_
        simp

theorem groupsByFirst_inv (ts : List Str) :
    (∀ g ∈ groupsByFirst ts, g ≠ [])
      ∧ (∀ g ∈ groupsByFirst ts, ∀ x ∈ g, x.head? = g.headI.head?)
      ∧ ((groupsByFirst ts).Pairwise fun g1 g2 => g1.headI.head? ≠ g2.headI.head?)
      ∧ (groupsByFirst ts).flatten.Perm ts := by
  suffices h : ∀ (l : List Str) (gs : List (List Str)),
      (∀ g ∈ gs, g ≠ []) → (∀ g ∈ gs, ∀ x ∈ g, x.head? = g.headI.head?) →
      (gs.Pairwise fun g1 g2 => g1.headI.head? ≠ g2.headI.head?) →
      (∀ g ∈ l.foldl insGroup gs, g ≠ [])
        ∧ (∀ g ∈ l.foldl insGroup gs, ∀ x ∈ g, x.head? = g.headI.head?)
        ∧ ((l.foldl insGroup gs).Pairwise fun g1 g2 => g1.headI.head? ≠ g2.headI.head?)
        ∧ (l.foldl insGroup gs).flatten.Perm (gs.flatten ++ l) by
    obtain ⟨a, b, c, p⟩ := h ts [] (by simp) (by simp) (by simp)
    exact ⟨a, b, c, by simpa using p⟩
  intro l
  induction l with
  | nil =>
    intro gs a b c
    exact ⟨a, b, c, by simp⟩
  | cons t ts ih =>
    intro gs a b c
    obtain ⟨a2, b2, c2, p2⟩ := insGroup_inv a b c t
    obtain ⟨a3, b3, c3, p3⟩ := ih (insGroup gs t) a2 b2 c2
    refine ⟨a3, b3, c3, ?_⟩
    refine List.Perm.trans p3 ?_
    refine List.Perm.trans (p2.append_right ts) ?_
    exact List.perm_middle.symm

theorem groupsByFirst_mem {ts : List Str} {t : Str} (h : t ∈ ts) :
    ∃ g ∈ groupsByFirst ts, t ∈ g := by
  have hp := (groupsByFirst_inv ts).2.2.2
  have : t ∈ (groupsByFirst ts).flatten := hp.mem_iff.mpr h
  rw [List.mem_flatten] at this
  exact this

theorem find?_of_unique {α} {p : α → Bool} {l : List α} {x : α} (hx : x ∈ l)
    (hpx : p x = true)
    (hu : l.Pairwise fun a b => ¬(p a = true ∧ p b = true)) : l.find? p = some x := by
  induction l with
  | nil => simp at hx
  | cons a l0 ih =>
    rw [List.pairwise_cons] at hu
    obtain ⟨hu1, hu2⟩ := hu
    rcases List.mem_cons.mp hx with rfl | hx
    · exact List.find?_cons_of_pos l0 hpx
    · by_cases hpa : p a = true
      · exact absurd ⟨hpa, hpx⟩ (hu1 x hx)
      · rw [List.find?_cons_of_neg l0 hpa]
        exact ih hx hu2

/-- Among the first-character groups, `find?` by head character returns
exactly the group a token belongs to. -/
theorem find_group_eq {ts : List Str} {t : Str} {g : List Str}
    (hg : g ∈ groupsByFirst ts) (htg : t ∈ g) :
    (groupsByFirst ts).find? (fun g2 => g2.headI.head? = t.head?) = some g := by
  apply find?_of_unique hg
  · have := (groupsByFirst_inv ts).2.1 g hg t htg
    simp [this]
  · refine ((groupsByFirst_inv ts).2.2.1).imp ?_
    intro a b hab hc
    obtain ⟨ha, hb⟩ := hc
    simp only [decide_eq_true_eq] at ha hb
    exact hab (ha.trans hb.symm)

/-! ### `lcpList` -/

theorem foldl_commonpfx_prefix_acc (l : List Str) :
    ∀ acc : Str, l.foldl commonpfx acc <+: acc := by
  induction l with
  | nil => intro acc; simp [lcpList]
  | cons t ts ih =>
    intro acc
    exact (ih (commonpfx acc t)).trans (commonpfx_prefix_left acc t)

theorem foldl_commonpfx_prefix_mem (l : List Str) :
    ∀ (acc t : Str), t ∈ l → l.foldl commonpfx acc <+: t := by
  induction l with
  | nil => intro _ t ht; simp at ht
  | cons x xs ih =>
    intro acc t ht
    rcases List.mem_cons.mp ht with rfl | ht
    · exact (foldl_commonpfx_prefix_acc xs _).trans (commonpfx_prefix_right acc t)
    · exact ih _ t ht

theorem lcpList_prefix {ts : List Str} : ∀ t ∈ ts, lcpList ts <+: t := by
  rcases ts with _ | ⟨t0, rest⟩
  · intro t ht; simp at ht
  intro t ht
  rcases List.mem_cons.mp ht with rfl | ht
  · exact foldl_commonpfx_prefix_acc rest t
  · exact foldl_commonpfx_prefix_mem rest t0 t ht

theorem foldl_commonpfx_head {c : Nat} (l : List Str) :
    ∀ acc : Str, acc.head? = some c → (∀ t ∈ l, t.head? = some c) →
      (l.foldl commonpfx acc).head? = some c := by
  induction l with
  | nil => intro acc ha _; exact ha
  | cons x xs ih =>
    intro acc ha hl
    refine ih _ ?_ fun t ht => hl t (List.mem_cons_of_mem _ ht)
    have hx := hl x (by simp)
    cases acc with
    | nil => simp at ha
    | cons a as_ =>
      cases x with
      | nil => simp at hx
      | cons b bs =>
        simp only [List.head?_cons, Option.some_inj] at ha hx
        show (if a = b then a :: commonpfx as_ bs else []).head? = some c
        rw [if_pos (by omega), List.head?_cons, ha]

theorem lcpList_head {ts : List Str} {c : Nat} (hne : ts ≠ [])
    (h : ∀ t ∈ ts, t.head? = some c) : (lcpList ts).head? = some c := by
  rcases ts with _ | ⟨t0, rest⟩
  · exact absurd rfl hne
  exact foldl_commonpfx_head rest t0 (h t0 (by simp))
    fun t ht => h t (List.mem_cons_of_mem _ ht)

/-! ### The fuel measure of `index_tokensetF` -/

theorem headI_mem {l : List Str} (h : l ≠ []) : l.headI ∈ l := by
  cases l with
  | nil => exact absurd rfl h
  | cons a l0 => simp

theorem sum_le_of_sublist {l1 l2 : List Nat} (h : l1.Sublist l2) : l1.sum ≤ l2.sum := by
  induction h with
  | slnil => simp
  | cons a h ih => simp; omega
  | cons₂ a h ih => simp; omega

theorem tokM_le_of_sublist {l1 l2 : List Str} (h : l1.Sublist l2) : tokM l1 ≤ tokM l2 := by
  unfold tokM
  have h1 := sum_le_of_sublist (h.map List.length)
  have h2 := h.length_le
  omega

theorem tokM_append (l1 l2 : List Str) : tokM (l1 ++ l2) = tokM l1 + tokM l2 := by
  unfold tokM
  simp
  omega

theorem tokM_perm {l1 l2 : List Str} (h : l1.Perm l2) : tokM l1 = tokM l2 := by
  unfold tokM
  rw [(h.map List.length).sum_eq, h.length_eq]

theorem tokM_cons (x : Str) (l : List Str) : tokM (x :: l) = x.length + 1 + tokM l := by
  unfold tokM
  simp
  omega

/-- Membership in a first-character group implies membership in the
grouped list. -/
theorem mem_of_mem_group {ts g : List Str} {x : Str}
    (hg : g ∈ groupsByFirst ts) (hx : x ∈ g) : x ∈ ts := by
  have hp := (groupsByFirst_inv ts).2.2.2
  exact hp.mem_iff.mp (List.mem_flatten.mpr ⟨g, hg, hx⟩)

theorem tokM_group_le {ts g : List Str} (hg : g ∈ groupsByFirst ts) :
    tokM g ≤ tokM ts := by
  obtain ⟨s, t2, heq⟩ := List.append_of_mem hg
  have hp := (groupsByFirst_inv ts).2.2.2
  rw [heq] at hp
  have hpe := tokM_perm hp
  rw [List.flatten_append, List.flatten_cons, tokM_append, tokM_append] at hpe
  omega

theorem tokM_map_drop_le {k : Nat} (hk : 1 ≤ k) :
    ∀ lf : List Str, (∀ t ∈ lf, t ≠ []) →
      tokM (lf.map fun t => t.drop k) ≤ (lf.map List.length).sum := by
  intro lf
  induction lf with
  | nil => intro _; simp [tokM]
  | cons t rest ih =>
    intro hnn
    rw [List.map_cons, tokM_cons, List.map_cons, List.sum_cons]
    have h1 := ih fun x hx => hnn x (List.mem_cons_of_mem _ hx)
    have h2 : t.length ≠ 0 := by
      simpa [List.length_eq_zero] using hnn t (by simp)
    simp only [List.length_drop]
    omega

/-- The recursive token set of a group is strictly smaller in measure. -/
theorem tokM_rest_lt {g : List Str} {cp : Str} (hne : g ≠ []) (hnn : ∀ t ∈ g, t ≠ [])
    (hcp : cp ≠ []) :
    tokM (((g.filter fun t => t ≠ cp).map fun t => t.drop cp.length).dedup) < tokM g := by
  have hd : tokM (((g.filter fun t => t ≠ cp).map fun t => t.drop cp.length).dedup)
      ≤ tokM ((g.filter fun t => t ≠ cp).map fun t => t.drop cp.length) :=
    tokM_le_of_sublist (List.dedup_sublist _)
  have hm : tokM ((g.filter fun t => t ≠ cp).map fun t => t.drop cp.length)
      ≤ ((g.filter fun t => t ≠ cp).map List.length).sum :=
    tokM_map_drop_le (by
        rcases cp with _ | ⟨c, rest⟩
        · exact absurd rfl hcp
        · simp)
      _ (fun t ht => hnn t (List.mem_of_mem_filter ht))
  have hs : ((g.filter fun t => t ≠ cp).map List.length).sum ≤ (g.map List.length).sum :=
    sum_le_of_sublist ((List.filter_sublist g).map List.length)
  have hg1 : 1 ≤ g.length := by
    rcases g with _ | ⟨x, xs⟩
    · exact absurd rfl hne
    · simp
  unfold tokM
  unfold tokM at hd hm
  omega

/-- The facts available about one first-character group of (the non-empty
tokens of) a token set. -/
theorem group_facts {ts g : List Str}
    (hg : g ∈ groupsByFirst (ts.filter fun x => !x.isEmpty)) :
    g ≠ [] ∧ (∀ t ∈ g, t ≠ []) ∧ (∀ t ∈ g, t.head? = g.headI.head?)
      ∧ lcpList g ≠ [] ∧ (∀ t ∈ g, lcpList g <+: t) ∧ tokM g ≤ tokM ts := by
  have inv := groupsByFirst_inv (ts.filter fun x => !x.isEmpty)
  have hne := inv.1 g hg
  have hnn : ∀ t ∈ g, t ≠ [] := by
    intro t ht
    have := mem_of_mem_group hg ht
    have := List.of_mem_filter this
    simpa using this
  have hhead := inv.2.1 g hg
  have hheadI : g.headI.head? = some (g.headI.headI) := by
    have h1 : g.headI ≠ [] := hnn _ (headI_mem hne)
    cases hx : g.headI with
    | nil => exact absurd hx h1
    | cons a l => simp
  have hlcp : lcpList g ≠ [] := by
    have := lcpList_head hne (c := g.headI.headI) fun t ht => (hhead t ht).trans hheadI
    intro hz
    rw [hz] at this
    simp at this
  refine ⟨hne, hnn, hhead, hlcp, fun t ht => lcpList_prefix t ht, ?_⟩
  calc tokM g ≤ tokM (ts.filter fun x => !x.isEmpty) := tokM_group_le hg
    _ ≤ tokM ts := tokM_le_of_sublist (List.filter_sublist ts)

/-- `index_tokensetF` does not depend on the fuel once it exceeds the
measure. -/
theorem index_tokensetF_fuel_eq :
    ∀ (n1 n2 : Nat) (ts : List Str), tokM ts < n1 → tokM ts < n2 →
      index_tokensetF n1 ts = index_tokensetF n2 ts := by
  intro n1
  induction n1 with
  | zero => intro n2 ts h1 _; omega
  | succ m1 ih =>
    intro n2 ts h1 h2
    rcases n2 with _ | m2
    · omega
    unfold index_tokensetF
    refine List.map_congr_left ?_
    intro g hg
    obtain ⟨hne, hnn, _, hlcp, _, hM⟩ := group_facts hg
    have hrest := @tokM_rest_lt g (lcpList g) hne hnn hlcp
    dsimp only
    rw [ih m2 _ (by omega) (by omega)]

/-- Same for `tokNodePathF`. -/
theorem tokNodePathF_fuel_eq :
    ∀ (n1 n2 : Nat) (ts : List Str) (t : Str), tokM ts < n1 → tokM ts < n2 →
      tokNodePathF n1 ts t = tokNodePathF n2 ts t := by
  intro n1
  induction n1 with
  | zero => intro n2 ts t h1 _; omega
  | succ m1 ih =>
    intro n2 ts t h1 h2
    rcases n2 with _ | m2
    · omega
    unfold tokNodePathF
    cases hf : (groupsByFirst (ts.filter fun x => !x.isEmpty)).find?
        (fun g => g.headI.head? = t.head?) with
    | none => rfl
    | some g =>
      have hg := List.mem_of_find?_eq_some hf
      obtain ⟨hne, hnn, _, hlcp, _, hM⟩ := group_facts hg
      have hrest := @tokM_rest_lt g (lcpList g) hne hnn hlcp
      dsimp only
      rw [ih m2 _ _ (by omega) (by omega)]

/-! ### Chains -/

theorem sgChain_comps :
    ∀ cp : Comp, cp ≠ [] →
      ∀ n ∈ sgChain cp, n ≠ [] ∧ isReservedName n = false ∧ (∀ x ∈ n, x ∈ cp) := by
  intro cp
  induction cp with
  | nil => exact fun h => absurd rfl h
  | cons c rest ih =>
    intro _ n hn
    by_cases hres : isReservedName (c :: rest) = true
    · rw [show sgChain (c :: rest) = [c] :: (if rest.isEmpty then [] else sgChain rest) by
        conv_lhs => unfold sgChain
        rw [if_pos hres]] at hn
      rcases List.mem_cons.mp hn with rfl | hn
      · exact ⟨by simp, isReservedName_short (by simp), fun x hx => by
          rw [List.mem_singleton] at hx; subst hx; simp⟩
      · rcases hrest : rest with _ | ⟨d, r2⟩
        · subst hrest; simp at hn
        · subst hrest
          simp only [List.isEmpty_cons, Bool.false_eq_true, if_false] at hn
          obtain ⟨p1, p2, p3⟩ := ih (by simp) n hn
          exact ⟨p1, p2, fun x hx => List.mem_cons_of_mem _ (p3 x hx)⟩
    · rw [show sgChain (c :: rest) = [c :: rest] by
        unfold sgChain; rw [if_neg hres]] at hn
      rw [List.mem_singleton] at hn
      subst hn
      exact ⟨by simp, by simpa using hres, fun x hx => hx⟩

theorem mkChainEntry_fst {comps : List Comp} {sub : List (Str × DirTree)}
    (h : comps ≠ []) : (mkChainEntry comps sub).1 = comps.headI := by
  rcases comps with _ | ⟨n, rest⟩
  · exact absurd rfl h
  rcases rest with _ | ⟨m, r2⟩ <;> rfl

theorem sgChain_head {cp : Comp} (h : cp ≠ []) :
    (sgChain cp).headI.head? = cp.head? := by
  rcases cp with _ | ⟨c, rest⟩
  · exact absurd rfl h
  by_cases hres : isReservedName (c :: rest) = true
  · rw [show sgChain (c :: rest) = [c] :: (if rest.isEmpty then [] else sgChain rest) by
      conv_lhs => unfold sgChain
      rw [if_pos hres]]
    simp
  · rw [show sgChain (c :: rest) = [c :: rest] by
      unfold sgChain; rw [if_neg hres]]
    simp

/-- Walking through the chain of directories built for a common prefix:
the walk either consumes exactly the whole chain (token = chain) and stops
with target = closest there, or leaves the chain with the remaining token
and continues below it. -/
theorem pwalk_chain :
    ∀ (comps : List Comp) (fuel : Nat) (sub : List (Str × DirTree)) (t : Str) (curr : Pth)
      (a b : Option Pth) (fs : List (Str × List Str))
      (R : Option Pth × Option Pth × Option Pth),
      comps ≠ [] →
      (∀ n ∈ comps, n ≠ [] ∧ isReservedName n = false ∧ (∀ x ∈ n, x ≠ 46)) →
      comps.flatten <+: t → GoodToken t → t.length < fuel →
      (∀ (fuel2 : Nat) (a2 b2 : Option Pth), (t.drop comps.flatten.length).length < fuel2 →
          t ≠ comps.flatten →
          pwalkAux fuel2 (.node [] sub) (t.drop comps.flatten.length) (curr ++ comps)
            (a2, b2, none) = some R) →
      pwalkAux fuel (.node fs [mkChainEntry comps sub]) t curr (a, b, none)
        = (if t = comps.flatten
           then some (some (curr ++ comps), some (curr ++ comps), none)
           else some R) := by
  intro comps
  induction comps with
  | nil => exact fun _ _ _ _ _ _ _ _ h => absurd rfl h
  | cons n more ih =>
    intro fuel sub t curr a b fs R _ hcomps hpref hgood hfuel hcont
    obtain ⟨hn_ne, hn_res, hn_df⟩ := hcomps n (by simp)
    obtain ⟨f, rfl⟩ : ∃ f, fuel = f + 1 := ⟨fuel - 1, by omega⟩
    obtain ⟨ht_ne, ht_ch⟩ := hgood
    rcases htok : t with _ | ⟨c, ts⟩
    · exact absurd htok ht_ne
    subst htok
    have hflat : (n :: more).flatten = n ++ more.flatten := by simp
    have hn_pref : n <+: c :: ts := by
      refine List.IsPrefix.trans ?_ hpref
      rw [hflat]
      exact ⟨more.flatten, rfl⟩
    have hhead : n.head? = some c := by
      rcases n with _ | ⟨x, xs⟩
      · exact absurd rfl hn_ne
      · rw [List.cons_prefix_cons] at hn_pref
        rw [hn_pref.1]
        simp
    have hcp : commonpfx (c :: ts) n = n := commonpfx_of_prefix hn_pref
    have hsgn : safeguard_path [n] = some [n] := by
      have h0 := safeguard_path_append (p := []) hn_df
      rw [sgChain_not_reserved hn_ne hn_res] at h0
      simpa using h0
    have hfix : safeguard_path (curr ++ [n] ++ []) = some (curr ++ [n]) := by
      rw [List.append_nil, safeguard_path_append hn_df,
        sgChain_not_reserved hn_ne hn_res]
    rcases more with _ | ⟨m, more2⟩
    · -- single-component chain
      unfold pwalkAux
      dsimp only [mkChainEntry]
      rw [List.find?_cons_of_pos _ (by simpa using hhead)]
      dsimp only
      rw [hcp, hsgn]
      dsimp only
      rw [if_neg (show ¬(n ≠ n) by simp)]
      by_cases hnt : n = c :: ts
      · rw [if_pos hnt]
        rw [if_pos (show ([] : Str).isEmpty = true by simp)]
        rw [if_pos (show c :: ts = [n].flatten by simpa using hnt.symm)]
        obtain ⟨f1, rfl⟩ : ∃ f1, f = f1 + 1 := ⟨f - 1, by simp at hfuel; omega⟩
        show pwalkAux (f1 + 1) (.node [] sub) [] (curr ++ [n]) _ = _
        unfold pwalkAux
        dsimp only
        rw [hfix]
      · rw [if_neg hnt]
        have hdrop_ne : (c :: ts).drop n.length ≠ [] :=
          prefix_proper_drop_ne_nil hn_pref hnt
        rw [if_neg (show ¬((c :: ts).drop n.length).isEmpty = true by simpa using hdrop_ne)]
        rw [if_neg (show ¬(c :: ts = [n].flatten) by simpa using fun h => hnt h.symm)]
        have hlen2 : ((c :: ts).drop n.length).length < f := by
          have h2 : (c :: ts).length < f + 1 := hfuel
          have h1 : 1 ≤ n.length := by
            rcases n with _ | _
            · exact absurd rfl hn_ne
            · simp
          simp only [List.length_drop]
          simp at h2
          omega
        have hc := hcont f
          (safeguard_path (curr ++ [n] ++ [(c :: ts).drop n.length]))
          (some (curr ++ [n]))
          (by simpa using hlen2)
          (by simpa using fun h => hnt h.symm)
        simp only [List.flatten_cons, List.flatten_nil, List.append_nil] at hc
        exact hc
    · -- longer chain: this component cannot be the whole token
      have hm_ne : m ≠ [] := (hcomps m (by simp)).1
      have hnt : n ≠ c :: ts := by
        intro h
        have hlen := hpref.length_le
        rw [hflat, ← h] at hlen
        simp only [List.length_append] at hlen
        have h1 : 1 ≤ (m :: more2).flatten.length := by
          rcases hm : m with _ | ⟨y, ys⟩
          · exact absurd hm hm_ne
          · simp
        omega
      have hdrop_ne : (c :: ts).drop n.length ≠ [] :=
        prefix_proper_drop_ne_nil hn_pref hnt
      have hteq : c :: ts = n ++ (c :: ts).drop n.length :=
        (List.prefix_iff_eq_append.mp hn_pref).symm
      have hgood2 : GoodToken ((c :: ts).drop n.length) :=
        goodToken_drop ⟨ht_ne, ht_ch⟩ hdrop_ne
      have hlen2 : ((c :: ts).drop n.length).length < f := by
        have h2 : (c :: ts).length < f + 1 := hfuel
        have h1 : 1 ≤ n.length := by
          rcases n with _ | _
          · exact absurd rfl hn_ne
          · simp
        simp only [List.length_drop]
        simp at h2
        omega
      have hpref2 : (m :: more2).flatten <+: (c :: ts).drop n.length := by
        refine (List.prefix_append_right_inj n).mp ?_
        rw [← hteq, ← hflat]
        exact hpref
      unfold pwalkAux
      dsimp only [mkChainEntry]
      rw [List.find?_cons_of_pos _ (by simpa using hhead)]
      dsimp only
      rw [hcp, hsgn]
      dsimp only
      rw [if_neg (show ¬(n ≠ n) by simp)]
      rw [if_neg hnt]
      rw [if_neg (show ¬((c :: ts).drop n.length).isEmpty = true by simpa using hdrop_ne)]
      have hres := ih f sub ((c :: ts).drop n.length) (curr ++ [n])
        (safeguard_path (curr ++ [n] ++ [(c :: ts).drop n.length]))
        (some (curr ++ [n])) [] R
        (by simp) (fun x hx => hcomps x (List.mem_cons_of_mem _ hx))
        hpref2 hgood2 hlen2
        (by
          intro fuel2 a2 b2 hf2 hne2
          rw [List.drop_drop]
          rw [show (curr ++ [n]) ++ (m :: more2) = curr ++ (n :: m :: more2) by simp]
          have hlen3 : ((c :: ts).drop ((n :: m :: more2).flatten.length)).length < fuel2 := by
            rw [hflat]
            simp only [List.length_drop, List.length_append] at hf2 ⊢
            omega
          have hne3 : c :: ts ≠ (n :: m :: more2).flatten := by
            rw [hflat]
            intro h
            exact hne2 (List.append_cancel_left (hteq.symm.trans h))
          have hc := hcont fuel2 a2 b2 hlen3 hne3
          rw [hflat, List.length_append] at hc
          exact hc)
      rw [hres]
      have hiff : ((c :: ts).drop n.length = (m :: more2).flatten)
          ↔ (c :: ts = (n :: m :: more2).flatten) := by
        rw [hflat]
        constructor
        · intro h
          conv_lhs => rw [hteq]
          rw [h]
        · intro h
          exact List.append_cancel_left (hteq.symm.trans h)
      by_cases hend : (c :: ts).drop n.length = (m :: more2).flatten
      · rw [if_pos hend, if_pos (hiff.mp hend)]
        rw [show (curr ++ [n]) ++ (m :: more2) = curr ++ (n :: m :: more2) by simp]
      · rw [if_neg hend, if_neg (fun h => hend (hiff.mpr h))]

theorem prefix_head_eq {a b : Str} (h : a <+: b) (ha : a ≠ []) : a.head? = b.head? := by
  obtain ⟨r, rfl⟩ := h
  cases a with
  | nil => exact absurd rfl ha
  | cons x xs => simp

/-- The walk only looks at the child `find?` selects, so two nodes whose
`find?` results agree walk identically. -/
theorem pwalkAux_top_children {fuel : Nat} {fs1 fs2 : List (Str × List Str)}
    {cs1 cs2 : List (Str × DirTree)} {token : Str} {curr : Pth}
    {st : Option Pth × Option Pth × Option Pth}
    (h : ∀ c0, token.head? = some c0 →
      cs1.find? (fun ch => ch.1.head? = some c0)
        = cs2.find? (fun ch => ch.1.head? = some c0)) :
    pwalkAux fuel (.node fs1 cs1) token curr st
      = pwalkAux fuel (.node fs2 cs2) token curr st := by
  rcases fuel with _ | f
  · rfl
  rcases token with _ | ⟨c, ts⟩
  · rfl
  unfold pwalkAux
  dsimp only
  rw [h c rfl]

/-- Walking the freshly built trie with a universe token reaches exactly
the token's node: target = closest = the node path, and no correction. -/
theorem pwalk_index_tokensetF :
    ∀ (n : Nat) (U : List Str), tokM U < n → (∀ t ∈ U, GoodToken t) →
      ∀ t ∈ U, ∀ (m fuel : Nat) (curr : Pth) (a b : Option Pth)
        (fs : List (Str × List Str)),
        tokM U < m → t.length < fuel →
        pwalkAux fuel (.node fs (index_tokensetF m U)) t curr (a, b, none)
          = some (some (curr ++ tokNodePathF m U t),
              some (curr ++ tokNodePathF m U t), none) := by
  intro n
  induction n with
  | zero => intro U h; omega
  | succ N ih =>
    intro U hUn hgood t ht m fuel curr a b fs hm hfuel
    obtain ⟨m1, rfl⟩ : ∃ m1, m = m1 + 1 := ⟨m - 1, by omega⟩
    obtain ⟨ht_ne, ht_ch⟩ := hgood t ht
    have hc0 : ∃ c, t.head? = some c := by
      rcases t with _ | ⟨c, ts⟩
      · exact absurd rfl ht_ne
      · exact ⟨c, rfl⟩
    obtain ⟨c, hc⟩ := hc0
    have htf : t ∈ U.filter fun x => !x.isEmpty :=
      List.mem_filter.mpr ⟨ht, by simpa using ht_ne⟩
    obtain ⟨g, hg, htg⟩ := groupsByFirst_mem htf
    obtain ⟨hg_ne, hg_nn, hg_heads, hlcp_ne, hlcp_pref, hgM⟩ := group_facts hg
    have hlcp_t : lcpList g <+: t := hlcp_pref t htg
    have hlcp_head : (lcpList g).head? = some c :=
      (prefix_head_eq hlcp_t hlcp_ne).trans hc
    have hlcp_df : ∀ x ∈ lcpList g, x ≠ 46 := fun x hx =>
      goodToken_chars_dotfree ht_ch x (hlcp_t.subset hx)
    have hchain_ne := sgChain_ne_nil (lcpList g)
    have hchain_comps : ∀ nc ∈ sgChain (lcpList g),
        nc ≠ [] ∧ isReservedName nc = false ∧ ∀ x ∈ nc, x ≠ 46 := by
      intro nc hnc
      obtain ⟨p1, p2, p3⟩ := sgChain_comps (lcpList g) hlcp_ne nc hnc
      exact ⟨p1, p2, fun x hx => hlcp_df x (p3 x hx)⟩
    have hentry_head : ∀ g2 ∈ groupsByFirst (U.filter fun x => !x.isEmpty),
        ∀ sub2 : List (Str × DirTree),
        (mkChainEntry (sgChain (lcpList g2)) sub2).1.head? = g2.headI.head? := by
      intro g2 hg2 sub2
      obtain ⟨h2ne, -, -, h2lcp, h2pref, -⟩ := group_facts hg2
      rw [mkChainEntry_fst (sgChain_ne_nil _), sgChain_head h2lcp]
      exact prefix_head_eq (h2pref _ (headI_mem h2ne)) h2lcp
    have hgroup_head : g.headI.head? = some c := by
      rw [← hg_heads t htg, hc]
    set rest := ((g.filter fun x => x ≠ lcpList g).map
      fun x => x.drop (lcpList g).length).dedup with hrest_def
    set entry := mkChainEntry (sgChain (lcpList g)) (index_tokensetF m1 rest)
      with hentry_def
    have hentry_head_c : entry.1.head? = some c := by
      rw [hentry_def, mkChainEntry_fst hchain_ne, sgChain_head hlcp_ne, hlcp_head]
    have hfind : (index_tokensetF (m1 + 1) U).find?
        (fun ch => ch.1.head? = some c) = some entry := by
      unfold index_tokensetF
      apply find?_of_unique (List.mem_map.mpr ⟨g, hg, rfl⟩)
      · rw [decide_eq_true_eq]
        exact hentry_head_c
      · rw [List.pairwise_map]
        refine ((groupsByFirst_inv _).2.2.1).imp_of_mem ?_
        intro g1 g2 hg1 hg2 h12 hcc
        obtain ⟨h1, h2⟩ := hcc
        rw [decide_eq_true_eq] at h1 h2
        have e1 : g1.headI.head? = some c :=
          (hentry_head g1 hg1 (index_tokensetF m1
            (((g1.filter fun x => x ≠ lcpList g1).map
              fun x => x.drop (lcpList g1).length).dedup))).symm.trans h1
        have e2 : g2.headI.head? = some c :=
          (hentry_head g2 hg2 (index_tokensetF m1
            (((g2.filter fun x => x ≠ lcpList g2).map
              fun x => x.drop (lcpList g2).length).dedup))).symm.trans h2
        exact h12 (e1.trans e2.symm)
    have hstep : pwalkAux fuel (.node fs (index_tokensetF (m1 + 1) U)) t curr (a, b, none)
        = pwalkAux fuel (.node fs [entry]) t curr (a, b, none) := by
      apply pwalkAux_top_children
      intro c0 hc0
      rw [hc] at hc0
      injection hc0 with hc0
      subst hc0
      rw [hfind, List.find?_cons_of_pos _ (by rw [decide_eq_true_eq]; exact hentry_head_c)]
    have hcont : ∀ (fuel2 : Nat) (a2 b2 : Option Pth),
        (t.drop (sgChain (lcpList g)).flatten.length).length < fuel2 →
        t ≠ (sgChain (lcpList g)).flatten →
        pwalkAux fuel2 (.node [] (index_tokensetF m1 rest))
            (t.drop (sgChain (lcpList g)).flatten.length)
            (curr ++ sgChain (lcpList g)) (a2, b2, none)
          = some (some (curr ++ tokNodePathF (m1 + 1) U t),
              some (curr ++ tokNodePathF (m1 + 1) U t), none) := by
      intro fuel2 a2 b2 hf2 hne2
      rw [sgChain_flatten] at hf2 hne2 ⊢
      have ht2 : t.drop (lcpList g).length ∈ rest := by
        rw [hrest_def, List.mem_dedup]
        exact List.mem_map.mpr ⟨t, List.mem_filter.mpr ⟨htg, by simpa using hne2⟩, rfl⟩
      have hrest_good : ∀ r ∈ rest, GoodToken r := by
        intro r hr
        rw [hrest_def, List.mem_dedup] at hr
        obtain ⟨x, hx, rfl⟩ := List.mem_map.mp hr
        obtain ⟨hxg, hxne⟩ := List.mem_filter.mp hx
        have hxU : x ∈ U := List.mem_of_mem_filter (mem_of_mem_group hg hxg)
        have hxne2 : x ≠ lcpList g := by simpa using hxne
        have hdne : x.drop (lcpList g).length ≠ [] :=
          prefix_proper_drop_ne_nil (hlcp_pref x hxg) (fun h => hxne2 h.symm)
        exact goodToken_drop (hgood x hxU) hdne
      have hMrest : tokM rest < tokM U := by
        have h0 := tokM_rest_lt hg_ne hg_nn hlcp_ne
        rw [← hrest_def] at h0
        exact lt_of_lt_of_le h0 hgM
      have hwalk := ih rest (by omega) hrest_good (t.drop (lcpList g).length) ht2 m1 fuel2
        (curr ++ sgChain (lcpList g)) a2 b2 [] (by omega) hf2
      rw [hwalk]
      have hpath : tokNodePathF (m1 + 1) U t
          = sgChain (lcpList g) ++ tokNodePathF m1 rest (t.drop (lcpList g).length) := by
        conv_lhs => unfold tokNodePathF
        rw [find_group_eq hg htg]
        dsimp only
        rw [if_neg hne2, ← hrest_def]
      rw [hpath]
      simp [List.append_assoc]
    have hR := pwalk_chain (sgChain (lcpList g)) fuel (index_tokensetF m1 rest) t curr a b fs
      _ hchain_ne hchain_comps (by rw [sgChain_flatten]; exact hlcp_t) ⟨ht_ne, ht_ch⟩
      hfuel hcont
    rw [hstep, hentry_def, hR, sgChain_flatten]
    by_cases hteq : t = lcpList g
    · rw [if_pos hteq]
      have hpath : tokNodePathF (m1 + 1) U t = sgChain (lcpList g) := by
        conv_lhs => unfold tokNodePathF
        rw [find_group_eq hg htg]
        dsimp only
        rw [if_pos hteq]
        simp
      rw [hpath]
    · rw [if_neg hteq]

/-- Helper: on a freshly built trie, the walk for a universe token ends at
the token's node with target = closest and no correction. -/
theorem patricia_path_fresh
    (U : List Str) (hU : ∀ t ∈ U, GoodToken t) (t : Str) (ht : t ∈ U)
    (fs : List (Str × List Str)) :
    patricia_path t (.node fs (index_tokenset U))
      = some (some (tokNodePath U t), some (tokNodePath U t), none) := by
  have h := pwalk_index_tokensetF (tokM U + 1) U (by omega) hU t ht (tokM U + 1)
    (t.length + 1) [] none none fs (by omega) (by omega)
  simpa [patricia_path, index_tokenset, tokNodePath] using h

/-- C6: for every token t of the universe U from which the trie was freshly
built by `index_tokenset`, `patricia_path t root` returns target = closest
(the token's node) and an absent correction (`none`). -/
theorem patricia_path_no_correction_on_fresh
    (U : List Str) (hU : ∀ t ∈ U, GoodToken t) (t : Str) (ht : t ∈ U)
    (fs : List (Str × List Str)) :
    patricia_path t (.node fs (index_tokenset U))
      = some (some (tokNodePath U t), some (tokNodePath U t), none) :=
  patricia_path_fresh U hU t ht fs

/-- Concrete instance of C6: the universe is the single token "con" (an
OS-reserved word, so its node path is the split chain c/on). -/
theorem patricia_path_no_correction_on_fresh_witness :
    (∀ t ∈ [[99, 111, 110]], GoodToken t)
      ∧ patricia_path [99, 111, 110] (.node [] (index_tokenset [[99, 111, 110]]))
        = some (some (tokNodePath [[99, 111, 110]] [99, 111, 110]),
            some (tokNodePath [[99, 111, 110]] [99, 111, 110]), none) :=
  ⟨by decide, patricia_path_no_correction_on_fresh [[99, 111, 110]] (by decide)
    [99, 111, 110] (by decide) []⟩

/-! ### Lemmas for C1: the indexed corpus answers exact search -/

theorem splitWsAux_nospace :
    ∀ (s acc : Str), (∀ c ∈ s, pyIsSpace c = false) →
      splitWsAux s acc
        = if (acc.reverse ++ s).isEmpty then [] else [acc.reverse ++ s] := by
  intro s
  induction s with
  | nil =>
    intro acc _
    unfold splitWsAux
    simp
  | cons c rest ih =>
    intro acc hns
    unfold splitWsAux
    rw [if_neg (by simp [hns c (List.mem_cons_self c rest)])]
    rw [ih (c :: acc) (fun d hd => hns d (List.mem_cons_of_mem c hd))]
    simp [List.reverse_cons, List.append_assoc]

theorem normalizeText_fixed {t : Str} (h : ∀ c ∈ t, NormalCh c) :
    normalizeText t = t := by
  unfold normalizeText
  have h1 : t.filter (fun c => pyIsSpace c || pyIsPrintable c) = t := by
    apply List.filter_eq_self.mpr
    intro c hc
    simp [(h c hc).2.1]
  rw [h1]
  have h2 : t.map translatePunct = t := by
    conv_rhs => rw [← List.map_id t]
    apply List.map_congr_left
    intro c hc
    simp [translatePunct, (h c hc).2.2.1]
  rw [h2]
  conv_rhs => rw [← List.map_id t]
  apply List.map_congr_left
  intro c hc
  simpa using (h c hc).2.2.2

/-- Tokenizing a single already-normalized token returns just it. -/
theorem as_tokens_goodToken_fix {t : Str} (h : GoodToken t) (u : Bool) :
    as_tokens t u = [t] := by
  obtain ⟨hne, hch⟩ := h
  have hsplit : pySplit (normalizeText t) = [t] := by
    rw [normalizeText_fixed hch]
    unfold pySplit
    rw [splitWsAux_nospace t [] (fun c hc => (hch c hc).1)]
    simp [hne]
  unfold as_tokens
  rcases u with _ | _ <;> simp [hsplit]

/-- Every token of the corpus universe is a good token. -/
theorem corpusUniverse_good {corpus : Corpus} : ∀ t ∈ corpusUniverse corpus, GoodToken t := by
  intro t ht
  unfold corpusUniverse at ht
  rw [List.mem_dedup] at ht
  obtain ⟨f, _, htf⟩ := List.mem_flatMap.mp ht
  unfold unique_tokens at htf
  exact goodToken_of_mem_as_tokens htf

/-- The concatenation of a universe token's node-path components is the
token itself. -/
theorem tokNodePathF_flatten :
    ∀ (n : Nat) (U : List Str), tokM U < n → (∀ t ∈ U, GoodToken t) →
      ∀ t ∈ U, ∀ m : Nat, tokM U < m →
        (tokNodePathF m U t).flatten = t := by
  intro n
  induction n with
  | zero => intro U h; omega
  | succ N ih =>
    intro U hUn hgood t ht m hm
    obtain ⟨m1, rfl⟩ : ∃ m1, m = m1 + 1 := ⟨m - 1, by omega⟩
    obtain ⟨ht_ne, ht_ch⟩ := hgood t ht
    have htf : t ∈ U.filter fun x => !x.isEmpty :=
      List.mem_filter.mpr ⟨ht, by simpa using ht_ne⟩
    obtain ⟨g, hg, htg⟩ := groupsByFirst_mem htf
    obtain ⟨hg_ne, hg_nn, hg_heads, hlcp_ne, hlcp_pref, hgM⟩ := group_facts hg
    have hlcp_t : lcpList g <+: t := hlcp_pref t htg
    by_cases hteq : t = lcpList g
    · have hpath : tokNodePathF (m1 + 1) U t = sgChain (lcpList g) := by
        conv_lhs => unfold tokNodePathF
        rw [find_group_eq hg htg]
        dsimp only
        rw [if_pos hteq]
        simp
      rw [hpath, sgChain_flatten, hteq]
    · set rest := ((g.filter fun x => x ≠ lcpList g).map
        fun x => x.drop (lcpList g).length).dedup with hrest_def
      have ht2 : t.drop (lcpList g).length ∈ rest := by
        rw [hrest_def, List.mem_dedup]
        exact List.mem_map.mpr ⟨t, List.mem_filter.mpr ⟨htg, by simpa using hteq⟩, rfl⟩
      have hrest_good : ∀ r ∈ rest, GoodToken r := by
        intro r hr
        rw [hrest_def, List.mem_dedup] at hr
        obtain ⟨x, hx, rfl⟩ := List.mem_map.mp hr
        obtain ⟨hxg, hxne⟩ := List.mem_filter.mp hx
        have hxU : x ∈ U := List.mem_of_mem_filter (mem_of_mem_group hg hxg)
        have hxne2 : x ≠ lcpList g := by simpa using hxne
        have hdne : x.drop (lcpList g).length ≠ [] :=
          prefix_proper_drop_ne_nil (hlcp_pref x hxg) (fun h => hxne2 h.symm)
        exact goodToken_drop (hgood x hxU) hdne
      have hMrest : tokM rest < tokM U := by
        have h0 := tokM_rest_lt hg_ne hg_nn hlcp_ne
        rw [← hrest_def] at h0
        exact lt_of_lt_of_le h0 hgM
      have hpath : tokNodePathF (m1 + 1) U t
          = sgChain (lcpList g) ++ tokNodePathF m1 rest (t.drop (lcpList g).length) := by
        conv_lhs => unfold tokNodePathF
        rw [find_group_eq hg htg]
        dsimp only
        rw [if_neg hteq, ← hrest_def]
      rw [hpath, List.flatten_append, sgChain_flatten]
      rw [ih rest (by omega) hrest_good _ ht2 m1 (by omega)]
      exact List.prefix_iff_eq_append.mp hlcp_t

theorem tokNodePath_flatten {U : List Str} (hgood : ∀ t ∈ U, GoodToken t) {t : Str}
    (ht : t ∈ U) : (tokNodePath U t).flatten = t :=
  tokNodePathF_flatten (tokM U + 1) U (by omega) hgood t ht _ (by omega)

/-- Two universe tokens sharing a node path are equal. -/
theorem tokNodePath_inj {U : List Str} (hgood : ∀ t ∈ U, GoodToken t) {u t : Str}
    (hu : u ∈ U) (ht : t ∈ U) (h : tokNodePath U u = tokNodePath U t) : u = t := by
  rw [← tokNodePath_flatten hgood hu, ← tokNodePath_flatten hgood ht, h]

/-- `find?` over a map that preserves first components, for a predicate
that only looks at the first component. -/
theorem find?_map_fst {g : Str × DirTree → Str × DirTree} {p : Str × DirTree → Bool}
    (hp : ∀ c, p (g c) = p c) (cs : List (Str × DirTree)) :
    (cs.map g).find? p = (cs.find? p).map g := by
  rw [List.find?_map]
  have : (p ∘ g) = p := funext hp
  rw [this]

/-- `addFile` never changes directory names or the tree shape, so the
walk is unaffected by it. -/
theorem pwalkAux_addFile :
    ∀ (fuel : Nat) (tr : DirTree) (p : Pth) (f : Str × List Str) (token : Str)
      (curr : Pth) (st : Option Pth × Option Pth × Option Pth),
      pwalkAux fuel (addFile tr p f) token curr st = pwalkAux fuel tr token curr st := by
  intro fuel
  induction fuel with
  | zero => intro tr p f token curr st; rfl
  | succ fl ih =>
    intro tr p f token curr st
    obtain ⟨fs, cs⟩ := tr
    rcases p with _ | ⟨comp, rest⟩
    · exact pwalkAux_top_children (fun c0 _ => rfl)
    · show pwalkAux (fl + 1)
        (.node fs (cs.map fun c => if c.1 = comp then (c.1, addFile c.2 rest f) else c))
        token curr st = _
      rcases token with _ | ⟨c0, ts⟩
      · rfl
      unfold pwalkAux
      dsimp only
      rw [find?_map_fst (fun c => by by_cases hc : c.1 = comp <;> simp [hc]) cs]
      cases hf : cs.find? (fun ch => ch.1.head? = some c0) with
      | none => rfl
      | some pair =>
        obtain ⟨name, sub⟩ := pair
        dsimp only [Option.map]
        by_cases hnc : name = comp
        · rw [show (if (name, sub).1 = comp then ((name, sub).1, addFile (name, sub).2 rest f)
              else (name, sub)) = (name, addFile sub rest f) by simp [hnc]]
          dsimp only
          cases hsg : safeguard_path [commonpfx (c0 :: ts) name] with
          | none => rfl
          | some cpPath =>
            dsimp only
            by_cases hcp : commonpfx (c0 :: ts) name ≠ name
            · rw [if_pos hcp, if_pos hcp]
            · rw [if_neg hcp, if_neg hcp]
              exact ih sub rest f _ _ _
        · rw [show (if (name, sub).1 = comp then ((name, sub).1, addFile (name, sub).2 rest f)
              else (name, sub)) = (name, sub) by simp [hnc]]

/-- `addFile` appends the file to the directory at exactly its path and
leaves every other directory's files unchanged. -/
theorem filesAt_addFile :
    ∀ (p : Pth) (tr : DirTree) (q : Pth) (f : Str × List Str),
      filesAt (addFile tr p f) q
        = if p = q then (filesAt tr q).map (· ++ [f]) else filesAt tr q := by
  intro p
  induction p with
  | nil =>
    intro tr q f
    obtain ⟨fs, cs⟩ := tr
    rcases q with _ | ⟨cq, qrest⟩
    · simp [filesAt, nodeAt, addFile]
    · rw [if_neg (by simp)]
      rfl
  | cons cp prest ih =>
    intro tr q f
    obtain ⟨fs, cs⟩ := tr
    rcases q with _ | ⟨cq, qrest⟩
    · rw [if_neg (by simp)]
      rfl
    · show filesAt (.node fs (cs.map fun c =>
          if c.1 = cp then (c.1, addFile c.2 prest f) else c)) (cq :: qrest) = _
      have hmap := find?_map_fst
        (g := fun c => if c.1 = cp then (c.1, addFile c.2 prest f) else c)
        (p := fun c => decide (c.1 = cq))
        (fun c => by by_cases hc : c.1 = cp <;> simp [hc]) cs
      unfold filesAt nodeAt
      rw [hmap]
      cases hfind : cs.find? (fun c => decide (c.1 = cq)) with
      | none =>
        dsimp only [Option.map]
        split <;> rfl
      | some cpair =>
        obtain ⟨cname, csub⟩ := cpair
        have hcq : cname = cq := by
          have := List.find?_some hfind
          simpa using this
        dsimp only [Option.map]
        by_cases hcc : cname = cp
        · rw [show (if (cname, csub).1 = cp then ((cname, csub).1, addFile (cname, csub).2 prest f)
              else (cname, csub)) = (cname, addFile csub prest f) by simp [hcc]]
          by_cases hpq : prest = qrest
          · rw [if_pos (show cp :: prest = cq :: qrest by rw [hpq, ← hcq, hcc])]
            show filesAt (addFile csub prest f) qrest = (filesAt csub qrest).map (· ++ [f])
            rw [ih csub qrest f, if_pos hpq]
          · rw [if_neg (show ¬(cp :: prest = cq :: qrest) by simp [hpq])]
            show filesAt (addFile csub prest f) qrest = filesAt csub qrest
            rw [ih csub qrest f, if_neg hpq]
        · rw [show (if (cname, csub).1 = cp then ((cname, csub).1, addFile (cname, csub).2 prest f)
              else (cname, csub)) = (cname, csub) by simp [hcc]]
          rw [if_neg (show ¬(cp :: prest = cq :: qrest) from by
            simp only [List.cons.injEq, not_and]
            exact fun h1 _ => absurd (hcq.trans h1.symm) hcc)]

/-- `addFile` never changes directory names anywhere. -/
theorem childNamesAt_addFile :
    ∀ (p : Pth) (tr : DirTree) (q : Pth) (f : Str × List Str),
      childNamesAt (addFile tr p f) q = childNamesAt tr q := by
  intro p
  induction p with
  | nil =>
    intro tr q f
    obtain ⟨fs, cs⟩ := tr
    rcases q with _ | ⟨cq, qrest⟩ <;> rfl
  | cons cp prest ih =>
    intro tr q f
    obtain ⟨fs, cs⟩ := tr
    rcases q with _ | ⟨cq, qrest⟩
    · show childNamesAt (.node fs (cs.map fun c =>
          if c.1 = cp then (c.1, addFile c.2 prest f) else c)) [] = _
      unfold childNamesAt nodeAt
      dsimp only [Option.map]
      congr 1
      rw [List.map_map]
      apply List.map_congr_left
      intro c _
      by_cases hc : c.1 = cp <;> simp [hc]
    · show childNamesAt (.node fs (cs.map fun c =>
          if c.1 = cp then (c.1, addFile c.2 prest f) else c)) (cq :: qrest) = _
      have hmap := find?_map_fst
        (g := fun c => if c.1 = cp then (c.1, addFile c.2 prest f) else c)
        (p := fun c => decide (c.1 = cq))
        (fun c => by by_cases hc : c.1 = cp <;> simp [hc]) cs
      unfold childNamesAt nodeAt
      rw [hmap]
      cases hfind : cs.find? (fun c => decide (c.1 = cq)) with
      | none => rfl
      | some cpair =>
        obtain ⟨cname, csub⟩ := cpair
        dsimp only [Option.map]
        by_cases hcc : cname = cp
        · rw [show (if (cname, csub).1 = cp then ((cname, csub).1, addFile (cname, csub).2 prest f)
              else (cname, csub)) = (cname, addFile csub prest f) by simp [hcc]]
          show childNamesAt (addFile csub prest f) qrest = childNamesAt csub qrest
          exact ih csub qrest f
        · rw [show (if (cname, csub).1 = cp then ((cname, csub).1, addFile (cname, csub).2 prest f)
              else (cname, csub)) = (cname, csub) by simp [hcc]]

/-- Descending the chain of directories built for one common prefix. -/
theorem nodeAt_entry :
    ∀ (comps : List Comp) (sub : List (Str × DirTree)) (tail : Pth)
      (fs : List (Str × List Str)) (cs : List (Str × DirTree)),
      comps ≠ [] →
      cs.find? (fun c => c.1 = comps.headI) = some (mkChainEntry comps sub) →
      nodeAt (.node fs cs) (comps ++ tail) = nodeAt (.node [] sub) tail := by
  intro comps
  induction comps with
  | nil => exact fun sub tail fs cs h _ => absurd rfl h
  | cons n more ih =>
    intro sub tail fs cs _ hfind
    rcases more with _ | ⟨m, more2⟩
    · simp only [List.headI, mkChainEntry] at hfind
      rw [List.singleton_append]
      conv_lhs => unfold nodeAt
      rw [hfind]
    · simp only [List.headI, mkChainEntry] at hfind
      rw [List.cons_append]
      conv_lhs => unfold nodeAt
      rw [hfind]
      show nodeAt (DirTree.node [] [mkChainEntry (m :: more2) sub]) (m :: more2 ++ tail)
        = nodeAt (DirTree.node [] sub) tail
      exact ih sub tail [] [mkChainEntry (m :: more2) sub] (by simp)
        (List.find?_cons_of_pos _ (by rw [decide_eq_true_eq, mkChainEntry_fst (by simp)]))

/-- The node at a universe token's node path in the freshly built trie
exists and carries no files of its own. -/
theorem nodeAt_index_tokensetF :
    ∀ (n : Nat) (U : List Str), tokM U < n → (∀ t ∈ U, GoodToken t) →
      ∀ t ∈ U, ∀ (m : Nat) (fs : List (Str × List Str)), tokM U < m →
        ∃ sub, nodeAt (.node fs (index_tokensetF m U)) (tokNodePathF m U t)
          = some (.node [] sub) := by
  intro n
  induction n with
  | zero => intro U h; omega
  | succ N ih =>
    intro U hUn hgood t ht m fs hm
    obtain ⟨m1, rfl⟩ : ∃ m1, m = m1 + 1 := ⟨m - 1, by omega⟩
    obtain ⟨ht_ne, ht_ch⟩ := hgood t ht
    have htf : t ∈ U.filter fun x => !x.isEmpty :=
      List.mem_filter.mpr ⟨ht, by simpa using ht_ne⟩
    obtain ⟨g, hg, htg⟩ := groupsByFirst_mem htf
    obtain ⟨hg_ne, hg_nn, hg_heads, hlcp_ne, hlcp_pref, hgM⟩ := group_facts hg
    have hchain_ne := sgChain_ne_nil (lcpList g)
    have hentry_head : ∀ g2 ∈ groupsByFirst (U.filter fun x => !x.isEmpty),
        ∀ sub2 : List (Str × DirTree),
        (mkChainEntry (sgChain (lcpList g2)) sub2).1.head? = g2.headI.head? := by
      intro g2 hg2 sub2
      obtain ⟨h2ne, -, -, h2lcp, h2pref, -⟩ := group_facts hg2
      rw [mkChainEntry_fst (sgChain_ne_nil _), sgChain_head h2lcp]
      exact prefix_head_eq (h2pref _ (headI_mem h2ne)) h2lcp
    set rest := ((g.filter fun x => x ≠ lcpList g).map
      fun x => x.drop (lcpList g).length).dedup with hrest_def
    set entry := mkChainEntry (sgChain (lcpList g)) (index_tokensetF m1 rest)
      with hentry_def
    have hfind : (index_tokensetF (m1 + 1) U).find?
        (fun ch => ch.1 = (sgChain (lcpList g)).headI) = some entry := by
      unfold index_tokensetF
      apply find?_of_unique (List.mem_map.mpr ⟨g, hg, rfl⟩)
      · rw [decide_eq_true_eq, mkChainEntry_fst hchain_ne]
      · rw [List.pairwise_map]
        refine ((groupsByFirst_inv _).2.2.1).imp_of_mem ?_
        intro g1 g2 hg1 hg2 h12 hcc
        obtain ⟨h1, h2⟩ := hcc
        rw [decide_eq_true_eq] at h1 h2
        have e1 := hentry_head g1 hg1 (index_tokensetF m1
          (((g1.filter fun x => x ≠ lcpList g1).map
            fun x => x.drop (lcpList g1).length).dedup))
        have e2 := hentry_head g2 hg2 (index_tokensetF m1
          (((g2.filter fun x => x ≠ lcpList g2).map
            fun x => x.drop (lcpList g2).length).dedup))
        rw [h1] at e1
        rw [h2] at e2
        exact h12 (e1.symm.trans e2)
    rw [hentry_def] at hfind
    by_cases hteq : t = lcpList g
    · have hpath : tokNodePathF (m1 + 1) U t = sgChain (lcpList g) := by
        conv_lhs => unfold tokNodePathF
        rw [find_group_eq hg htg]
        dsimp only
        rw [if_pos hteq]
        simp
      have hdesc := nodeAt_entry (sgChain (lcpList g)) (index_tokensetF m1 rest) [] fs
        (index_tokensetF (m1 + 1) U) hchain_ne hfind
      rw [List.append_nil] at hdesc
      rw [hpath, hdesc]
      exact ⟨index_tokensetF m1 rest, rfl⟩
    · have ht2 : t.drop (lcpList g).length ∈ rest := by
        rw [hrest_def, List.mem_dedup]
        exact List.mem_map.mpr ⟨t, List.mem_filter.mpr ⟨htg, by simpa using hteq⟩, rfl⟩
      have hrest_good : ∀ r ∈ rest, GoodToken r := by
        intro r hr
        rw [hrest_def, List.mem_dedup] at hr
        obtain ⟨x, hx, rfl⟩ := List.mem_map.mp hr
        obtain ⟨hxg, hxne⟩ := List.mem_filter.mp hx
        have hxU : x ∈ U := List.mem_of_mem_filter (mem_of_mem_group hg hxg)
        have hxne2 : x ≠ lcpList g := by simpa using hxne
        have hdne : x.drop (lcpList g).length ≠ [] :=
          prefix_proper_drop_ne_nil (hlcp_pref x hxg) (fun h => hxne2 h.symm)
        exact goodToken_drop (hgood x hxU) hdne
      have hMrest : tokM rest < tokM U := by
        have h0 := tokM_rest_lt hg_ne hg_nn hlcp_ne
        rw [← hrest_def] at h0
        exact lt_of_lt_of_le h0 hgM
      have hpath : tokNodePathF (m1 + 1) U t
          = sgChain (lcpList g) ++ tokNodePathF m1 rest (t.drop (lcpList g).length) := by
        conv_lhs => unfold tokNodePathF
        rw [find_group_eq hg htg]
        dsimp only
        rw [if_neg hteq, ← hrest_def]
      rw [hpath, nodeAt_entry (sgChain (lcpList g)) (index_tokensetF m1 rest) _ fs
        (index_tokensetF (m1 + 1) U) hchain_ne hfind]
      exact ih rest (by omega) hrest_good _ ht2 m1 [] (by omega)

/-- Processing a suffix of the universe with `transfer` succeeds and adds
exactly one postings file, at the token's node, per processed token. -/
theorem transfer_fold (corpus : Corpus) :
    ∀ (S : List Str) (tree : DirTree) (flag : Str → Bool),
      (∀ u ∈ S, u ∈ corpusUniverse corpus) →
      S.Nodup →
      (∀ u ∈ S, flag u = false) →
      (∀ (fuel : Nat) (tk : Str) (curr : Pth) (st : Option Pth × Option Pth × Option Pth),
        pwalkAux fuel tree tk curr st
          = pwalkAux fuel (.node [] (index_tokenset (corpusUniverse corpus))) tk curr st) →
      (∀ t ∈ corpusUniverse corpus,
        filesAt tree (tokNodePath (corpusUniverse corpus) t)
          = some (if flag t then [(encodeInd t, postingsList corpus t)] else [])) →
      ∃ treeN, S.foldlM (transfer corpus) tree = some treeN
        ∧ (∀ (fuel : Nat) (tk : Str) (curr : Pth) (st : Option Pth × Option Pth × Option Pth),
            pwalkAux fuel treeN tk curr st
              = pwalkAux fuel (.node [] (index_tokenset (corpusUniverse corpus))) tk curr st)
        ∧ (∀ t ∈ corpusUniverse corpus,
            filesAt treeN (tokNodePath (corpusUniverse corpus) t)
              = some (if flag t || decide (t ∈ S)
                  then [(encodeInd t, postingsList corpus t)] else []))
        ∧ (∀ q, (∀ t ∈ corpusUniverse corpus, tokNodePath (corpusUniverse corpus) t ≠ q) →
            filesAt treeN q = filesAt tree q)
        ∧ (∀ q, childNamesAt treeN q = childNamesAt tree q) := by
  intro S
  induction S with
  | nil =>
    intro tree flag _ _ _ hwalk hfiles
    refine ⟨tree, by simp, hwalk, ?_, fun q _ => rfl, fun q => rfl⟩
    intro t ht
    rw [hfiles t ht]
    simp
  | cons u S2 ih =>
    intro tree flag hS hnd hflag hwalk hfiles
    have huU : u ∈ corpusUniverse corpus := hS u (List.mem_cons_self u S2)
    have hgood := @corpusUniverse_good corpus
    have hpp : patricia_path u tree
        = some (some (tokNodePath (corpusUniverse corpus) u),
            some (tokNodePath (corpusUniverse corpus) u), none) := by
      have h0 : patricia_path u tree
          = patricia_path u (.node [] (index_tokenset (corpusUniverse corpus))) :=
        hwalk (u.length + 1) u [] (none, none, none)
      rw [h0]
      exact patricia_path_fresh (corpusUniverse corpus) hgood u huU []
    have htrans : transfer corpus tree u
        = some (addFile tree (tokNodePath (corpusUniverse corpus) u)
            (encodeInd u, postingsList corpus u)) := by
      unfold transfer
      rw [hpp]
    set tree2 := addFile tree (tokNodePath (corpusUniverse corpus) u)
      (encodeInd u, postingsList corpus u) with htree2
    obtain ⟨treeN, hfold, hwalkN, hfilesN, hotherN, hnamesN⟩ :=
      ih tree2 (fun t => flag t || decide (t = u))
      (fun v hv => hS v (List.mem_cons_of_mem u hv))
      (List.nodup_cons.mp hnd).2
      (fun v hv => by
        have h1 : flag v = false := hflag v (List.mem_cons_of_mem u hv)
        have h2 : v ≠ u := fun h => (List.nodup_cons.mp hnd).1 (h ▸ hv)
        simp [h1, h2])
      (fun fuel tk curr st => (pwalkAux_addFile fuel tree _ _ tk curr st).trans
        (hwalk fuel tk curr st))
      (fun t ht => by
        rw [htree2, filesAt_addFile]
        by_cases hq : tokNodePath (corpusUniverse corpus) u
            = tokNodePath (corpusUniverse corpus) t
        · have hut : u = t := tokNodePath_inj hgood huU ht hq
          rw [if_pos hq, hfiles t ht]
          subst hut
          rw [hflag u (List.mem_cons_self u S2)]
          simp
        · have hut : ¬(t = u) := fun h => hq (by rw [h])
          rw [if_neg hq, hfiles t ht]
          simp [hut])
    refine ⟨treeN, ?_, hwalkN, ?_, ?_, ?_⟩
    · rw [List.foldlM_cons, htrans]
      simpa using hfold
    · intro t ht
      rw [hfilesN t ht]
      by_cases htu : t = u
      · subst htu
        simp [List.mem_cons]
      · simp [htu, List.mem_cons]
    · intro q hq
      rw [hotherN q hq, htree2, filesAt_addFile, if_neg (hq u huU)]
    · intro q
      rw [hnamesN q, htree2, childNamesAt_addFile]

/-- The invariants of the tree `index_directory` actually builds: walks
agree with the fresh skeleton, every universe token's node carries exactly
its postings file, no other directory gained files, and no directory names
changed. -/
theorem index_built_inv (corpus : Corpus) (tree : DirTree)
    (hbuild : index_directory corpus = some tree) :
    (∀ (fuel : Nat) (tk : Str) (curr : Pth) (st : Option Pth × Option Pth × Option Pth),
        pwalkAux fuel tree tk curr st
          = pwalkAux fuel (.node [] (index_tokenset (corpusUniverse corpus))) tk curr st)
      ∧ (∀ t ∈ corpusUniverse corpus,
          filesAt tree (tokNodePath (corpusUniverse corpus) t)
            = some [(encodeInd t, postingsList corpus t)])
      ∧ (∀ q, (∀ t ∈ corpusUniverse corpus, tokNodePath (corpusUniverse corpus) t ≠ q) →
          filesAt tree q
            = filesAt (.node [] (index_tokenset (corpusUniverse corpus))) q)
      ∧ (∀ q, childNamesAt tree q
          = childNamesAt (.node [] (index_tokenset (corpusUniverse corpus))) q) := by
  have hgood := @corpusUniverse_good corpus
  obtain ⟨treeN, hfold, hwalkN, hfilesN, hotherN, hnamesN⟩ :=
    transfer_fold corpus (corpusUniverse corpus)
    (.node [] (index_tokenset (corpusUniverse corpus))) (fun _ => false)
    (fun u hu => hu)
    (by unfold corpusUniverse; exact List.nodup_dedup _)
    (fun _ _ => rfl)
    (fun _ _ _ _ => rfl)
    (fun t0 ht0 => by
      obtain ⟨sub, hsub⟩ := nodeAt_index_tokensetF (tokM (corpusUniverse corpus) + 1)
        (corpusUniverse corpus) (by omega) hgood t0 ht0 (tokM (corpusUniverse corpus) + 1)
        [] (by omega)
      unfold filesAt
      rw [show tokNodePath (corpusUniverse corpus) t0
        = tokNodePathF (tokM (corpusUniverse corpus) + 1) (corpusUniverse corpus) t0 from rfl]
      rw [show (index_tokenset (corpusUniverse corpus))
        = index_tokensetF (tokM (corpusUniverse corpus) + 1) (corpusUniverse corpus) from rfl]
      rw [hsub]
      simp)
  have hTree : tree = treeN := by
    unfold index_directory at hbuild
    rw [hfold] at hbuild
    exact (Option.some.inj hbuild).symm
  subst hTree
  refine ⟨hwalkN, ?_, hotherN, hnamesN⟩
  intro t ht
  rw [hfilesN t ht]
  simp [ht]

/-- `findtoken` on the built tree returns exactly the token's postings
file, whose entry set is the postings list. -/
theorem findtoken_postings (corpus : Corpus) (tree : DirTree)
    (hbuild : index_directory corpus = some tree) (t : Str)
    (ht : t ∈ corpusUniverse corpus) :
    findtoken tree t = [(encodeInd t, postingsList corpus t)] := by
  have hgood := @corpusUniverse_good corpus
  obtain ⟨hwalkN, hfilesN, hotherN, hnamesN⟩ := index_built_inv corpus tree hbuild
  have hppt : patricia_path t tree
      = some (some (tokNodePath (corpusUniverse corpus) t),
          some (tokNodePath (corpusUniverse corpus) t), none) := by
    have h0 : patricia_path t tree
        = patricia_path t (.node [] (index_tokenset (corpusUniverse corpus))) :=
      hwalkN (t.length + 1) t [] (none, none, none)
    rw [h0]
    exact patricia_path_fresh (corpusUniverse corpus) hgood t ht []
  have hfat : filesAt tree (tokNodePath (corpusUniverse corpus) t)
      = some [(encodeInd t, postingsList corpus t)] := hfilesN t ht
  cases hnode : nodeAt tree (tokNodePath (corpusUniverse corpus) t) with
  | none =>
    unfold filesAt at hfat
    rw [hnode] at hfat
    simp at hfat
  | some d =>
    obtain ⟨dfs, dcs⟩ := d
    have hdfs : dfs = [(encodeInd t, postingsList corpus t)] := by
      unfold filesAt at hfat
      rw [hnode] at hfat
      simpa using hfat
    have hsuf : indExt.isSuffixOf (encodeInd t) = true := by
      rw [List.isSuffixOf_iff_suffix]
      exact ⟨t ++ [95], by simp [encodeInd, indExt]⟩
    unfold findtoken
    rw [hppt]
    dsimp only
    rw [if_pos rfl]
    rw [hnode]
    dsimp only
    unfold directFiles
    rw [hdfs]
    simp [hsuf]

/-- C1: after `index_directory` completes, an exact word search (the
directory-trie `match_words`) for any token observed in the corpus returns
exactly the set of source paths whose unique tokens contain it. -/
theorem exact_search_after_index (corpus : Corpus) (t : Str)
    (ht : t ∈ corpusUniverse corpus) (tree : DirTree)
    (hbuild : index_directory corpus = some tree) :
    treeMatchWords tree t false
      = ((corpus.filter fun f => decide (t ∈ unique_tokens f.2)).map Prod.fst).toFinset := by
  have hgood := @corpusUniverse_good corpus
  have hfind := findtoken_postings corpus tree hbuild t ht
  have hmw : treeMatchWords tree t false
      = srcsOfFiles (findtoken tree t) := by
    unfold treeMatchWords
    rw [as_tokens_goodToken_fix (hgood t ht) true]
    simp [combineSets]
  rw [hmw, hfind]
  unfold srcsOfFiles get_entries postingsList
  simp

/-- Concrete instance of C1: corpus with one file "f" containing "go". -/
theorem exact_search_after_index_witness :
    ([103, 111] ∈ corpusUniverse [([102], [103, 111])])
      ∧ index_directory [([102], [103, 111])]
          = some (DirTree.node [] [([103, 111],
              DirTree.node [([103, 111, 95, 46, 105, 110, 100], [[102]])] [])])
      ∧ treeMatchWords (DirTree.node [] [([103, 111],
            DirTree.node [([103, 111, 95, 46, 105, 110, 100], [[102]])] [])])
          [103, 111] false
        = ((([([102], [103, 111])] : Corpus).filter
            fun f => decide ([103, 111] ∈ unique_tokens f.2)).map Prod.fst).toFinset :=
  ⟨by decide, rfl,
    exact_search_after_index [([102], [103, 111])] [103, 111] (by decide) _ rfl⟩

/-- C4 fails in the code: index the single-file corpus f ↦ "console" and
fuzzy-search the prefix "con".  "console" starts with "con", so the claimed
union is {f}; but `fuzzyfindtoken` guards on
`len(path.parts) <= len(closest.parts)` and `safeguard_path` splits the
reserved fragment "con" into c/on, making the hypothetical target two
components deep while the closest node ("console") is one deep — so the
fuzzy search returns the empty set. -/
theorem fuzzy_prefix_union_code_bug :
    index_directory [([102], [99, 111, 110, 115, 111, 108, 101])]
        = some (DirTree.node [] [([99, 111, 110, 115, 111, 108, 101],
            DirTree.node [([99, 111, 110, 115, 111, 108, 101, 95, 46, 105, 110, 100],
              [[102]])] [])])
      ∧ [99, 111, 110].isPrefixOf [99, 111, 110, 115, 111, 108, 101] = true
      ∧ treeFuzzySearch (DirTree.node [] [([99, 111, 110, 115, 111, 108, 101],
            DirTree.node [([99, 111, 110, 115, 111, 108, 101, 95, 46, 105, 110, 100],
              [[102]])] [])]) [99, 111, 110] false = ∅
      ∧ treeMatchWords (DirTree.node [] [([99, 111, 110, 115, 111, 108, 101],
            DirTree.node [([99, 111, 110, 115, 111, 108, 101, 95, 46, 105, 110, 100],
              [[102]])] [])]) [99, 111, 110, 115, 111, 108, 101] false = {[102]} :=
  ⟨rfl, by decide, by decide, by decide⟩

/-- C3 fails in the code: `_examiner` iterates positions
`range(len(tokens) - phrase_len - bool(fuzzy))`, which excludes the last
legal position, so a phrase occupying the very end of a file's token
sequence is never found.  File "f" reads "hello world"; the non-fuzzy
phrase search for "hello world" keeps "f" as a candidate (match_words
finds both tokens) yet returns the empty set, while the same phrase inside
the longer file "hello world x" is found. -/
theorem match_phrase_misses_end_of_file_code_bug :
    as_tokens [104, 101, 108, 108, 111, 32, 119, 111, 114, 108, 100] false
        = [[104, 101, 108, 108, 111], [119, 111, 114, 108, 100]]
      ∧ index_directory [([102], [104, 101, 108, 108, 111, 32, 119, 111, 114, 108, 100])]
          = some (DirTree.node []
              [([104, 101, 108, 108, 111], DirTree.node
                  [([104, 101, 108, 108, 111, 95, 46, 105, 110, 100], [[102]])] []),
               ([119, 111, 114, 108, 100], DirTree.node
                  [([119, 111, 114, 108, 100, 95, 46, 105, 110, 100], [[102]])] [])])
      ∧ treeMatchWords (DirTree.node []
              [([104, 101, 108, 108, 111], DirTree.node
                  [([104, 101, 108, 108, 111, 95, 46, 105, 110, 100], [[102]])] []),
               ([119, 111, 114, 108, 100], DirTree.node
                  [([119, 111, 114, 108, 100, 95, 46, 105, 110, 100], [[102]])] [])])
            [104, 101, 108, 108, 111, 32, 119, 111, 114, 108, 100] false = {[102]}
      ∧ treeMatchPhrase (DirTree.node []
              [([104, 101, 108, 108, 111], DirTree.node
                  [([104, 101, 108, 108, 111, 95, 46, 105, 110, 100], [[102]])] []),
               ([119, 111, 114, 108, 100], DirTree.node
                  [([119, 111, 114, 108, 100, 95, 46, 105, 110, 100], [[102]])] [])])
            [([102], [104, 101, 108, 108, 111, 32, 119, 111, 114, 108, 100])]
            [104, 101, 108, 108, 111, 32, 119, 111, 114, 108, 100] false = ∅
      ∧ treeMatchPhrase (DirTree.node []
              [([104, 101, 108, 108, 111], DirTree.node
                  [([104, 101, 108, 108, 111, 95, 46, 105, 110, 100], [[102]])] []),
               ([119, 111, 114, 108, 100], DirTree.node
                  [([119, 111, 114, 108, 100, 95, 46, 105, 110, 100], [[102]])] []),
               ([120], DirTree.node [([120, 95, 46, 105, 110, 100], [[102]])] [])])
            [([102], [104, 101, 108, 108, 111, 32, 119, 111, 114, 108, 100, 32, 120])]
            [104, 101, 108, 108, 111, 32, 119, 111, 114, 108, 100] false = {[102]} :=
  ⟨by decide, rfl, by decide, by decide, by decide⟩

/-- C2 counterexample: index the corpus f ↦ "console", archive the trie
with gz compression, and search for "con" (not a universe token).  The
tree searcher returns ∅ for both match_words and fuzzy_search, but the
archive searcher returns {f} for both: `get_records` advances the
remaining token by `_token[len(stem):]`, so the long stem "console"
swallows "con" entirely and the searcher then collects `console_.ind`
because its name merely starts with "con". -/
theorem tar_tree_search_disagree :
    index_directory [([102], [99, 111, 110, 115, 111, 108, 101])]
        = some (DirTree.node [] [([99, 111, 110, 115, 111, 108, 101],
            DirTree.node [([99, 111, 110, 115, 111, 108, 101, 95, 46, 105, 110, 100],
              [[102]])] [])])
      ∧ patriciaArchive [105, 110, 100]
          (DirTree.node [] [([99, 111, 110, 115, 111, 108, 101],
            DirTree.node [([99, 111, 110, 115, 111, 108, 101, 95, 46, 105, 110, 100],
              [[102]])] [])]) [103, 122]
        = some ([105, 110, 100, 46, 116, 97, 114, 46, 103, 122],
            .dir [([99, 111, 110, 115, 111, 108, 101, 46, 116, 97, 114, 46, 103, 122],
              .dir [([99, 111, 110, 115, 111, 108, 101, 95, 46, 105, 110, 100],
                .file [[102]])])])
      ∧ treeMatchWords (DirTree.node [] [([99, 111, 110, 115, 111, 108, 101],
            DirTree.node [([99, 111, 110, 115, 111, 108, 101, 95, 46, 105, 110, 100],
              [[102]])] [])]) [99, 111, 110] false = ∅
      ∧ tarMatchWords (.dir [([99, 111, 110, 115, 111, 108, 101, 46, 116, 97, 114, 46, 103, 122],
            .dir [([99, 111, 110, 115, 111, 108, 101, 95, 46, 105, 110, 100],
              .file [[102]])])]) [99, 111, 110] false = {[102]}
      ∧ treeFuzzySearch (DirTree.node [] [([99, 111, 110, 115, 111, 108, 101],
            DirTree.node [([99, 111, 110, 115, 111, 108, 101, 95, 46, 105, 110, 100],
              [[102]])] [])]) [99, 111, 110] false = ∅
      ∧ tarFuzzySearch (.dir [([99, 111, 110, 115, 111, 108, 101, 46, 116, 97, 114, 46, 103, 122],
            .dir [([99, 111, 110, 115, 111, 108, 101, 95, 46, 105, 110, 100],
              .file [[102]])])]) [99, 111, 110] false = {[102]} :=
  ⟨rfl, rfl, by decide, by decide, by decide, by decide⟩

/-! ### Lemmas for C2: the archive searcher on the built archive -/

theorem insertSorted_perm (x : Str × Arch) (l : List (Str × Arch)) :
    (insertSorted x l).Perm (x :: l) := by
  induction l with
  | nil => exact List.Perm.refl _
  | cons y rest ih =>
    unfold insertSorted
    by_cases h : strLe x.1 y.1
    · rw [if_pos h]
    · rw [if_neg h]
      exact (List.Perm.cons y ih).trans (List.Perm.swap x y rest)

theorem sortByName_perm (l : List (Str × Arch)) : (sortByName l).Perm l := by
  induction l with
  | nil => exact List.Perm.refl _
  | cons x rest ih =>
    show insertSorted x (sortByName rest) |>.Perm (x :: rest)
    exact (insertSorted_perm x (sortByName rest)).trans (List.Perm.cons x ih)

theorem mem_sortByName {a : Str × Arch} {l : List (Str × Arch)} :
    a ∈ sortByName l ↔ a ∈ l := (sortByName_perm l).mem_iff

theorem foldr_union_perm {α : Type} (f : α → Finset Str) {l1 l2 : List α}
    (h : l1.Perm l2) :
    l1.foldr (fun m acc => f m ∪ acc) ∅ = l2.foldr (fun m acc => f m ∪ acc) ∅ := by
  induction h with
  | nil => rfl
  | cons x h ih => simp only [List.foldr_cons, ih]
  | swap x y l => simp only [List.foldr_cons]; rw [Finset.union_left_comm]
  | trans h1 h2 ih1 ih2 => exact ih1.trans ih2

theorem nodeAt_append :
    ∀ (a b : Pth) (tr : DirTree),
      nodeAt tr (a ++ b) = (nodeAt tr a).bind fun d => nodeAt d b := by
  intro a
  induction a with
  | nil =>
    intro b tr
    obtain ⟨fs, cs⟩ := tr
    rfl
  | cons x a2 ih =>
    intro b tr
    obtain ⟨fs, cs⟩ := tr
    show nodeAt (.node fs cs) (x :: (a2 ++ b)) = _
    have hL : nodeAt (.node fs cs) (x :: (a2 ++ b))
        = match cs.find? (fun c => c.1 = x) with
          | some c => nodeAt c.2 (a2 ++ b)
          | none => none := rfl
    have hR : nodeAt (.node fs cs) (x :: a2)
        = match cs.find? (fun c => c.1 = x) with
          | some c => nodeAt c.2 a2
          | none => none := rfl
    rw [hL, hR]
    cases hf : cs.find? (fun c => c.1 = x) with
    | none => rfl
    | some c => exact ih b c.2

theorem archiveChildren_eq_map (sfx : Str) :
    ∀ cs, archiveChildren sfx cs = cs.map fun c => (c.1 ++ sfx, archiveOf sfx c.2) := by
  intro cs
  induction cs with
  | nil => rfl
  | cons c rest ih =>
    show (c.1 ++ sfx, archiveOf sfx c.2) :: archiveChildren sfx rest = _
    rw [ih]
    rfl

theorem archDepthList_le {ms : List (Str × Arch)} {m : Str × Arch} (h : m ∈ ms) :
    archDepth m.2 ≤ archDepthList ms := by
  induction ms with
  | nil => simp at h
  | cons y rest ih =>
    rcases List.mem_cons.mp h with rfl | h2
    · show archDepth m.2 ≤ max (archDepth m.2) (archDepthList rest)
      exact le_max_left _ _
    · show archDepth m.2 ≤ max (archDepth y.2) (archDepthList rest)
      exact le_trans (ih h2) (le_max_right _ _)

theorem archDepth_lt_of_mem {ms : List (Str × Arch)} {m : Str × Arch} (h : m ∈ ms) :
    archDepth m.2 < archDepth (.dir ms) := by
  show archDepth m.2 < archDepthList ms + 1
  exact Nat.lt_succ_of_le (archDepthList_le h)

theorem map_fst_singleton {cs : List (Str × DirTree)} {x : Str}
    (h : cs.map Prod.fst = [x]) : ∃ d, cs = [(x, d)] := by
  rcases cs with _ | ⟨c, rest⟩
  · simp at h
  · rcases rest with _ | ⟨c2, r2⟩
    · obtain ⟨d1, d2⟩ := c
      simp only [List.map_cons, List.map_nil, List.cons.injEq, and_true] at h
      exact ⟨d2, by rw [h]⟩
    · simp at h

theorem splitOn_dotfree_append {a b : Str} (h : ∀ c ∈ a, c ≠ 46) :
    (a ++ 46 :: b).splitOn 46 = a :: b.splitOn 46 := by
  show List.splitOnP (fun c => c == 46) (a ++ 46 :: b)
      = a :: List.splitOnP (fun c => c == 46) b
  exact List.splitOnP_first _ a (fun x hx => by simpa using h x hx) 46 (by simp) b

theorem splitOn_dotfree {a : Str} (h : ∀ c ∈ a, c ≠ 46) : a.splitOn 46 = [a] :=
  List.splitOnP_eq_single _ _ (fun x hx => by simpa using h x hx)

/-- The suffix `pathlib` computes is a list suffix of the name. -/
theorem pySuffix_suffix (name : Str) : pySuffix name <:+ name := by
  unfold pySuffix
  cases lastDotPos name with
  | none => exact List.nil_suffix
  | some i =>
    dsimp only
    by_cases h : 0 < i ∧ i + 1 < name.length
    · rw [if_pos h]
      exact List.drop_suffix i name
    · rw [if_neg h]
      exact List.nil_suffix

/-- `.ind` is not a suffix of an archive member name `name.tar.<comp>`. -/
theorem tarName_not_ind_suffix {n comp : Str}
    (hcomp : comp = [103, 122] ∨ comp = [98, 122, 50] ∨ comp = [120, 122]) :
    ¬ (indExt <:+ n ++ ([46, 116, 97, 114, 46] ++ comp)) := by
  intro h
  obtain ⟨sp, hsp⟩ := h
  have h1 : (sp ++ indExt).getLast? = some 100 := by
    rw [List.getLast?_append_of_ne_nil _ (by simp [indExt])]
    rfl
  rw [hsp, List.getLast?_append_of_ne_nil _ (by
      rcases hcomp with rfl | rfl | rfl <;> simp),
    List.getLast?_append_of_ne_nil _ (by rcases hcomp with rfl | rfl | rfl <;> simp)] at h1
  rcases hcomp with rfl | rfl | rfl <;> simp at h1

theorem pySuffix_encodeInd (t : Str) : pySuffix (encodeInd t) = indExt := by
  have h2 : lastDotPos (encodeInd t) = some (t.length + 1) := by
    unfold lastDotPos encodeInd
    rw [List.reverse_append]
    have h1 : ([95, 46, 105, 110, 100] : Str).reverse = [100, 110, 105, 46, 95] := rfl
    rw [h1]
    have h3 : List.findIdx? (fun c => c = 46) (([100, 110, 105, 46, 95] : Str) ++ t.reverse) 0
        = some 3 := by
      simp [List.findIdx?_cons]
    rw [h3]
    simp
  have hcond : 0 < t.length + 1 ∧ t.length + 1 + 1 < (encodeInd t).length := by
    unfold encodeInd
    simp
  have hstep : pySuffix (encodeInd t) = (encodeInd t).drop (t.length + 1) := by
    unfold pySuffix
    rw [h2]
    exact if_pos hcond
  rw [hstep]
  show (t ++ [95, 46, 105, 110, 100]).drop (t.length + 1) = indExt
  have h4 := @List.drop_append _ t [95, 46, 105, 110, 100] 1
  exact h4.trans (by rfl)

/-- `Path(name).suffixes` of an archive member name. -/
theorem pySuffixes_tarName {n comp : Str} (hn : n ≠ []) (hnd : ∀ c ∈ n, c ≠ 46)
    (hcomp : comp = [103, 122] ∨ comp = [98, 122, 50] ∨ comp = [120, 122]) :
    pySuffixes (n ++ ([46, 116, 97, 114, 46] ++ comp))
      = [[46, 116, 97, 114], 46 :: comp] := by
  have hc_ne : comp ≠ [] := by rcases hcomp with rfl | rfl | rfl <;> simp
  have hc_d : ∀ c ∈ comp, c ≠ 46 := by rcases hcomp with rfl | rfl | rfl <;> decide
  have hc_last : comp.getLast? ≠ some 46 := by rcases hcomp with rfl | rfl | rfl <;> decide
  unfold pySuffixes
  rw [List.getLast?_append_of_ne_nil _ (by simp [hc_ne]),
    List.getLast?_append_of_ne_nil _ hc_ne,
    if_neg hc_last]
  obtain ⟨a, n2, rfl⟩ : ∃ a n2, n = a :: n2 := by
    rcases n with _ | ⟨a, n2⟩
    · exact absurd rfl hn
    · exact ⟨a, n2, rfl⟩
  rw [List.cons_append, List.dropWhile_cons, if_neg (by simpa using hnd a (by simp))]
  rw [← List.cons_append]
  rw [show ([46, 116, 97, 114, 46] : Str) ++ comp
    = 46 :: ([116, 97, 114] ++ 46 :: comp) from rfl]
  rw [splitOn_dotfree_append hnd]
  rw [splitOn_dotfree_append (by decide)]
  rw [splitOn_dotfree hc_d]
  rfl

/-- `Path(name).suffixes` of a postings file name. -/
theorem pySuffixes_indName {u : Str} (hud : ∀ c ∈ u, c ≠ 46) :
    pySuffixes (encodeInd u) = [indExt] := by
  unfold pySuffixes encodeInd
  rw [List.getLast?_append_of_ne_nil _ (by simp), if_neg (by decide)]
  have hdw : (u ++ [95, 46, 105, 110, 100]).dropWhile (fun c => c = 46)
      = u ++ [95, 46, 105, 110, 100] := by
    rcases u with _ | ⟨a, u2⟩
    · rfl
    · rw [List.cons_append, List.dropWhile_cons, if_neg (by simpa using hud a (by simp))]
  rw [hdw]
  rw [show u ++ ([95, 46, 105, 110, 100] : Str)
    = (u ++ [95]) ++ 46 :: [105, 110, 100] by simp]
  rw [splitOn_dotfree_append (by
    intro c hc
    rcases List.mem_append.mp hc with hc | hc
    · exact hud c hc
    · simp at hc
      omega)]
  rw [splitOn_dotfree (by decide)]
  rfl

/-- `name[:name.find('.')]` of an archive member name is the bare
directory name. -/
theorem stemToFirstDot_tarName {n comp : Str} (hnd : ∀ c ∈ n, c ≠ 46) :
    nameStemToFirstDot (n ++ ([46, 116, 97, 114, 46] ++ comp)) = n := by
  unfold nameStemToFirstDot
  rw [if_pos (by
    simp only [List.contains_eq_any_beq, List.any_append]
    simp)]
  rw [show ([46, 116, 97, 114, 46] : Str) ++ comp = 46 :: ([116, 97, 114, 46] ++ comp) from rfl]
  rw [List.takeWhile_append]
  rw [if_pos (by
    rw [List.takeWhile_eq_self_iff.mpr (by intro x hx; simpa using hnd x hx)])]
  rw [List.takeWhile_cons, if_neg (by simp)]
  simp

/-- A token of normalized characters longer than `u` never starts the
name `u + '_.ind'`. -/
theorem token_not_prefix_ind {t u : Str} (ht : ∀ c ∈ t, NormalCh c)
    (hlen : u.length < t.length) : ¬ (t <+: encodeInd u) := by
  intro h
  have ht95 : (95 : Nat) ∈ t := by
    have h9 : t = (encodeInd u).take t.length := (List.prefix_iff_eq_take.mp h)
    rw [h9]
    unfold encodeInd
    rw [List.take_append_eq_append_take]
    refine List.mem_append.mpr (Or.inr ?_)
    obtain ⟨k, hk⟩ : ∃ k, t.length - u.length = k + 1 := ⟨t.length - u.length - 1, by omega⟩
    rw [hk, List.take_succ_cons]
    exact List.mem_cons_self _ _
  exact (normalCh_not_special (ht 95 ht95)).1 rfl

theorem fold_body_eq (idx token : Str) (fuzzy : Bool) (fuel : Nat) (tokRem : Str) :
    ∀ l : List (Str × Arch),
      l.foldr (fun m acc =>
        if token.isPrefixOf m.1 && idx.isSuffixOf m.1 then
          (match m.2 with
           | .file lines => lines.toFinset
           | .dir _ => ∅) ∪ acc
        else
          match pySuffixes m.1 with
          | sfx :: _ =>
            if sfx = [46, 116, 97, 114] then
              getRecordsF idx token fuzzy fuel m.2
                  (if nameStemToFirstDot m.1 = tokRem then []
                   else tokRem.drop (nameStemToFirstDot m.1).length)
                ∪ acc
            else acc
          | [] => acc) ∅
      = l.foldr (fun m acc => tarContrib idx token fuzzy fuel tokRem m ∪ acc) ∅ := by
  intro l
  induction l with
  | nil => rfl
  | cons m rest ih =>
    simp only [List.foldr_cons, ih]
    unfold tarContrib
    by_cases h1 : (token.isPrefixOf m.1 && idx.isSuffixOf m.1) = true
    · rw [if_pos h1, if_pos h1]
    · rw [if_neg h1, if_neg h1]
      cases hs : pySuffixes m.1 with
      | nil => simp
      | cons sfx rest2 =>
        dsimp only
        by_cases h2 : sfx = [46, 116, 97, 114]
        · rw [if_pos h2, if_pos h2]
        · rw [if_neg h2, if_neg h2]
          simp

/-- One level of `get_records` in exact mode: an exact `.ind` hit returns
its lines, otherwise the union of the member contributions. -/
theorem getRecordsF_exact_dir (idx token : Str) (fuel : Nat)
    (members : List (Str × Arch)) (tokRem : Str) :
    getRecordsF idx token false (fuel + 1) (.dir members) tokRem
      = (match (sortByName (members.filter fun m =>
            tokRem.isEmpty || decide (m.1.head? = tokRem.head?))).find? (fun m =>
              decide (pySuffix m.1 = idx) && decide (stripUnderscores (pyStem m.1) = token)) with
         | some (_, .file lines) => lines.toFinset
         | some (_, .dir _) => ∅
         | none => (sortByName (members.filter fun m =>
              tokRem.isEmpty || decide (m.1.head? = tokRem.head?))).foldr
                (fun m acc => tarContrib idx token false fuel tokRem m ∪ acc) ∅) := by
  conv_lhs => unfold getRecordsF
  dsimp only
  rw [fold_body_eq]
  rfl

theorem sortByName_singleton (x : Str × Arch) : sortByName [x] = [x] := rfl

theorem nodeAt_cons_find {fs : List (Str × List Str)} {cs : List (Str × DirTree)}
    {x : Comp} {q : Pth} {c : Str × DirTree}
    (hf : cs.find? (fun c0 => c0.1 = x) = some c) :
    nodeAt (.node fs cs) (x :: q) = nodeAt c.2 q := by
  have hstep : nodeAt (.node fs cs) (x :: q)
      = match cs.find? (fun c0 => c0.1 = x) with
        | some c0 => nodeAt c0.2 q
        | none => none := rfl
  rw [hstep, hf]

/-- The contribution of a nested-archive member: recurse with the token
advanced past the member's stem. -/
theorem tarContrib_tar {token : Str} {fuzzy : Bool} {fuel : Nat} {tokRem : Str}
    {n comp : Str} (hn : n ≠ []) (hnd : ∀ c ∈ n, c ≠ 46)
    (hcomp : comp = [103, 122] ∨ comp = [98, 122, 50] ∨ comp = [120, 122]) (a : Arch) :
    tarContrib indExt token fuzzy fuel tokRem (n ++ ([46, 116, 97, 114, 46] ++ comp), a)
      = getRecordsF indExt token fuzzy fuel a
          (if n = tokRem then [] else tokRem.drop n.length) := by
  have hsuf : indExt.isSuffixOf (n ++ ([46, 116, 97, 114, 46] ++ comp)) = false :=
    Bool.eq_false_iff.mpr (fun hh =>
      tarName_not_ind_suffix hcomp (List.isSuffixOf_iff_suffix.mp hh))
  unfold tarContrib
  rw [if_neg (by
    simp only [Bool.and_eq_true, not_and]
    intro _ hs
    rw [List.isSuffixOf_iff_suffix] at hs
    exact tarName_not_ind_suffix hcomp hs)]
  rw [pySuffixes_tarName hn hnd hcomp]
  dsimp only
  rw [if_pos rfl, stemToFirstDot_tarName hnd]

/-- A postings member whose name the token does not start contributes
nothing (it is not a nested archive either). -/
theorem tarContrib_ind_skip {token : Str} {fuzzy : Bool} {fuel : Nat} {tokRem : Str}
    {u : Str} (hud : ∀ c ∈ u, c ≠ 46)
    (hpre : token.isPrefixOf (encodeInd u) = false) (a : Arch) :
    tarContrib indExt token fuzzy fuel tokRem (encodeInd u, a) = ∅ := by
  unfold tarContrib
  rw [if_neg (by simp [hpre])]
  rw [pySuffixes_indName hud]
  dsimp only
  rw [if_neg (by decide)]

/-- The exact-hit predicate is false on archive member names. -/
theorem exact_pred_tar {token n comp : Str}
    (hcomp : comp = [103, 122] ∨ comp = [98, 122, 50] ∨ comp = [120, 122]) :
    (decide (pySuffix (n ++ ([46, 116, 97, 114, 46] ++ comp)) = indExt)
      && decide (stripUnderscores (pyStem (n ++ ([46, 116, 97, 114, 46] ++ comp))) = token))
      = false := by
  have h1 : pySuffix (n ++ ([46, 116, 97, 114, 46] ++ comp)) ≠ indExt := fun hh =>
    tarName_not_ind_suffix hcomp (hh ▸ pySuffix_suffix _)
  apply Bool.eq_false_iff.mpr
  intro hh
  rw [Bool.and_eq_true, decide_eq_true_eq, decide_eq_true_eq] at hh
  exact h1 hh.1

/-- Walking an exact search through the chain of single-child directories
built for one common prefix: the result is whatever the walk computes at
the chain's last node, with the token advanced past the whole chain. -/
theorem tar_chain_exact :
    ∀ (comps : List Comp) (rr : Str), comps ≠ [] →
      (∀ nc ∈ comps, nc ≠ [] ∧ ∀ x ∈ nc, x ≠ 46) →
      ∀ (sub : List (Str × DirTree)) (tree : DirTree) (p : Pth) (t : Str) (comp : Str)
        (R : Finset Str),
        (comp = [103, 122] ∨ comp = [98, 122, 50] ∨ comp = [120, 122]) →
        (∀ q, childNamesAt tree (p ++ q) = childNamesAt (mkChainEntry comps sub).2 q) →
        (∀ i, i + 1 < comps.length →
            filesAt tree (p ++ (comps.drop 1).take i) = some []) →
        (∀ (fuel2 : Nat) (Tend : DirTree),
            nodeAt tree (p ++ comps.drop 1) = some Tend →
            archDepth (archiveOf ([46, 116, 97, 114, 46] ++ comp) Tend) < fuel2 →
            getRecordsF indExt t false fuel2
              (archiveOf ([46, 116, 97, 114, 46] ++ comp) Tend) rr = R) →
        ∀ (T : DirTree), nodeAt tree p = some T →
        ∀ fuel, archDepth (archiveOf ([46, 116, 97, 114, 46] ++ comp) T) < fuel →
        getRecordsF indExt t false fuel (archiveOf ([46, 116, 97, 114, 46] ++ comp) T)
            ((comps.drop 1).flatten ++ rr) = R := by
  intro comps
  induction comps with
  | nil => exact fun rr h => absurd rfl h
  | cons c more ih =>
    intro rr _ hcomps sub tree p t comp R hcomp hn hfi hcont T hT fuel hfuel
    rcases more with _ | ⟨m, more2⟩
    · simp only [List.drop_one, List.tail_cons, List.flatten_nil, List.nil_append]
      exact hcont fuel T (by simpa using hT) hfuel
    · obtain ⟨hm_ne, hm_nd⟩ := hcomps m (by simp)
      simp only [List.drop_one, List.tail_cons]
      obtain ⟨fsT, csT⟩ := T
      have hnames0 := hn []
      rw [List.append_nil] at hnames0
      have hnames1 : childNamesAt tree p = some [m] := by
        rw [hnames0]
        dsimp only [mkChainEntry]
        unfold childNamesAt nodeAt
        dsimp only [Option.map]
        rw [List.map_cons, List.map_nil, mkChainEntry_fst (by simp)]
        rfl
      have hcs : csT.map Prod.fst = [m] := by
        unfold childNamesAt at hnames1
        rw [hT] at hnames1
        simpa using hnames1
      obtain ⟨child, rfl⟩ := map_fst_singleton hcs
      have hfsT : fsT = [] := by
        have h0 := hfi 0 (by simp)
        simp only [List.drop_succ_cons, List.take_zero, List.append_nil] at h0
        unfold filesAt at h0
        rw [hT] at h0
        simpa using h0
      subst hfsT
      obtain ⟨fl, rfl⟩ : ∃ fl, fuel = fl + 1 := ⟨fuel - 1, by omega⟩
      have harch : archiveOf ([46, 116, 97, 114, 46] ++ comp) (.node [] [(m, child)])
          = .dir [(m ++ ([46, 116, 97, 114, 46] ++ comp),
              archiveOf ([46, 116, 97, 114, 46] ++ comp) child)] := rfl
      rw [harch]
      rw [getRecordsF_exact_dir]
      have hhead : (m ++ ([46, 116, 97, 114, 46] ++ comp)).head?
          = ((m :: more2).flatten ++ rr).head? := by
        rcases m with _ | ⟨a, m2⟩
        · exact absurd rfl hm_ne
        · rfl
      have hfilter : ([(m ++ ([46, 116, 97, 114, 46] ++ comp),
            archiveOf ([46, 116, 97, 114, 46] ++ comp) child)].filter fun mb =>
              ((m :: more2).flatten ++ rr).isEmpty
                || decide (mb.1.head? = ((m :: more2).flatten ++ rr).head?))
          = [(m ++ ([46, 116, 97, 114, 46] ++ comp),
              archiveOf ([46, 116, 97, 114, 46] ++ comp) child)] := by
        rw [List.filter_cons, if_pos (by rw [decide_eq_true hhead, Bool.or_true])]
        rfl
      rw [hfilter, sortByName_singleton]
      rw [List.find?_cons_of_neg _ (by
        show ¬ ((decide (pySuffix (m ++ ([46, 116, 97, 114, 46] ++ comp)) = indExt)
            && decide (stripUnderscores (pyStem (m ++ ([46, 116, 97, 114, 46] ++ comp))) = t))
            = true)
        rw [exact_pred_tar hcomp]
        exact Bool.false_ne_true)]
      rw [List.foldr_cons, List.foldr_nil]
      rw [tarContrib_tar hm_ne hm_nd hcomp]
      have hchild : nodeAt tree (p ++ [m]) = some child := by
        rw [nodeAt_append, hT]
        show nodeAt (.node [] [(m, child)]) [m] = some child
        rw [nodeAt_cons_find (List.find?_cons_of_pos _ (by simp))]
        obtain ⟨cfs, ccs⟩ := child
        rfl
      have hadv : (if m = (m :: more2).flatten ++ rr then []
          else ((m :: more2).flatten ++ rr).drop m.length) = more2.flatten ++ rr := by
        have hflat : (m :: more2).flatten ++ rr = m ++ (more2.flatten ++ rr) := by
          simp [List.flatten_cons, List.append_assoc]
        by_cases he : more2.flatten ++ rr = []
        · rw [if_pos (by rw [hflat, he, List.append_nil]), he]
        · rw [if_neg (by
            rw [hflat]
            intro hh
            exact he (List.self_eq_append_right.mp hh))]
          rw [hflat]
          simpa using @List.drop_append _ m (more2.flatten ++ rr) 0
      rw [hadv]
      have hdep : archDepth (archiveOf ([46, 116, 97, 114, 46] ++ comp) child) < fl := by
        have h1 : archDepth (archiveOf ([46, 116, 97, 114, 46] ++ comp) child)
            < archDepth (.dir [(m ++ ([46, 116, 97, 114, 46] ++ comp),
                archiveOf ([46, 116, 97, 114, 46] ++ comp) child)]) :=
          archDepth_lt_of_mem (m := (m ++ ([46, 116, 97, 114, 46] ++ comp),
            archiveOf ([46, 116, 97, 114, 46] ++ comp) child)) (by simp)
        rw [harch] at hfuel
        omega
      have hrec := ih rr (by simp) (fun nc hnc => hcomps nc (List.mem_cons_of_mem c hnc))
        sub tree (p ++ [m]) t comp R hcomp
        (fun q => by
          rw [List.append_assoc]
          have h1 := hn (m :: q)
          rw [show [m] ++ q = m :: q from rfl]
          rw [h1]
          show childNamesAt (.node [] [mkChainEntry (m :: more2) sub]) (m :: q) = _
          unfold childNamesAt
          rw [nodeAt_cons_find (List.find?_cons_of_pos _ (by
            rw [decide_eq_true_eq, mkChainEntry_fst (by simp)]
            rfl))])
        (fun i hi => by
          have h1 := hfi (i + 1) (by simpa using hi)
          simp only [List.drop_one, List.tail_cons] at h1 ⊢
          rw [List.take_succ_cons] at h1
          rw [List.append_assoc]
          rw [show [m] ++ more2.take i = m :: more2.take i from rfl]
          exact h1)
        (fun fuel2 Tend hTend hd2 => hcont fuel2 Tend (by
          simp only [List.drop_one, List.tail_cons] at hTend ⊢
          rw [show p ++ m :: more2 = (p ++ [m]) ++ more2 by simp]
          exact hTend) hd2)
        child hchild fl hdep
      simp only [List.drop_one, List.tail_cons] at hrec
      rw [hrec]
      exact Finset.union_empty R

theorem filter_eq_single {α} {p : α → Bool} {l : List α} {x : α} (hx : x ∈ l)
    (hpx : p x = true)
    (hu : l.Pairwise fun a b => ¬(p a = true ∧ p b = true)) : l.filter p = [x] := by
  induction l with
  | nil => simp at hx
  | cons a l0 ih =>
    rw [List.pairwise_cons] at hu
    obtain ⟨hu1, hu2⟩ := hu
    rcases List.mem_cons.mp hx with rfl | hx2
    · rw [List.filter_cons, if_pos hpx]
      have hrest : l0.filter p = [] := by
        rw [List.filter_eq_nil_iff]
        intro b hb
        exact fun hpb => hu1 b hb ⟨hpx, hpb⟩
      rw [hrest]
    · have hpa : p a = false := by
        rcases hq : p a with _ | _
        · rfl
        · exact absurd ⟨hq, hpx⟩ (hu1 x hx2)
      rw [List.filter_cons, if_neg (by simp [hpa])]
      exact ih hx2 hu2

/-- The interior directories of a `mkChainEntry` chain hold no files. -/
theorem mkChainEntry_files_interior :
    ∀ (comps : List Comp) (sub : List (Str × DirTree)) (i : Nat),
      i + 1 < comps.length →
      filesAt (mkChainEntry comps sub).2 ((comps.drop 1).take i) = some [] := by
  intro comps
  induction comps with
  | nil => intro sub i hi; simp at hi
  | cons c more ih =>
    intro sub i hi
    rcases more with _ | ⟨m, more2⟩
    · simp at hi
    · dsimp only [mkChainEntry]
      simp only [List.drop_one, List.tail_cons]
      rcases i with _ | j
      · rfl
      · rw [List.take_succ_cons]
        have hstep : filesAt (.node ([] : List (Str × List Str))
            [mkChainEntry (m :: more2) sub]) (m :: (more2.take j))
            = filesAt (mkChainEntry (m :: more2) sub).2 (more2.take j) := by
          unfold filesAt
          rw [nodeAt_cons_find (List.find?_cons_of_pos _ (by
            rw [decide_eq_true_eq, mkChainEntry_fst (by simp)]
            rfl))]
        rw [hstep]
        have := ih sub j (by simpa using hi)
        simpa [List.drop_one] using this

/-- The head character of a group's chain-entry name is the group's
character. -/
theorem entry_head {U2 : List Str} (g2 : List Str)
    (hg2 : g2 ∈ groupsByFirst (U2.filter fun x => !x.isEmpty))
    (sub2 : List (Str × DirTree)) :
    (mkChainEntry (sgChain (lcpList g2)) sub2).1.head? = g2.headI.head? := by
  obtain ⟨h2ne, -, -, h2lcp, h2pref, -⟩ := group_facts hg2
  rw [mkChainEntry_fst (sgChain_ne_nil _), sgChain_head h2lcp]
  exact prefix_head_eq (h2pref _ (headI_mem h2ne)) h2lcp

/-- Looking a group's chain-entry up by name among the built children. -/
theorem build_find_name {U2 : List Str} {m1 : Nat} {g : List Str}
    (hg : g ∈ groupsByFirst (U2.filter fun x => !x.isEmpty)) :
    (index_tokensetF (m1 + 1) U2).find?
        (fun ch => ch.1 = (sgChain (lcpList g)).headI)
      = some (mkChainEntry (sgChain (lcpList g))
          (index_tokensetF m1 (((g.filter fun x => x ≠ lcpList g).map
            fun x => x.drop (lcpList g).length).dedup))) := by
  set entry := mkChainEntry (sgChain (lcpList g))
    (index_tokensetF m1 (((g.filter fun x => x ≠ lcpList g).map
      fun x => x.drop (lcpList g).length).dedup)) with hentry
  unfold index_tokensetF
  apply find?_of_unique (List.mem_map.mpr ⟨g, hg, rfl⟩)
  · rw [decide_eq_true_eq, mkChainEntry_fst (sgChain_ne_nil _)]
  · rw [List.pairwise_map]
    refine ((groupsByFirst_inv _).2.2.1).imp_of_mem ?_
    intro g1 g2 hg1 hg2 h12 hcc
    obtain ⟨h1, h2⟩ := hcc
    rw [decide_eq_true_eq] at h1 h2
    have e1 := entry_head g1 hg1 (index_tokensetF m1
      (((g1.filter fun x => x ≠ lcpList g1).map
        fun x => x.drop (lcpList g1).length).dedup))
    have e2 := entry_head g2 hg2 (index_tokensetF m1
      (((g2.filter fun x => x ≠ lcpList g2).map
        fun x => x.drop (lcpList g2).length).dedup))
    rw [h1] at e1
    rw [h2] at e2
    exact h12 (e1.symm.trans e2)

/-- The built children carry pairwise distinct names. -/
theorem build_names_nodup (U2 : List Str) (m1 : Nat) :
    ((index_tokensetF (m1 + 1) U2).map Prod.fst).Nodup := by
  show ((index_tokensetF (m1 + 1) U2).map Prod.fst).Pairwise (· ≠ ·)
  unfold index_tokensetF
  rw [List.map_map, List.pairwise_map]
  refine ((groupsByFirst_inv _).2.2.1).imp_of_mem ?_
  intro g1 g2 hg1 hg2 h12 heq
  have e1 := entry_head g1 hg1 (index_tokensetF m1
    (((g1.filter fun x => x ≠ lcpList g1).map
      fun x => x.drop (lcpList g1).length).dedup))
  have e2 := entry_head g2 hg2 (index_tokensetF m1
    (((g2.filter fun x => x ≠ lcpList g2).map
      fun x => x.drop (lcpList g2).length).dedup))
  exact h12 ((e1.symm.trans (congrArg List.head? heq)).trans e2)

theorem foldr_union_all_empty {α : Type} {f : α → Finset Str} {l : List α}
    {B : Finset Str} (h : ∀ x ∈ l, f x = ∅) :
    l.foldr (fun m acc => f m ∪ acc) B = B := by
  induction l with
  | nil => rfl
  | cons x l0 ih =>
    rw [List.foldr_cons, ih (fun y hy => h y (List.mem_cons_of_mem x hy)),
      h x (List.mem_cons_self x l0)]
    exact Finset.empty_union B

theorem eq_of_pairwise_attr {α β : Type} {f : α → β} {l : List α} {a b : α}
    (h : l.Pairwise fun x y => f x ≠ f y) (ha : a ∈ l) (hb : b ∈ l)
    (hf : f a = f b) : a = b := by
  induction l with
  | nil => simp at ha
  | cons x l0 ih =>
    rw [List.pairwise_cons] at h
    obtain ⟨h1, h2⟩ := h
    rcases List.mem_cons.mp ha with rfl | ha2
    · rcases List.mem_cons.mp hb with rfl | hb2
      · rfl
      · exact absurd hf (h1 b hb2)
    · rcases List.mem_cons.mp hb with rfl | hb2
      · exact absurd hf.symm (h1 a ha2)
      · exact ih h2 ha2 hb2

/-- The node path of a token, unfolded through its first-character group. -/
theorem tokNodePathF_eq {U2 : List Str} {m1 : Nat} {r : Str} {g2 : List Str}
    (hg2 : g2 ∈ groupsByFirst (U2.filter fun x => !x.isEmpty)) (hrg : r ∈ g2) :
    tokNodePathF (m1 + 1) U2 r
      = sgChain (lcpList g2)
        ++ (if r = lcpList g2 then []
            else tokNodePathF m1 (((g2.filter fun x => x ≠ lcpList g2).map
              fun x => x.drop (lcpList g2).length).dedup) (r.drop (lcpList g2).length)) := by
  conv_lhs => unfold tokNodePathF
  rw [find_group_eq hg2 hrg]

theorem archDepth_archiveOf_pos (sfx : Str) (T : DirTree) :
    1 ≤ archDepth (archiveOf sfx T) := by
  obtain ⟨fs, cs⟩ := T
  show 1 ≤ archDepth (.dir _)
  show 1 ≤ archDepthList _ + 1
  omega

/-- Distinct built children even have distinct first characters. -/
theorem build_names_heads (U2 : List Str) (m1 : Nat) :
    ((index_tokensetF (m1 + 1) U2).map Prod.fst).Pairwise
      (fun a b => a.head? ≠ b.head?) := by
  unfold index_tokensetF
  rw [List.map_map, List.pairwise_map]
  refine ((groupsByFirst_inv _).2.2.1).imp_of_mem ?_
  intro g1 g2 hg1 hg2 h12 heq
  have e1 := entry_head g1 hg1 (index_tokensetF m1
    (((g1.filter fun x => x ≠ lcpList g1).map
      fun x => x.drop (lcpList g1).length).dedup))
  have e2 := entry_head g2 hg2 (index_tokensetF m1
    (((g2.filter fun x => x ≠ lcpList g2).map
      fun x => x.drop (lcpList g2).length).dedup))
  exact h12 ((e1.symm.trans heq).trans e2)

/-- Built children have non-empty names. -/
theorem build_names_ne_nil {U2 : List Str} {m1 : Nat} :
    ∀ e ∈ index_tokensetF (m1 + 1) U2, e.1 ≠ [] := by
  intro e he
  unfold index_tokensetF at he
  obtain ⟨g2, hg2, rfl⟩ := List.mem_map.mp he
  obtain ⟨-, -, -, h2lcp, -, -⟩ := group_facts hg2
  rw [mkChainEntry_fst (sgChain_ne_nil _)]
  exact (sgChain_comps _ h2lcp _ (headI_mem (sgChain_ne_nil _))).1

theorem archiveOf_node (sfx : Str) (fs : List (Str × List Str))
    (cs : List (Str × DirTree)) :
    archiveOf sfx (.node fs cs)
      = .dir (sortByName ((fs.map fun f => (f.1, Arch.file f.2))
          ++ cs.map fun c => (c.1 ++ sfx, archiveOf sfx c.2))) := by
  conv_lhs => unfold archiveOf
  rw [archiveChildren_eq_map]

theorem nodeAt_nil (t : DirTree) : nodeAt t [] = some t := by
  cases t
  rfl

/-- The head character of a group's chain is the group's character. -/
theorem chain_head_group {ts : List Str} {g2 : List Str}
    (hg2 : g2 ∈ groupsByFirst (ts.filter fun z => !z.isEmpty)) :
    (sgChain (lcpList g2)).headI.head? = g2.headI.head? := by
  obtain ⟨h2ne, -, -, h2lcp, h2pref, -⟩ := group_facts hg2
  rw [sgChain_head h2lcp]
  exact prefix_head_eq (h2pref _ (headI_mem h2ne)) h2lcp

/-- A token of another group has a node path that does not start with this
group's chain head. -/
theorem other_group_path_ne {U2 : List Str} {m1 : Nat} {r : Str} {g g2 : List Str}
    (hg : g ∈ groupsByFirst (U2.filter fun z => !z.isEmpty))
    (hg2 : g2 ∈ groupsByFirst (U2.filter fun z => !z.isEmpty))
    (hrg : r ∈ g2) (hne : g2 ≠ g) {x : Comp}
    (hx : (sgChain (lcpList g)).headI = x) (q : Pth) :
    tokNodePathF (m1 + 1) U2 r ≠ x :: q := by
  intro heq
  apply hne
  refine eq_of_pairwise_attr (f := fun gg => gg.headI.head?)
    ((groupsByFirst_inv _).2.2.1) hg2 hg ?_
  show g2.headI.head? = g.headI.head?
  rw [← chain_head_group hg2, ← chain_head_group hg]
  have h1 := congrArg List.head? heq
  rw [tokNodePathF_eq hg2 hrg,
    List.head?_append_of_ne_nil _ (sgChain_ne_nil _)] at h1
  rcases hc2 : sgChain (lcpList g2) with _ | ⟨y, ys⟩
  · exact absurd hc2 (sgChain_ne_nil _)
  · rw [hc2] at h1
    have h2 : y = x := by simpa using h1
    show y.head? = (sgChain (lcpList g)).headI.head?
    rw [h2, hx]

/-- A well-fueled node path of a token is non-empty. -/
theorem tokNodePathF_ne_nil {U3 : List Str} {m2 : Nat} {r : Str}
    (hr : r ∈ U3) (hrne : r ≠ []) (hm : tokM U3 < m2) :
    tokNodePathF m2 U3 r ≠ [] := by
  obtain ⟨m3, rfl⟩ : ∃ m3, m2 = m3 + 1 := ⟨m2 - 1, by
    have h1 : 0 < U3.length := List.length_pos.mpr (List.ne_nil_of_mem hr)
    unfold tokM at hm
    omega⟩
  have htf : r ∈ U3.filter fun z => !z.isEmpty :=
    List.mem_filter.mpr ⟨hr, by simpa using hrne⟩
  obtain ⟨g2, hg2, hrg2⟩ := groupsByFirst_mem htf
  rw [tokNodePathF_eq hg2 hrg2]
  intro hcontra
  exact sgChain_ne_nil _ (List.append_eq_nil.mp hcontra).1

/-- Exact archive search for a stored token: walking the archive of the
built-and-decorated trie returns exactly the token's postings. -/
theorem tar_exact_walk :
    ∀ (n : Nat) (U2 : List Str), tokM U2 < n → (∀ r ∈ U2, GoodToken r) →
      ∀ (corpus : Corpus) (tree : DirTree) (pre : Str) (p : Pth) (m : Nat),
        tokM U2 < m →
        (∀ ch ∈ pre, NormalCh ch) →
        (∀ q, childNamesAt tree (p ++ q)
            = childNamesAt (.node [] (index_tokensetF m U2)) q) →
        (∀ r ∈ U2, filesAt tree (p ++ tokNodePathF m U2 r)
            = some [(encodeInd (pre ++ r), postingsList corpus (pre ++ r))]) →
        (∀ q, q ≠ [] → (∀ r ∈ U2, tokNodePathF m U2 r ≠ q) →
            filesAt tree (p ++ q) = filesAt (.node [] (index_tokensetF m U2)) q) →
        (filesAt tree p = some []
          ∨ filesAt tree p = some [(encodeInd pre, postingsList corpus pre)]) →
        ∀ rrem ∈ U2, ∀ (T : DirTree), nodeAt tree p = some T →
        ∀ (comp : Str), (comp = [103, 122] ∨ comp = [98, 122, 50] ∨ comp = [120, 122]) →
        ∀ fuel, archDepth (archiveOf ([46, 116, 97, 114, 46] ++ comp) T) < fuel →
        getRecordsF indExt (pre ++ rrem) false fuel
            (archiveOf ([46, 116, 97, 114, 46] ++ comp) T) rrem
          = (postingsList corpus (pre ++ rrem)).toFinset := by
  intro n
  induction n with
  | zero => intro U2 h; omega
  | succ N ih =>
    intro U2 hUn hgood corpus tree pre p m hm hpre hn hftok hf0 hself rrem hr T hT
      comp hcomp fuel hfuel
    obtain ⟨m1, rfl⟩ : ∃ m1, m = m1 + 1 := ⟨m - 1, by omega⟩
    obtain ⟨hr_ne, hr_ch⟩ := hgood rrem hr
    obtain ⟨c0, hc0⟩ : ∃ c0, rrem.head? = some c0 := by
      rcases rrem with _ | ⟨c1, ts⟩
      · exact absurd rfl hr_ne
      · exact ⟨c1, rfl⟩
    have htf : rrem ∈ U2.filter fun z => !z.isEmpty :=
      List.mem_filter.mpr ⟨hr, by simpa using hr_ne⟩
    obtain ⟨g, hg, htg⟩ := groupsByFirst_mem htf
    obtain ⟨hg_ne, hg_nn, hg_heads, hlcp_ne, hlcp_pref, hgM⟩ := group_facts hg
    have hlcp_t : lcpList g <+: rrem := hlcp_pref rrem htg
    have hchain_ne := sgChain_ne_nil (lcpList g)
    have hlcp_ch : ∀ z ∈ lcpList g, NormalCh z := fun z hz => hr_ch z (hlcp_t.subset hz)
    have hlcp_df : ∀ z ∈ lcpList g, z ≠ 46 :=
      fun z hz => (normalCh_not_special (hlcp_ch z hz)).2.1
    have hchain_comps : ∀ nc ∈ sgChain (lcpList g), nc ≠ [] ∧ ∀ z ∈ nc, z ≠ 46 := by
      intro nc hnc
      obtain ⟨p1, p2, p3⟩ := sgChain_comps (lcpList g) hlcp_ne nc hnc
      exact ⟨p1, fun z hz => hlcp_df z (p3 z hz)⟩
    obtain ⟨x, xs, hch⟩ : ∃ x xs, sgChain (lcpList g) = x :: xs := by
      rcases hc : sgChain (lcpList g) with _ | ⟨x, xs⟩
      · exact absurd hc hchain_ne
      · exact ⟨x, xs, rfl⟩
    have hx_ne : x ≠ [] := (hchain_comps x (by rw [hch]; simp)).1
    have hx_df : ∀ z ∈ x, z ≠ 46 := (hchain_comps x (by rw [hch]; simp)).2
    have hx_flat : x ++ xs.flatten = lcpList g := by
      rw [← sgChain_flatten (lcpList g), hch]
      simp
    have hx_head : x.head? = some c0 := by
      have h1 := sgChain_head hlcp_ne
      rw [hch] at h1
      exact (h1.trans (prefix_head_eq hlcp_t hlcp_ne)).trans hc0
    have hfindB2 : (index_tokensetF (m1 + 1) U2).find? (fun ch => ch.1 = x)
        = some (mkChainEntry (x :: xs)
            (index_tokensetF m1 (((g.filter fun z => z ≠ lcpList g).map
              fun z => z.drop (lcpList g).length).dedup))) := by
      have h0 := @build_find_name U2 m1 g hg
      rw [hch] at h0
      exact h0
    have hfindB3 : (index_tokensetF (m1 + 1) U2).find?
        (fun ch => ch.1 = (x :: xs).headI)
      = some (mkChainEntry (x :: xs)
          (index_tokensetF m1 (((g.filter fun z => z ≠ lcpList g).map fun z => z.drop (lcpList g).length).dedup))) := hfindB2
    obtain ⟨fsT, csT⟩ := T
    have hcsT : csT.map Prod.fst = (index_tokensetF (m1 + 1) U2).map Prod.fst := by
      have h0 := hn []
      rw [List.append_nil] at h0
      unfold childNamesAt at h0
      rw [hT, nodeAt_nil] at h0
      dsimp only [Option.map] at h0
      exact Option.some.inj h0
    have hfsT : ∀ y ∈ fsT, y = (encodeInd pre, postingsList corpus pre) := by
      have h0 : filesAt tree p = some fsT := by
        unfold filesAt
        rw [hT]
        rfl
      rcases hself with hs | hs <;> rw [h0] at hs
      · rw [Option.some.inj hs]
        intro y hy
        exact absurd hy (List.not_mem_nil y)
      · rw [Option.some.inj hs]
        intro y hy
        exact List.mem_singleton.mp hy
    have hcsT_ne : ∀ cc ∈ csT, cc.1 ≠ [] := by
      intro cc hcc
      have h1 : cc.1 ∈ (index_tokensetF (m1 + 1) U2).map Prod.fst := by
        rw [← hcsT]
        exact List.mem_map_of_mem _ hcc
      obtain ⟨e, he, hee⟩ := List.mem_map.mp h1
      rw [← hee]
      exact build_names_ne_nil e he
    have hcsT_heads : csT.Pairwise fun a b => a.1.head? ≠ b.1.head? := by
      have h0 : (csT.map Prod.fst).Pairwise fun a b => a.head? ≠ b.head? := by
        rw [hcsT]
        exact build_names_heads U2 m1
      exact List.Pairwise.of_map Prod.fst (fun a b h => h) h0
    obtain ⟨d, hd_eq⟩ : ∃ d,
        csT.filter ((fun nm => decide (nm.head? = some c0)) ∘ Prod.fst) = [(x, d)] := by
      apply map_fst_singleton
      rw [← List.filter_map, hcsT]
      apply filter_eq_single
      · exact List.mem_map.mpr ⟨_, List.mem_of_find?_eq_some hfindB2,
          by rw [mkChainEntry_fst (by simp)]; rfl⟩
      · exact decide_eq_true hx_head
      · refine (build_names_heads U2 m1).imp ?_
        intro a b hab hcc
        exact hab (by rw [of_decide_eq_true hcc.1, of_decide_eq_true hcc.2])
    have hd_mem : (x, d) ∈ csT :=
      List.mem_of_mem_filter (by rw [hd_eq]; exact List.mem_singleton_self _)
    have hd_node : nodeAt tree (p ++ [x]) = some d := by
      rw [nodeAt_append, hT]
      show nodeAt (.node fsT csT) [x] = some d
      rw [nodeAt_cons_find (find?_of_unique hd_mem (by simp)
        (hcsT_heads.imp fun hab hcc => hab (by
          rw [of_decide_eq_true hcc.1, of_decide_eq_true hcc.2])))]
      exact nodeAt_nil d
    obtain ⟨fl, rfl⟩ : ∃ fl, fuel = fl + 1 := ⟨fuel - 1, by omega⟩
    rw [archiveOf_node] at hfuel ⊢
    rw [getRecordsF_exact_dir]
    have hrE : rrem.isEmpty = false := by simpa using hr_ne
    have hmapfilter : (csT.map fun c => (c.1 ++ ([46, 116, 97, 114, 46] ++ comp),
          archiveOf ([46, 116, 97, 114, 46] ++ comp) c.2)).filter
            (fun mb => rrem.isEmpty || decide (mb.1.head? = rrem.head?))
        = [(x ++ ([46, 116, 97, 114, 46] ++ comp),
            archiveOf ([46, 116, 97, 114, 46] ++ comp) d)] := by
      rw [List.filter_map]
      rw [List.filter_congr (fun cc hcc =>
        show (rrem.isEmpty || decide ((cc.1 ++ ([46, 116, 97, 114, 46] ++ comp)).head?
            = rrem.head?))
          = ((fun nm => decide (nm.head? = some c0)) ∘ Prod.fst) cc from by
        rw [hrE, Bool.false_or, List.head?_append_of_ne_nil _ (hcsT_ne cc hcc), hc0]
        rfl)]
      rw [hd_eq]
      rfl
    have hfind_none : (sortByName (((sortByName ((fsT.map fun f => (f.1, Arch.file f.2))
          ++ csT.map fun c => (c.1 ++ ([46, 116, 97, 114, 46] ++ comp),
              archiveOf ([46, 116, 97, 114, 46] ++ comp) c.2))).filter
            (fun mb => rrem.isEmpty || decide (mb.1.head? = rrem.head?))))).find?
          (fun mb => decide (pySuffix mb.1 = indExt)
            && decide (stripUnderscores (pyStem mb.1) = pre ++ rrem)) = none := by
      rw [List.find?_eq_none]
      intro mb hmb
      have h1 : mb ∈ (fsT.map fun f => (f.1, Arch.file f.2))
          ++ csT.map fun c => (c.1 ++ ([46, 116, 97, 114, 46] ++ comp),
              archiveOf ([46, 116, 97, 114, 46] ++ comp) c.2) :=
        mem_sortByName.mp (List.mem_of_mem_filter (mem_sortByName.mp hmb))
      rcases List.mem_append.mp h1 with h2 | h2
      · obtain ⟨f0, hf0m, rfl⟩ := List.mem_map.mp h2
        rw [hfsT f0 hf0m]
        intro hh
        simp only [Bool.and_eq_true, decide_eq_true_eq] at hh
        have h3 : stripUnderscores (pyStem (encodeInd pre)) = pre := by
          rw [pyStem_encodeInd]
          exact stripUnderscores_append_underscore
            (fun z hz => (normalCh_not_special (hpre z hz)).1)
        rw [h3] at hh
        have h5 := congrArg List.length hh.2
        rw [List.length_append] at h5
        have h6 := List.length_pos.mpr hr_ne
        omega
      · obtain ⟨cc, hccm, rfl⟩ := List.mem_map.mp h2
        intro hh
        have hh2 : (decide (pySuffix (cc.1 ++ ([46, 116, 97, 114, 46] ++ comp)) = indExt)
            && decide (stripUnderscores (pyStem (cc.1 ++ ([46, 116, 97, 114, 46] ++ comp)))
              = pre ++ rrem)) = true := hh
        rw [exact_pred_tar hcomp] at hh2
        exact Bool.false_ne_true hh2
    rw [hfind_none]
    dsimp only
    have hperm : (sortByName (((sortByName ((fsT.map fun f => (f.1, Arch.file f.2))
          ++ csT.map fun c => (c.1 ++ ([46, 116, 97, 114, 46] ++ comp),
              archiveOf ([46, 116, 97, 114, 46] ++ comp) c.2))).filter
            (fun mb => rrem.isEmpty || decide (mb.1.head? = rrem.head?))))).Perm
        (((fsT.map fun f => (f.1, Arch.file f.2)).filter
            (fun mb => rrem.isEmpty || decide (mb.1.head? = rrem.head?)))
          ++ [(x ++ ([46, 116, 97, 114, 46] ++ comp),
              archiveOf ([46, 116, 97, 114, 46] ++ comp) d)]) := by
      refine (sortByName_perm _).trans ?_
      refine ((sortByName_perm _).filter _).trans ?_
      rw [List.filter_append, hmapfilter]
    rw [foldr_union_perm _ hperm, List.foldr_append, List.foldr_cons, List.foldr_nil]
    rw [tarContrib_tar hx_ne hx_df hcomp, Finset.union_empty]
    have hdecomp : rrem = x ++ (xs.flatten ++ rrem.drop (lcpList g).length) := by
      conv_lhs => rw [← List.prefix_iff_eq_append.mp hlcp_t]
      rw [← hx_flat, List.append_assoc]
    have hstem : nameStemToFirstDot (x ++ ([46, 116, 97, 114, 46] ++ comp)) = x :=
      stemToFirstDot_tarName hx_df
    have hadv : (if x = rrem then [] else rrem.drop x.length)
        = xs.flatten ++ rrem.drop (lcpList g).length := by
      by_cases he : xs.flatten ++ rrem.drop (lcpList g).length = []
      · rw [if_pos (by rw [hdecomp, he, List.append_nil]), he]
      · rw [if_neg (fun hh => he (List.self_eq_append_right.mp (by
          rw [hdecomp] at hh
          exact hh)))]
        conv_lhs => rw [hdecomp]
        simpa using @List.drop_append _ x
          (xs.flatten ++ rrem.drop (lcpList g).length) 0
    rw [hadv]
    have hselfskip : ∀ y ∈ (fsT.map fun f => (f.1, Arch.file f.2)).filter
        (fun mb => rrem.isEmpty || decide (mb.1.head? = rrem.head?)),
        tarContrib indExt (pre ++ rrem) false fl rrem y = ∅ := by
      intro y hy
      obtain ⟨f0, hf0m, rfl⟩ := List.mem_map.mp (List.mem_of_mem_filter hy)
      rw [hfsT f0 hf0m]
      exact tarContrib_ind_skip
        (fun z hz => (normalCh_not_special (hpre z hz)).2.1)
        (Bool.eq_false_iff.mpr (fun hh => token_not_prefix_ind
          (fun z hz => by
            rcases List.mem_append.mp hz with hz | hz
            · exact hpre z hz
            · exact hr_ch z hz)
          (by
            have h9 := List.length_pos.mpr hr_ne
            simp only [List.length_append]
            omega)
          (List.isPrefixOf_iff_prefix.mp hh))) _
    rw [foldr_union_all_empty hselfskip]
    have hcomps2 : ∀ nc ∈ x :: xs, nc ≠ [] ∧ ∀ z ∈ nc, z ≠ 46 :=
      fun nc hnc => hchain_comps nc (hch.symm ▸ hnc)
    have hdep : archDepth (archiveOf ([46, 116, 97, 114, 46] ++ comp) d) < fl := by
      have h1 : (x ++ ([46, 116, 97, 114, 46] ++ comp), archiveOf ([46, 116, 97, 114, 46] ++ comp) d)
          ∈ sortByName ((fsT.map fun f => (f.1, Arch.file f.2))
            ++ csT.map fun c => (c.1 ++ ([46, 116, 97, 114, 46] ++ comp), archiveOf ([46, 116, 97, 114, 46] ++ comp) c.2)) :=
        mem_sortByName.mpr (List.mem_append.mpr (Or.inr (List.mem_map_of_mem _ hd_mem)))
      exact Nat.lt_of_lt_of_le (archDepth_lt_of_mem h1) (Nat.lt_succ_iff.mp hfuel)
    have hrest0 : tokM (((g.filter fun z => z ≠ lcpList g).map fun z => z.drop (lcpList g).length).dedup) < tokM g :=
      tokM_rest_lt hg_ne hg_nn hlcp_ne
    have hrestgood : ∀ r2 ∈ (((g.filter fun z => z ≠ lcpList g).map fun z => z.drop (lcpList g).length).dedup), GoodToken r2 := by
      intro r2 hr2
      rw [List.mem_dedup] at hr2
      obtain ⟨z, hz, rfl⟩ := List.mem_map.mp hr2
      obtain ⟨hzg, hzne⟩ := List.mem_filter.mp hz
      have hzU : z ∈ U2 := List.mem_of_mem_filter (mem_of_mem_group hg hzg)
      have hzne2 : z ≠ lcpList g := by simpa using hzne
      have hdne : z.drop (lcpList g).length ≠ [] :=
        prefix_proper_drop_ne_nil (hlcp_pref z hzg) (fun h => hzne2 h.symm)
      exact goodToken_drop (hgood z hzU) hdne
    have hm2 : tokM (((g.filter fun z => z ≠ lcpList g).map fun z => z.drop (lcpList g).length).dedup) < m1 := by omega
    have hN2 : tokM (((g.filter fun z => z ≠ lcpList g).map fun z => z.drop (lcpList g).length).dedup) < N := by omega
    have hn2 : ∀ q, childNamesAt tree ((p ++ [x]) ++ q)
        = childNamesAt (mkChainEntry (x :: xs) (index_tokensetF m1 (((g.filter fun z => z ≠ lcpList g).map fun z => z.drop (lcpList g).length).dedup))).2 q := by
      intro q
      rw [List.append_assoc]
      have h1 : ([x] : Pth) ++ q = x :: q := rfl
      rw [h1, hn (x :: q)]
      unfold childNamesAt
      rw [nodeAt_cons_find hfindB2]
    have hfi2 : ∀ i, i + 1 < (x :: xs).length →
        filesAt tree ((p ++ [x]) ++ ((x :: xs).drop 1).take i) = some [] := by
      intro i hi
      simp only [List.drop_one, List.tail_cons]
      have h1 : (p ++ [x]) ++ xs.take i = p ++ (x :: xs.take i) := by simp
      rw [h1]
      have hnotok : ∀ r ∈ U2, tokNodePathF (m1 + 1) U2 r ≠ x :: xs.take i := by
        intro r hrU heq
        obtain ⟨hr2ne, hr2ch⟩ := hgood r hrU
        have htf2 : r ∈ U2.filter fun z => !z.isEmpty :=
          List.mem_filter.mpr ⟨hrU, by simpa using hr2ne⟩
        obtain ⟨g2, hg2, hrg2⟩ := groupsByFirst_mem htf2
        by_cases hgg : g2 = g
        · subst hgg
          rw [tokNodePathF_eq hg2 hrg2, hch] at heq
          have hlen := congrArg List.length heq
          rw [List.length_append] at hlen
          simp only [List.length_cons, List.length_take] at hlen
          have hi2 : i + 1 < xs.length + 1 := by simpa using hi
          omega
        · exact other_group_path_ne hg hg2 hrg2 hgg (by rw [hch]; rfl) _ heq
      rw [hf0 (x :: xs.take i) (by simp) hnotok]
      unfold filesAt
      rw [nodeAt_cons_find hfindB2]
      have h9 := mkChainEntry_files_interior (x :: xs) (index_tokensetF m1 (((g.filter fun z => z ≠ lcpList g).map fun z => z.drop (lcpList g).length).dedup)) i
        (by simpa using hi)
      simp only [List.drop_one, List.tail_cons] at h9
      unfold filesAt at h9
      exact h9
    have hcont : ∀ (fuel2 : Nat) (Tend : DirTree),
        nodeAt tree ((p ++ [x]) ++ (x :: xs).drop 1) = some Tend →
        archDepth (archiveOf ([46, 116, 97, 114, 46] ++ comp) Tend) < fuel2 →
        getRecordsF indExt (pre ++ rrem) false fuel2
            (archiveOf ([46, 116, 97, 114, 46] ++ comp) Tend) (rrem.drop (lcpList g).length)
          = (postingsList corpus (pre ++ rrem)).toFinset := by
      intro fuel2 Tend hTend hdep2
      have hTend2 : nodeAt tree (p ++ (x :: xs)) = some Tend := by
        have h1 : p ++ (x :: xs) = (p ++ [x]) ++ (x :: xs).drop 1 := by simp
        rw [h1]
        exact hTend
      by_cases hteq : rrem = lcpList g
      · have hdrop : rrem.drop (lcpList g).length = [] := by
          rw [hteq, List.drop_length]
        rw [hdrop]
        obtain ⟨fsE, csE⟩ := Tend
        have hpath : tokNodePathF (m1 + 1) U2 rrem = x :: xs := by
          rw [tokNodePathF_eq hg htg, if_pos hteq, List.append_nil, hch]
        have hfsE : fsE = [(encodeInd (pre ++ rrem), postingsList corpus (pre ++ rrem))] := by
          have h9 := hftok rrem hr
          rw [hpath] at h9
          unfold filesAt at h9
          rw [hTend2] at h9
          dsimp only [Option.map] at h9
          exact Option.some.inj h9
        obtain ⟨f2, rfl⟩ : ∃ f2, fuel2 = f2 + 1 := ⟨fuel2 - 1, by
          have h5 := archDepth_archiveOf_pos ([46, 116, 97, 114, 46] ++ comp) (DirTree.node fsE csE)
          omega⟩
        rw [archiveOf_node, getRecordsF_exact_dir]
        rw [List.filter_eq_self.mpr (fun a _ => by simp)]
        have hperm2 : (sortByName (sortByName ((fsE.map fun f => (f.1, Arch.file f.2))
            ++ csE.map fun c => (c.1 ++ ([46, 116, 97, 114, 46] ++ comp),
                archiveOf ([46, 116, 97, 114, 46] ++ comp) c.2)))).Perm
            ((fsE.map fun f => (f.1, Arch.file f.2))
            ++ csE.map fun c => (c.1 ++ ([46, 116, 97, 114, 46] ++ comp),
                archiveOf ([46, 116, 97, 114, 46] ++ comp) c.2)) :=
          (sortByName_perm _).trans (sortByName_perm _)
        have hfind : (sortByName (sortByName ((fsE.map fun f => (f.1, Arch.file f.2))
            ++ csE.map fun c => (c.1 ++ ([46, 116, 97, 114, 46] ++ comp),
                archiveOf ([46, 116, 97, 114, 46] ++ comp) c.2)))).find?
              (fun mb => decide (pySuffix mb.1 = indExt)
                && decide (stripUnderscores (pyStem mb.1) = pre ++ rrem))
            = some (encodeInd (pre ++ rrem),
                Arch.file (postingsList corpus (pre ++ rrem))) := by
          apply find?_of_unique
          · exact hperm2.mem_iff.mpr (List.mem_append.mpr (Or.inl (by
              rw [hfsE]
              exact List.mem_singleton_self _)))
          · show (decide (pySuffix (encodeInd (pre ++ rrem)) = indExt)
              && decide (stripUnderscores (pyStem (encodeInd (pre ++ rrem)))
                = pre ++ rrem)) = true
            have h1 : stripUnderscores (pyStem (encodeInd (pre ++ rrem))) = pre ++ rrem := by
              rw [pyStem_encodeInd]
              refine stripUnderscores_append_underscore ?_
              intro z hz
              rcases List.mem_append.mp hz with hz | hz
              · exact (normalCh_not_special (hpre z hz)).1
              · exact (normalCh_not_special (hr_ch z hz)).1
            rw [Bool.and_eq_true, decide_eq_true_eq, decide_eq_true_eq]
            exact ⟨pySuffix_encodeInd _, h1⟩
          · refine (hperm2.pairwise_iff ?_).mpr ?_
            · intro a b hab hcc
              exact hab ⟨hcc.2, hcc.1⟩
            · rw [List.pairwise_append]
              refine ⟨?_, ?_, ?_⟩
              · rw [hfsE]
                simp
              · refine List.pairwise_of_forall_mem_list ?_
                intro a ha b hb hcc
                obtain ⟨cb, hcb, rfl⟩ := List.mem_map.mp hb
                have hfb : (decide (pySuffix (cb.1 ++ ([46, 116, 97, 114, 46] ++ comp)) = indExt)
                    && decide (stripUnderscores (pyStem (cb.1 ++ ([46, 116, 97, 114, 46] ++ comp)))
                      = pre ++ rrem)) = true := hcc.2
                rw [exact_pred_tar hcomp] at hfb
                exact Bool.false_ne_true hfb
              · intro a ha b hb hcc
                obtain ⟨cb, hcb, rfl⟩ := List.mem_map.mp hb
                have hfb : (decide (pySuffix (cb.1 ++ ([46, 116, 97, 114, 46] ++ comp)) = indExt)
                    && decide (stripUnderscores (pyStem (cb.1 ++ ([46, 116, 97, 114, 46] ++ comp)))
                      = pre ++ rrem)) = true := hcc.2
                rw [exact_pred_tar hcomp] at hfb
                exact Bool.false_ne_true hfb
        rw [hfind]
      · have hrr2 : rrem.drop (lcpList g).length ∈ (((g.filter fun z => z ≠ lcpList g).map fun z => z.drop (lcpList g).length).dedup) := by
          rw [List.mem_dedup]
          exact List.mem_map.mpr ⟨rrem, List.mem_filter.mpr ⟨htg, by simpa using hteq⟩, rfl⟩
        have hpre2 : ∀ z ∈ pre ++ lcpList g, NormalCh z := by
          intro z hz
          rcases List.mem_append.mp hz with hz | hz
          · exact hpre z hz
          · exact hlcp_ch z hz
        have hn3 : ∀ q, childNamesAt tree ((p ++ (x :: xs)) ++ q)
            = childNamesAt (.node [] (index_tokensetF m1 (((g.filter fun z => z ≠ lcpList g).map fun z => z.drop (lcpList g).length).dedup))) q := by
          intro q
          rw [List.append_assoc, hn ((x :: xs) ++ q)]
          unfold childNamesAt
          rw [nodeAt_entry (x :: xs) (index_tokensetF m1 (((g.filter fun z => z ≠ lcpList g).map fun z => z.drop (lcpList g).length).dedup)) q [] _ (by simp) hfindB3]
        have hftok3 : ∀ r2 ∈ (((g.filter fun z => z ≠ lcpList g).map fun z => z.drop (lcpList g).length).dedup),
            filesAt tree ((p ++ (x :: xs)) ++ tokNodePathF m1 (((g.filter fun z => z ≠ lcpList g).map fun z => z.drop (lcpList g).length).dedup) r2)
              = some [(encodeInd ((pre ++ lcpList g) ++ r2),
                  postingsList corpus ((pre ++ lcpList g) ++ r2))] := by
          intro r2 hr2
          rw [List.mem_dedup] at hr2
          obtain ⟨z, hz, rfl⟩ := List.mem_map.mp hr2
          obtain ⟨hzg, hzne⟩ := List.mem_filter.mp hz
          have hzne2 : z ≠ lcpList g := by simpa using hzne
          have hzU : z ∈ U2 := List.mem_of_mem_filter (mem_of_mem_group hg hzg)
          have hpathz : tokNodePathF (m1 + 1) U2 z
              = (x :: xs) ++ tokNodePathF m1 (((g.filter fun z => z ≠ lcpList g).map fun z => z.drop (lcpList g).length).dedup) (z.drop (lcpList g).length) := by
            rw [tokNodePathF_eq hg hzg, if_neg hzne2, hch]
          have h9 := hftok z hzU
          rw [hpathz, ← List.append_assoc] at h9
          have halignz : pre ++ z = (pre ++ lcpList g) ++ z.drop (lcpList g).length := by
            rw [List.append_assoc, List.prefix_iff_eq_append.mp (hlcp_pref z hzg)]
          rw [halignz] at h9
          exact h9
        have hf03 : ∀ q, q ≠ [] → (∀ r2 ∈ (((g.filter fun z => z ≠ lcpList g).map fun z => z.drop (lcpList g).length).dedup), tokNodePathF m1 (((g.filter fun z => z ≠ lcpList g).map fun z => z.drop (lcpList g).length).dedup) r2 ≠ q) →
            filesAt tree ((p ++ (x :: xs)) ++ q)
              = filesAt (.node [] (index_tokensetF m1 (((g.filter fun z => z ≠ lcpList g).map fun z => z.drop (lcpList g).length).dedup))) q := by
          intro q hq hnot
          rw [List.append_assoc]
          have hnotok2 : ∀ r ∈ U2, tokNodePathF (m1 + 1) U2 r ≠ (x :: xs) ++ q := by
            intro r hrU heq
            obtain ⟨hr2ne, hr2ch⟩ := hgood r hrU
            have htf2 : r ∈ U2.filter fun z => !z.isEmpty :=
              List.mem_filter.mpr ⟨hrU, by simpa using hr2ne⟩
            obtain ⟨g2, hg2, hrg2⟩ := groupsByFirst_mem htf2
            by_cases hgg : g2 = g
            · rw [hgg] at hrg2
              rw [tokNodePathF_eq hg hrg2, hch] at heq
              have htail := List.append_cancel_left heq
              by_cases hzeq : r = lcpList g
              · rw [if_pos hzeq] at htail
                exact hq htail.symm
              · rw [if_neg hzeq] at htail
                refine hnot (r.drop (lcpList g).length) ?_ htail
                rw [List.mem_dedup]
                exact List.mem_map.mpr ⟨r,
                  List.mem_filter.mpr ⟨hrg2, by simpa using hzeq⟩, rfl⟩
            · exact other_group_path_ne hg hg2 hrg2 hgg (by rw [hch]; rfl) _ heq
          rw [hf0 ((x :: xs) ++ q) (by simp) hnotok2]
          unfold filesAt
          rw [nodeAt_entry (x :: xs) (index_tokensetF m1 (((g.filter fun z => z ≠ lcpList g).map fun z => z.drop (lcpList g).length).dedup)) q [] _ (by simp) hfindB3]
        have hself3 : filesAt tree (p ++ (x :: xs)) = some []
            ∨ filesAt tree (p ++ (x :: xs))
              = some [(encodeInd (pre ++ lcpList g),
                  postingsList corpus (pre ++ lcpList g))] := by
          by_cases hcpg : lcpList g ∈ g
          · right
            have hcpU : lcpList g ∈ U2 :=
              List.mem_of_mem_filter (mem_of_mem_group hg hcpg)
            have hpathc : tokNodePathF (m1 + 1) U2 (lcpList g) = x :: xs := by
              rw [tokNodePathF_eq hg hcpg, if_pos rfl, List.append_nil, hch]
            have h9 := hftok (lcpList g) hcpU
            rw [hpathc] at h9
            exact h9
          · left
            have hnotok3 : ∀ r ∈ U2, tokNodePathF (m1 + 1) U2 r ≠ x :: xs := by
              intro r hrU heq
              obtain ⟨hr2ne, hr2ch⟩ := hgood r hrU
              have htf2 : r ∈ U2.filter fun z => !z.isEmpty :=
                List.mem_filter.mpr ⟨hrU, by simpa using hr2ne⟩
              obtain ⟨g2, hg2, hrg2⟩ := groupsByFirst_mem htf2
              by_cases hgg : g2 = g
              · rw [hgg] at hrg2
                have hrne_cp : r ≠ lcpList g := fun hh => hcpg (hh ▸ hrg2)
                rw [tokNodePathF_eq hg hrg2, if_neg hrne_cp, hch] at heq
                have h4 : tokNodePathF m1 (((g.filter fun z => z ≠ lcpList g).map fun z => z.drop (lcpList g).length).dedup) (r.drop (lcpList g).length) = [] := by
                  have h5 : (x :: xs) ++ tokNodePathF m1 (((g.filter fun z => z ≠ lcpList g).map fun z => z.drop (lcpList g).length).dedup) (r.drop (lcpList g).length)
                      = (x :: xs) ++ [] := by rw [heq, List.append_nil]
                  exact List.append_cancel_left h5
                have hrdm : r.drop (lcpList g).length ∈ (((g.filter fun z => z ≠ lcpList g).map fun z => z.drop (lcpList g).length).dedup) := by
                  rw [List.mem_dedup]
                  exact List.mem_map.mpr ⟨r,
                    List.mem_filter.mpr ⟨hrg2, by simpa using hrne_cp⟩, rfl⟩
                exact tokNodePathF_ne_nil hrdm (hrestgood _ hrdm).1 hm2 h4
              · exact other_group_path_ne hg hg2 hrg2 hgg (by rw [hch]; rfl) _ heq
            rw [hf0 (x :: xs) (by simp) hnotok3]
            unfold filesAt
            have h10 := nodeAt_entry (x :: xs) (index_tokensetF m1 (((g.filter fun z => z ≠ lcpList g).map fun z => z.drop (lcpList g).length).dedup)) [] []
              (index_tokensetF (m1 + 1) U2) (by simp) hfindB3
            rw [List.append_nil, nodeAt_nil] at h10
            rw [h10]
            rfl
        have hres := ih (((g.filter fun z => z ≠ lcpList g).map fun z => z.drop (lcpList g).length).dedup) hN2 hrestgood corpus tree (pre ++ lcpList g)
          (p ++ (x :: xs)) m1 hm2 hpre2 hn3 hftok3 hf03 hself3
          (rrem.drop (lcpList g).length) hrr2 Tend hTend2 comp hcomp fuel2 hdep2
        have halign : (pre ++ lcpList g) ++ rrem.drop (lcpList g).length = pre ++ rrem := by
          rw [List.append_assoc, List.prefix_iff_eq_append.mp hlcp_t]
        rw [halign] at hres
        exact hres
    have hmain := tar_chain_exact (x :: xs) (rrem.drop (lcpList g).length)
      (by simp) hcomps2 (index_tokensetF m1 (((g.filter fun z => z ≠ lcpList g).map fun z => z.drop (lcpList g).length).dedup)) tree (p ++ [x]) (pre ++ rrem) comp
      ((postingsList corpus (pre ++ rrem)).toFinset) hcomp hn2 hfi2 hcont d hd_node fl hdep
    simp only [List.drop_one, List.tail_cons] at hmain
    exact hmain

/-- Exact tar search over the archived built tree retrieves exactly the
token's postings, for each real compression. -/
theorem tar_retrievesrcs_built (corpus : Corpus) (tree : DirTree)
    (hbuild : index_directory corpus = some tree) (t : Str)
    (ht : t ∈ corpusUniverse corpus) (comp : Str)
    (hcomp : comp = [103, 122] ∨ comp = [98, 122, 50] ∨ comp = [120, 122]) :
    retrievesrcs (archiveOf ([46, 116, 97, 114, 46] ++ comp) tree) t false
      = (postingsList corpus t).toFinset := by
  have hgood := @corpusUniverse_good corpus
  obtain ⟨hwalkN, hfilesN, hotherN, hnamesN⟩ := index_built_inv corpus tree hbuild
  have hU1 : tokM (corpusUniverse corpus) < tokM (corpusUniverse corpus) + 1 := by omega
  have hpre0 : ∀ ch ∈ ([] : Str), NormalCh ch :=
    fun ch hch => absurd hch (List.not_mem_nil ch)
  have hroot : filesAt tree [] = some [] := by
    rw [hotherN [] (fun t0 ht0 => tokNodePathF_ne_nil ht0 (hgood t0 ht0).1 hU1)]
    rfl
  have hn0 : ∀ q, childNamesAt tree ([] ++ q)
      = childNamesAt (.node [] (index_tokensetF (tokM (corpusUniverse corpus) + 1) (corpusUniverse corpus))) q :=
    fun q => by
      rw [List.nil_append]
      exact hnamesN q
  have hftok0 : ∀ r ∈ (corpusUniverse corpus), filesAt tree ([] ++ tokNodePathF (tokM (corpusUniverse corpus) + 1) (corpusUniverse corpus) r)
      = some [(encodeInd ([] ++ r), postingsList corpus ([] ++ r))] :=
    fun r hr => by
      simp only [List.nil_append]
      exact hfilesN r hr
  have hf00 : ∀ q, q ≠ [] → (∀ r ∈ (corpusUniverse corpus), tokNodePathF (tokM (corpusUniverse corpus) + 1) (corpusUniverse corpus) r ≠ q) →
      filesAt tree ([] ++ q)
        = filesAt (.node [] (index_tokensetF (tokM (corpusUniverse corpus) + 1) (corpusUniverse corpus))) q :=
    fun q _ hnot => by
      rw [List.nil_append]
      exact hotherN q hnot
  have hmain := tar_exact_walk (tokM (corpusUniverse corpus) + 1) (corpusUniverse corpus) hU1 hgood corpus tree [] []
    (tokM (corpusUniverse corpus) + 1) hU1 hpre0 hn0 hftok0 hf00 (Or.inl hroot) t ht tree
    (nodeAt_nil tree) comp hcomp
    (archDepth (archiveOf ([46, 116, 97, 114, 46] ++ comp) tree) + 1) (by omega)
  simp only [List.nil_append] at hmain
  unfold retrievesrcs
  exact hmain

/-- C2 (amended): the archive search agrees with the tree search for exact
word queries whose tokens all belong to the corpus universe, over the
archive the archiver actually produces for a real compression. -/
theorem tar_tree_match_words_amended (corpus : Corpus) (tree : DirTree)
    (hbuild : index_directory corpus = some tree) (compression : Str)
    (hcomp : compression = [103, 122] ∨ compression = [98, 122, 50]
      ∨ compression = [120, 122])
    (rootName nm : Str) (arch : Arch)
    (harch : patriciaArchive rootName tree compression = some (nm, arch))
    (query : Str) (inclusive : Bool)
    (hq : ∀ t ∈ as_tokens query true, t ∈ corpusUniverse corpus) :
    tarMatchWords arch query inclusive = treeMatchWords tree query inclusive := by
  have harch2 : arch = archiveOf ([46, 116, 97, 114, 46] ++ compression) tree := by
    rcases hcomp with rfl | rfl | rfl
    · have h0 : patriciaArchive rootName tree [103, 122]
          = some (rootName ++ ([46, 116, 97, 114, 46] ++ [103, 122]),
              archiveOf ([46, 116, 97, 114, 46] ++ [103, 122]) tree) := rfl
      rw [h0] at harch
      exact (congrArg Prod.snd (Option.some.inj harch)).symm
    · have h0 : patriciaArchive rootName tree [98, 122, 50]
          = some (rootName ++ ([46, 116, 97, 114, 46] ++ [98, 122, 50]),
              archiveOf ([46, 116, 97, 114, 46] ++ [98, 122, 50]) tree) := rfl
      rw [h0] at harch
      exact (congrArg Prod.snd (Option.some.inj harch)).symm
    · have h0 : patriciaArchive rootName tree [120, 122]
          = some (rootName ++ ([46, 116, 97, 114, 46] ++ [120, 122]),
              archiveOf ([46, 116, 97, 114, 46] ++ [120, 122]) tree) := rfl
      rw [h0] at harch
      exact (congrArg Prod.snd (Option.some.inj harch)).symm
  subst harch2
  have hmap : (as_tokens query true).map
        (fun t2 => retrievesrcs (archiveOf ([46, 116, 97, 114, 46] ++ compression) tree)
          t2 false)
      = (as_tokens query true).map (fun t2 => srcsOfFiles (findtoken tree t2)) := by
    apply List.map_congr_left
    intro t2 ht2
    rw [tar_retrievesrcs_built corpus tree hbuild t2 (hq t2 ht2) compression hcomp]
    rw [findtoken_postings corpus tree hbuild t2 (hq t2 ht2)]
    unfold srcsOfFiles get_entries
    simp
  unfold tarMatchWords treeMatchWords
  rw [hmap]

/-- Concrete instance of the amended C2: corpus with one file "f"
containing "go", archived with gz compression, searched for "go". -/
theorem tar_tree_match_words_amended_witness :
    index_directory [([102], [103, 111])] = some (DirTree.node [] [([103, 111], DirTree.node [([103, 111, 95, 46, 105, 110, 100], [[102]])] [])])
    ∧ ([103, 122] = [103, 122] ∨ ([103, 122] : Str) = [98, 122, 50]
        ∨ ([103, 122] : Str) = [120, 122])
    ∧ patriciaArchive [] (DirTree.node [] [([103, 111], DirTree.node [([103, 111, 95, 46, 105, 110, 100], [[102]])] [])]) [103, 122]
        = some ([46, 116, 97, 114, 46, 103, 122],
            archiveOf [46, 116, 97, 114, 46, 103, 122] (DirTree.node [] [([103, 111], DirTree.node [([103, 111, 95, 46, 105, 110, 100], [[102]])] [])]))
    ∧ (∀ t ∈ as_tokens [103, 111] true, t ∈ corpusUniverse [([102], [103, 111])])
    ∧ tarMatchWords (archiveOf [46, 116, 97, 114, 46, 103, 122] (DirTree.node [] [([103, 111], DirTree.node [([103, 111, 95, 46, 105, 110, 100], [[102]])] [])]))
          [103, 111] false
        = treeMatchWords (DirTree.node [] [([103, 111], DirTree.node [([103, 111, 95, 46, 105, 110, 100], [[102]])] [])]) [103, 111] false :=
  ⟨rfl, Or.inl rfl, rfl, by decide,
    tar_tree_match_words_amended [([102], [103, 111])] (DirTree.node [] [([103, 111], DirTree.node [([103, 111, 95, 46, 105, 110, 100], [[102]])] [])]) rfl
      [103, 122] (Or.inl rfl) [] [46, 116, 97, 114, 46, 103, 122]
      (archiveOf [46, 116, 97, 114, 46, 103, 122] (DirTree.node [] [([103, 111], DirTree.node [([103, 111, 95, 46, 105, 110, 100], [[102]])] [])])) rfl
      [103, 111] false (by decide)⟩

/-- Lexicographic comparison is total. -/
theorem strLe_total : ∀ a b : Str, strLe a b = true ∨ strLe b a = true := by
  intro a
  induction a with
  | nil => intro b; exact Or.inl rfl
  | cons c as2 ih =>
    intro b
    rcases b with _ | ⟨d, bs⟩
    · exact Or.inr rfl
    · unfold strLe
      rcases Nat.lt_trichotomy c d with h | h | h
      · left
        rw [if_pos h]
      · subst h
        rcases ih bs with h2 | h2
        · left
          rw [if_neg (lt_irrefl c), if_neg (lt_irrefl c)]
          exact h2
        · right
          rw [if_neg (lt_irrefl c), if_neg (lt_irrefl c)]
          exact h2
      · right
        rw [if_pos h]

/-- Inserting into a name-sorted member list keeps it name-sorted. -/
theorem chain_insertSorted {x : Str × Arch} {l : List (Str × Arch)}
    (h : l.Chain' fun a b => strLe a.1 b.1 = true) :
    (insertSorted x l).Chain' fun a b => strLe a.1 b.1 = true := by
  induction l with
  | nil => simp [insertSorted]
  | cons y rest ih =>
    unfold insertSorted
    by_cases hxy : strLe x.1 y.1 = true
    · rw [if_pos hxy]
      exact List.chain'_cons.mpr ⟨hxy, h⟩
    · rw [if_neg hxy]
      obtain ⟨hhead, htail⟩ := List.chain'_cons'.mp h
      refine List.chain'_cons'.mpr ⟨?_, ih htail⟩
      intro b hb
      rcases rest with _ | ⟨z, rest2⟩
      · simp [insertSorted] at hb
        subst hb
        rcases strLe_total x.1 y.1 with h2 | h2
        · exact absurd h2 hxy
        · exact h2
      · unfold insertSorted at hb
        by_cases hxz : strLe x.1 z.1 = true
        · rw [if_pos hxz] at hb
          simp at hb
          subst hb
          rcases strLe_total x.1 y.1 with h2 | h2
          · exact absurd h2 hxy
          · exact h2
        · rw [if_neg hxz] at hb
          simp at hb
          subst hb
          exact hhead z rfl

/-- The archiver's member list is name-sorted. -/
theorem sortByName_chain (l : List (Str × Arch)) :
    (sortByName l).Chain' fun a b => strLe a.1 b.1 = true := by
  unfold sortByName
  induction l with
  | nil => simp
  | cons x rest ih => exact chain_insertSorted ih

/-- C8 fails as frozen: for the empty compression ("none"), the archiver
computes the tarfile mode `'w' + f':{compression}' if compression else ''`
whose conditional binds the whole concatenation, so the mode is the empty
string, which `tarfile.open` rejects — no archive is produced at all. -/
theorem archiver_empty_compression_fails :
    patriciaArchive [100] (.node [([97, 95, 46, 105, 110, 100], [[102]])] []) [] = none := rfl

/-- C8 (amended): for the real compressions gz, bz2 and xz the archive of
a directory is named by appending ".tar.<compression>", its members are
exactly the directory's regular files plus one subarchive per child
directory, each under its basename (child basenames get the archive
suffix), and consecutive members are in lexicographic name order. -/
theorem patricia_archive_amended (rootName compression : Str)
    (hcomp : compression = [103, 122] ∨ compression = [98, 122, 50]
      ∨ compression = [120, 122])
    (fs : List (Str × List Str)) (cs : List (Str × DirTree)) :
    ∃ ms, patriciaArchive rootName (.node fs cs) compression
        = some (rootName ++ ([46, 116, 97, 114, 46] ++ compression), Arch.dir ms)
      ∧ ms.Perm ((fs.map fun f => (f.1, Arch.file f.2))
          ++ cs.map fun c => (c.1 ++ ([46, 116, 97, 114, 46] ++ compression),
              archiveOf ([46, 116, 97, 114, 46] ++ compression) c.2))
      ∧ ms.Chain' (fun a b => strLe a.1 b.1 = true) := by
  refine ⟨sortByName ((fs.map fun f => (f.1, Arch.file f.2))
      ++ cs.map fun c => (c.1 ++ ([46, 116, 97, 114, 46] ++ compression),
          archiveOf ([46, 116, 97, 114, 46] ++ compression) c.2)),
    ?_, sortByName_perm _, sortByName_chain _⟩
  rcases hcomp with rfl | rfl | rfl
  · have h0 : patriciaArchive rootName (.node fs cs) [103, 122]
        = some (rootName ++ ([46, 116, 97, 114, 46] ++ [103, 122]),
            archiveOf ([46, 116, 97, 114, 46] ++ [103, 122]) (.node fs cs)) := rfl
    rw [h0, archiveOf_node]
  · have h0 : patriciaArchive rootName (.node fs cs) [98, 122, 50]
        = some (rootName ++ ([46, 116, 97, 114, 46] ++ [98, 122, 50]),
            archiveOf ([46, 116, 97, 114, 46] ++ [98, 122, 50]) (.node fs cs)) := rfl
    rw [h0, archiveOf_node]
  · have h0 : patriciaArchive rootName (.node fs cs) [120, 122]
        = some (rootName ++ ([46, 116, 97, 114, 46] ++ [120, 122]),
            archiveOf ([46, 116, 97, 114, 46] ++ [120, 122]) (.node fs cs)) := rfl
    rw [h0, archiveOf_node]

/-- Concrete instance of the amended C8: a directory "d" holding one
postings file and one child, archived with gz compression. -/
theorem patricia_archive_amended_witness :
    (([103, 122] : Str) = [103, 122] ∨ ([103, 122] : Str) = [98, 122, 50]
      ∨ ([103, 122] : Str) = [120, 122])
    ∧ ∃ ms, patriciaArchive [100]
          (.node [([97, 95, 46, 105, 110, 100], [[102]])] [([98], DirTree.node [] [])])
          [103, 122]
        = some ([100] ++ ([46, 116, 97, 114, 46] ++ [103, 122]), Arch.dir ms)
      ∧ ms.Perm (([([97, 95, 46, 105, 110, 100], [[102]])].map
            fun f => (f.1, Arch.file f.2))
          ++ [([98], DirTree.node [] [])].map
              fun c => (c.1 ++ ([46, 116, 97, 114, 46] ++ [103, 122]),
                archiveOf ([46, 116, 97, 114, 46] ++ [103, 122]) c.2))
      ∧ ms.Chain' (fun a b => strLe a.1 b.1 = true) :=
  ⟨Or.inl rfl, patricia_archive_amended [100] [103, 122] (Or.inl rfl)
    [([97, 95, 46, 105, 110, 100], [[102]])] [([98], DirTree.node [] [])]⟩

end EmailSearcher
